import Mathlib

/-!
Verification development for the pytaridx on-disk index
(`block.py`, `blocktree.py`, `pytaridx.py`).

The Python sources are shallowly embedded:

* Byte strings (Python `bytes` / ASCII `str`) are modelled as `List Char`,
  where each `Char` stands for one byte; keys compared with Python `<`
  (lexicographic by code point) are modelled as `String` with its
  lexicographic order.
* The custom block serializer `Block.assignstring_` and parser
  `Block.parse` are modelled over an explicit value type `PyVal`
  (integers and lists of rows), which covers every dictionary the
  program ever stores in a block.
* SHA-256 is kept abstract: the block model is parametrized by a
  function `hexdigest : List Char → List Char` standing for
  `hashlib.sha256(..).hexdigest()`; theorems assume only the properties
  the real digest has (length 64, ASCII, no newline).
* The in-memory B-tree (`BlockTree.Node`) is modelled as the inductive
  `PTree`; the imperative parent-pointer walk and the bottom-up
  `adjust`/`split` chain of `Node.insert` are re-expressed as a
  structural recursion that performs, per node of the descent path,
  exactly the updates the Python code performs there, in the same
  order.  See the documentation of `insertAux` for the one deliberate
  deviation (second splits of one node in a single insert), which is
  recorded in a `clean` flag.
-/

/-! ## Byte-level primitives shared by block.py and pytaridx.py -/

/-- Escape of one character as done by the regex substitution
`re.compile("(,|\\\\)").sub(r"\\\1", s)` used in `Block.assignstring_`
and `_IndexManager.insert`: commas and backslashes get a backslash
prefix, all other characters are kept. -/
def escChar (c : Char) : List Char :=
  if c = ',' ∨ c = '\\' then ['\\', c] else [c]

/-- Escape a whole string (list of bytes). -/
def escapeStr (l : List Char) : List Char := l.flatMap escChar

/-- Decimal digits of a natural number, accumulator based, matching the
output of Python `str` on a nonnegative int. -/
def natStrGo : Nat → Nat → List Char → List Char
  | 0, _, acc => acc
  | fuel + 1, n, acc =>
    let acc1 := Char.ofNat (48 + n % 10) :: acc
    if n < 10 then acc1 else natStrGo fuel (n / 10) acc1

/-- Decimal representation of a natural number (the fuel bounds the
number of digits; `n` itself digits always suffice). -/
def natStr (n : Nat) : List Char := natStrGo (n + 1) n []

/-- Model of Python `str(i)` (equivalently `"%d" % i`) for an int. -/
def intStr (i : Int) : List Char :=
  if i < 0 then '-' :: natStr (-i).toNat else natStr i.toNat

/-- Rows stored in the `items` list of a block: a name followed by the
integer columns (`(name, offset, size)` for leaves, `(separator,
child-block-number)` for internal nodes). -/
abbrev PyRow := String × List Int

/-- Values of the dictionaries the program serializes into blocks. -/
inductive PyVal where
  | vint (i : Int)
  | vlist (rows : List PyRow)
deriving Repr, DecidableEq

/-- Dictionaries, with Python insertion order. -/
abbrev PyDict := List (String × PyVal)

/-- Python dict assignment `d[k] = v`: replace in place if the key is
present, otherwise append. -/
def dictSet (d : PyDict) (k : String) (v : PyVal) : PyDict :=
  match d with
  | [] => [(k, v)]
  | (k0, v0) :: rest =>
    if k0 = k then (k, v) :: rest else (k0, v0) :: dictSet rest k v

/-- Serialization of one row: every column is escaped and the columns
are joined with commas (`",".join([rec.sub(r"\\\1", str(col)) ...])`). -/
def rowStr (r : PyRow) : List Char :=
  List.intercalate [','] (escapeStr r.1.data :: r.2.map (fun i => escapeStr (intStr i)))

/-- Serialization of a right-hand side in `Block.assignstring_`: an int
becomes its decimal text, a list becomes a brace block with one row per
line. -/
def serializeVal : PyVal → List Char
  | .vint i => intStr i
  | .vlist [] => ['\x7b', '\n', '\x7d']
  | .vlist rows =>
    '\x7b' :: '\n' :: (List.intercalate ['\n'] (rows.map rowStr) ++ ['\n', '\x7d'])

/-- Model of `Block.assignstring_`: newline-joined `key = value` lines
followed by a final `end` line. -/
def assignstring_ (d : PyDict) : List Char :=
  List.intercalate ['\n'] (d.map (fun kv => kv.1.data ++ (" = ".data ++ serializeVal kv.2)))
    ++ "\nend\n".data

/-! ## Model of the line and row scanners used by `Block.parse` and
`_IndexManager.last` -/

/-- Model of Python `bytes.splitlines`: lines are cut at LF, CR and
CRLF, and a trailing terminator does not produce an empty final line. -/
def splitlinesGo (acc : List Char) : List Char → List (List Char)
  | [] => [acc.reverse]
  | '\r' :: '\n' :: rest =>
    acc.reverse :: (if rest.isEmpty then [] else splitlinesGo [] rest)
  | '\n' :: rest =>
    acc.reverse :: (if rest.isEmpty then [] else splitlinesGo [] rest)
  | '\r' :: rest =>
    acc.reverse :: (if rest.isEmpty then [] else splitlinesGo [] rest)
  | c :: rest => splitlinesGo (c :: acc) rest

/-- Model of `data.splitlines()` on bytes. -/
def splitlinesAscii (s : List Char) : List (List Char) :=
  if s.isEmpty then [] else splitlinesGo [] s

/-- Scanner equivalent to iterating the compiled pattern
`(\\.|[^,])*(,|\n)` over `line + b"\n"` and taking `x.group()[:-1]` of
every match: the line is cut into chunks at unescaped commas, a
backslash consumes the following byte (unless that byte is the final
newline, in which case the backslash is an ordinary byte), and each
chunk excludes its terminating comma or newline.  Text after the last
terminator (impossible here, since a newline is appended) yields no
chunk, as `finditer` yields no match for it. -/
def chunkScan (acc : List Char) : List Char → List (List Char)
  | [] => []
  | '\\' :: c :: rest =>
    if c = '\n' then (('\\' :: acc).reverse) :: chunkScan [] rest
    else chunkScan (c :: '\\' :: acc) rest
  | ',' :: rest => acc.reverse :: chunkScan [] rest
  | '\n' :: rest => acc.reverse :: chunkScan [] rest
  | c :: rest => chunkScan (c :: acc) rest

/-- Model of the substitution `re.compile(b"\\\\(.)").sub(b"\1", s)`
found in `Block.parse` and `_IndexManager.last`.  Note that the
replacement template `b"\1"` is the single byte `0x01` (not the
backreference `b"\\1"`), so each backslash-escape collapses to the
byte `0x01` instead of the escaped character. -/
def unescapeBug : List Char → List Char
  | [] => []
  | '\\' :: c :: rest =>
    if c = '\n' then '\\' :: unescapeBug (c :: rest) else '\x01' :: unescapeBug rest
  | c :: rest => c :: unescapeBug rest

/-- Model of `bytes.decode("ASCII")`: succeeds exactly when every byte
is below 128. -/
def decodeAscii (l : List Char) : Option String :=
  if l.all (fun c => c.toNat < 128) then some (String.mk l) else none

/-- Python whitespace stripped by `int()`. -/
def isPySpace (c : Char) : Bool :=
  c = ' ' ∨ c = '\t' ∨ c = '\n' ∨ c = '\r' ∨ c = '\x0b' ∨ c = '\x0c'

/-- Digit-and-underscore part of Python `int()` syntax: underscores may
occur only between digits. -/
def digitsGo (acc : Nat) : List Char → Option Nat
  | [] => some acc
  | '_' :: c :: rest =>
    if c.isDigit then digitsGo (acc * 10 + (c.toNat - 48)) rest else none
  | '_' :: [] => none
  | c :: rest =>
    if c.isDigit then digitsGo (acc * 10 + (c.toNat - 48)) rest else none

/-- Value of a nonempty digit string, possibly with internal
underscores. -/
def digitsVal : List Char → Option Nat
  | [] => none
  | '_' :: _ => none
  | c :: rest => if c.isDigit then digitsGo (c.toNat - 48) rest else none

/-- Model of Python `int(bytes)`: optional surrounding ASCII
whitespace, an optional sign, then a nonempty digit string. -/
def pyIntParse (l : List Char) : Option Int :=
  let t1 := l.dropWhile isPySpace
  let t := (t1.reverse.dropWhile isPySpace).reverse
  match t with
  | '-' :: rest => (digitsVal rest).map (fun n => -(n : Int))
  | '+' :: rest => (digitsVal rest).map (fun n => (n : Int))
  | _ => (digitsVal t).map (fun n => (n : Int))

/-- Parse one list row as in the `listmode` branch of `Block.parse`
(and one tail-log record in `_IndexManager.last`): split into chunks,
apply the (buggy) unescape, decode the first chunk as ASCII and convert
the remaining chunks with `int()`.  Any failure is an exception. -/
def parseRowE (line : List Char) : Except String PyRow :=
  match (chunkScan [] (line ++ ['\n'])).map unescapeBug with
  | [] => .error "IndexError"
  | e0 :: restE =>
    match decodeAscii e0 with
    | none => .error "UnicodeDecodeError"
    | some name =>
      match restE.mapM pyIntParse with
      | none => .error "ValueError"
      | some ints => .ok (name, ints)

/-- Split a line at the first occurrence of a separator, as Python
`line.split(sep, 1)`; `none` when the separator does not occur. -/
def List.splitOnSeq (l : List Char) (sep : List Char) : Option (List Char × List Char) :=
  match l with
  | [] => none
  | c :: rest =>
    if sep.isPrefixOf (c :: rest) then some ([], (c :: rest).drop sep.length)
    else (splitOnSeq rest sep).map (fun p => (c :: p.1, p.2))

/-- Parser state of `Block.parse`: either at the top level or inside a
`key = {` list block. -/
inductive PMode where
  | top
  | inlist (curname : String) (curlist : List PyRow)

/-- Line loop of `Block.parse`. -/
def parseLinesGo (items : PyDict) (mode : PMode) : List (List Char) → Except String PyDict
  | [] => .ok items
  | line :: rest =>
    match mode with
    | .inlist curname curlist =>
      if line = ['\x7d'] then
        parseLinesGo (dictSet items curname (.vlist curlist)) .top rest
      else
        match parseRowE line with
        | .error e => .error e
        | .ok row => parseLinesGo items (.inlist curname (curlist ++ [row])) rest
    | .top =>
      match line.splitOnSeq " = ".data with
      | none =>
        match decodeAscii line with
        | none => .error "UnicodeDecodeError"
        | some curname =>
          if curname = "end" then .ok items else .error "IndexError"
      | some (lhs, rhs) =>
        match decodeAscii lhs with
        | none => .error "UnicodeDecodeError"
        | some curname =>
          if curname = "end" then .ok items
          else
            match decodeAscii rhs with
            | none => .error "UnicodeDecodeError"
            | some rhsS =>
              if rhsS = "\x7b" then parseLinesGo items (.inlist curname []) rest
              else if curname = "hash" then parseLinesGo items .top rest
              else
                match pyIntParse rhs with
                | some i => parseLinesGo (dictSet items curname (.vint i)) .top rest
                | none => .error "ValueError"

/-- Model of `Block.parse` applied to a whole block: run the line loop
over the split lines of the data. -/
def pyParse (data : List Char) : Except String PyDict :=
  parseLinesGo [] .top (splitlinesAscii data)

/-! ## Block model (block.py)

A block is a byte page of size `blocksize`; bytes 0..71 are the line
`hash = <64 hex digits>\n` and the payload starts at
`Block.dataoffset = 72`.  SHA-256 is abstracted by a `hexdigest`
parameter. -/

/-- Write `repl` into `data` starting at byte `pos`, as the bytearray
slice assignment `data[pos:pos+len(repl)] = repl` does for in-range
positions. -/
def writeAt (data : List Char) (pos : Nat) (repl : List Char) : List Char :=
  data.take pos ++ repl ++ data.drop (pos + repl.length)

/-- Blank hash field: 64 spaces (`" " * Block.hashsize`). -/
def blankHashField : List Char := List.replicate 64 ' '

/-- Block header `"hash = " + " " * 64 + "\n"`, 72 bytes. -/
def headerData : List Char := "hash = ".data ++ blankHashField ++ ['\n']

/-- Data of a block freshly constructed from a dictionary
(`Block.__init__`, dict branch, before `assign` runs): header followed
by NUL padding up to the block size. -/
def freshData (bs : Nat) : List Char := headerData ++ List.replicate (bs - 72) '\x00'

/-- Model of `Block.makehash`: blank the hash field, hash the whole
page, store the hex digest in the field. -/
def makehashM (hexdigest : List Char → List Char) (data : List Char) : List Char :=
  let blanked := writeAt data 7 blankHashField
  writeAt blanked 7 (hexdigest blanked)

/-- Model of `Block.checkhash`: compare the stored hex field with the
digest of the page with the field blanked. -/
def checkhashM (hexdigest : List Char → List Char) (data : List Char) : Bool :=
  let h1 := (data.drop 7).take 64
  let blanked := writeAt data 7 blankHashField
  h1 = hexdigest blanked

/-- Model of `Block.assign`: if the serialized items do not fit the
block, return `False` and leave the page untouched; otherwise write the
serialization at the data offset, rehash, and return `True`. -/
def assignM (hexdigest : List Char → List Char) (bs : Nat) (data : List Char)
    (d : PyDict) : List Char × Bool :=
  let s := assignstring_ d
  if 72 + s.length > bs then (data, false)
  else (makehashM hexdigest (writeAt data 72 s), true)

/-! ## Model of `BlockTree.Node.find` -/

/-- Key of `items[i]`; out-of-range access (never reached in the uses
below) defaults to the empty string. -/
def keyAt {α : Type} (items : List (String × α)) (i : Nat) : String :=
  (items[i]?.map Prod.fst).getD ""

/-- Linear branch of `Node.find`: first index whose key is strictly
greater than the query, or the length. -/
def findLin {α : Type} (items : List (String × α)) (key : String) : Nat :=
  match items with
  | [] => 0
  | (k0, _) :: rest => if key < k0 then 0 else findLin rest key + 1

/-- Binary-search loop of `Node.find`: Python integers are modelled as
`Int` and `(a+b)//2` as floor division. -/
def findBinAux {α : Type} (items : List (String × α)) (key : String) (a b : Int) : Int :=
  if h : b - a > 1 then
    let k := (a + b).fdiv 2
    if key < keyAt items k.toNat then findBinAux items key a k
    else findBinAux items key k b
  else b
termination_by (b - a).toNat
decreasing_by
  · have h0 : (a + b).fmod 2 + 2 * ((a + b).fdiv 2) = a + b := Int.fmod_add_fdiv _ _
    have h1 : 0 ≤ (a + b).fmod 2 := Int.fmod_nonneg' _ (by norm_num)
    have h2 : (a + b).fmod 2 < 2 := Int.fmod_lt_of_pos _ (by norm_num)
    omega
  · have h0 : (a + b).fmod 2 + 2 * ((a + b).fdiv 2) = a + b := Int.fmod_add_fdiv _ _
    have h1 : 0 ≤ (a + b).fmod 2 := Int.fmod_nonneg' _ (by norm_num)
    have h2 : (a + b).fmod 2 < 2 := Int.fmod_lt_of_pos _ (by norm_num)
    omega

/-- Binary branch of `Node.find` (`a = -1`, `b = n`). -/
def findBin {α : Type} (items : List (String × α)) (key : String) : Int :=
  findBinAux items key (-1) items.length

/-- Model of `BlockTree.Node.find`: linear scan for fewer than 8 items,
binary search otherwise. -/
def nodeFind {α : Type} (items : List (String × α)) (key : String) : Nat :=
  if items.length < 8 then findLin items key else (findBin items key).toNat

/-- Reference description of what `find` computes (the spec wording):
the smallest index whose key is strictly greater than the query, or the
number of keys when there is none. -/
def findSpec (ks : List String) (key : String) : Nat :=
  match ks with
  | [] => 0
  | k0 :: rest => if key < k0 then 0 else findSpec rest key + 1

/-! ## In-memory tree model (`BlockTree.Node`)

A `PTree` is a fully loaded node: for an internal node, `items` holds
the `(separator, child-block-number)` pairs exactly as `Node.items`
does (including block numbers that may be stale after a split, as in
the source) and `children` plays the role of `Node.nodeptrs` with every
child loaded. -/

inductive PTree where
  | leaf (blockno : Int) (items : List (String × Int × Int))
  | node (blockno : Int) (items : List (String × Int)) (children : List PTree)
deriving Repr

/-- Block number of a node (`Node.blockno`). -/
def blocknoOf : PTree → Int
  | .leaf b _ => b
  | .node b _ _ => b

/-- Number of items of a node (`len(self.items)`). -/
def itemsLen : PTree → Nat
  | .leaf _ items => items.length
  | .node _ items _ => items.length

/-- Key of the first item (`self.items[0][0]`), when it exists. -/
def headKey : PTree → Option String
  | .leaf _ items => items.head?.map Prod.fst
  | .node _ items _ => items.head?.map Prod.fst

/-- All keys stored in the leaves of a subtree, left to right. -/
def treeKeys : PTree → List String
  | .leaf _ items => items.map Prod.fst
  | .node _ _ children => children.attach.flatMap (fun c => treeKeys c.1)
decreasing_by
  have hs := List.sizeOf_lt_of_mem c.2
  simp only [PTree.node.sizeOf_spec]
  omega

/-- Rows of a leaf as serialized into a block. -/
def leafRows (items : List (String × Int × Int)) : List PyRow :=
  items.map (fun it => (it.1, [it.2.1, it.2.2]))

/-- Rows of an internal node as serialized into a block. -/
def nodeRows (items : List (String × Int)) : List PyRow :=
  items.map (fun it => (it.1, [it.2]))

/-- Model of `Node.blockitems`: the dictionary written to the block
store for this node, in Python insertion order. -/
def blockitems : PTree → PyDict
  | .leaf bno items =>
    [("leaf", .vint 1), ("blockno", .vint bno), ("items", .vlist (leafRows items))]
  | .node bno items _ =>
    [("leaf", .vint 0), ("blockno", .vint bno), ("items", .vlist (nodeRows items))]

/-- Model of `Node.storesize`: `Block.dataoffset` (72) plus the length
of the serialized block dictionary. -/
def storesize (t : PTree) : Int := 72 + (assignstring_ (blockitems t)).length

/-- Configuration read from the master block. -/
structure Cfg where
  blocksize : Int
  maxitems : Int
  maxnamelen : Int
  maxreclen : Int
  ovw : Bool
deriving Repr, DecidableEq

/-- Configuration hard-coded by `BlockFile.writemasterblock` (with
overwrite allowed, the `BlockTree` default used by the index manager). -/
def defaultCfg : Cfg := ⟨1024, 100, 160, 160 + 2 * 15 + 3, true⟩

/-- Split condition of `Node.adjust`: too many items, or free space
below `maxreclen`. -/
def needSplit (cfg : Cfg) (t : PTree) : Bool :=
  (itemsLen t : Int) ≥ cfg.maxitems || cfg.blocksize - storesize t < cfg.maxreclen

/-- Model of `Node.split` minus the parent bookkeeping: the first
`n // 2` items stay in the left node, the rest move to a fresh right
node; both sides receive newly allocated block numbers (left first, as
the source allocates `self.blockno` before `right.blockno`). -/
def splitHalves (t : PTree) (free : Int) : PTree × PTree × Int :=
  match t with
  | .leaf _ items =>
    let p := items.length / 2
    (.leaf free (items.take p), .leaf (free + 1) (items.drop p), free + 2)
  | .node _ items children =>
    let p := items.length / 2
    (.node free (items.take p) (children.take p),
      .node (free + 1) (items.drop p) (children.drop p), free + 2)

/-- Result of inserting into a subtree: the subtree (or the two nodes
it split into), the pending separator update for the ancestors
(`some oldkey` while the walk of `Node.insert` continues upward;
`some none` encodes the walk hitting an empty first node, which raises
in Python), the allocation counter, and a `clean` flag recording that
no degenerate split happened (see `insertAux`). -/
structure InsOut where
  sib : PTree ⊕ (PTree × PTree)
  upd : Option (Option String)
  free : Int
  clean : Bool

/-- One `adjust` step of `Node.insert` on the finished node of the
current level: split when `needSplit` holds.  The `clean` flag is
cleared when the split is degenerate: fewer than 2 items (the left half
would be empty), or a left half that itself still satisfies
`needSplit` (the Python call chain would then split that node a second
time, which this model does not replay). -/
def adjustOnce (cfg : Cfg) (t : PTree) (free : Int) (upd : Option (Option String))
    (cl : Bool) : InsOut :=
  if needSplit cfg t then
    let s := splitHalves t free
    ⟨.inr (s.1, s.2.1), upd, s.2.2,
      cl && decide (2 ≤ itemsLen t) && !needSplit cfg s.1⟩
  else ⟨.inl t, upd, free, cl⟩

/-- Separator-update step that `Node.insert` performs on one ancestor
during its walk up the tree (`oldkey = self.items[0][0]`;
`idx2 = p.find(oldkey)`; `p.items[idx2-1] = (key, p.items[idx2-1][1])`,
with Python's negative indexing reaching the last item when
`idx2 == 0`; the walk continues above `p` only when `idx2 == 1`).
`upd = some none` encodes a walk that started at an empty node, for
which Python raises `IndexError` when reading `items[0][0]`. -/
def sepUpdate (key : String) (items : List (String × Int)) :
    Option (Option String) →
      Except String (List (String × Int) × Option (Option String))
  | none => .ok (items, none)
  | some none => .error "IndexError"
  | some (some oldk) =>
    match items[(if nodeFind items oldk = 0 then items.length - 1
        else nodeFind items oldk - 1)]? with
    | none => .error "IndexError"
    | some pr =>
      .ok (items.set (if nodeFind items oldk = 0 then items.length - 1
          else nodeFind items oldk - 1) (key, pr.2),
        if nodeFind items oldk = 1 then some (some oldk) else none)

/-- Model of `BlockTree.Node.insert` along the descent path.

For a leaf this performs the find, the duplicate/overwrite handling,
the detection of a new first key (which starts the separator walk), the
insertion and the final `adjust` — in source order.

For an internal node it recurses into the child chosen exactly as the
source chooses `nodeptrs[idx-1]` (children are assumed loaded; the
index is `idx - 1` where `idx = max(find(key), 1)`), then performs, in
the temporal order of the Python execution: the separator update this
node receives from the walk (`sepUpdate`), the integration of a child
split (`parent.items.insert(idx, (right.items[0][0], right.blockno))`
and the twin `nodeptrs.insert`, at the position the parent's `find`
returns for the right half's first key), and this node's own `adjust`.

Python raises (`IndexError`) where the model returns `.error`; the
model performs at most one split per node per insert, and flags the
executions where Python would split one node twice by `clean = false`
(their final states may differ from this model). -/
def insertAux (cfg : Cfg) (key : String) (v : Int × Int) :
    PTree → Int → Except String InsOut
  | .leaf bno items, free =>
    if nodeFind items key > 0 then
      match items[nodeFind items key - 1]? with
      | none => .error "IndexError"
      | some (n0, _) =>
        if n0 = key then
          if cfg.ovw then
            .ok (adjustOnce cfg (.leaf bno (items.set (nodeFind items key - 1) (key, v)))
              free none true)
          else .error "Object already in tree!"
        else
          .ok (adjustOnce cfg (.leaf bno (items.insertIdx (nodeFind items key) (key, v)))
            free none true)
    else
      .ok (adjustOnce cfg (.leaf bno ((key, v) :: items)) free
        (some (items.head?.map Prod.fst)) true)
  | .node bno items children, free =>
    match h : children[(if nodeFind items key = 0 then 1 else nodeFind items key) - 1]? with
    | none => .error "IndexError"
    | some child =>
      match insertAux cfg key v child free with
      | .error e => .error e
      | .ok out =>
        match sepUpdate key items out.upd with
        | .error e => .error e
        | .ok (items1, upd1) =>
          match out.sib with
          | .inl c1 =>
            .ok (adjustOnce cfg (.node bno items1
                (children.set
                  ((if nodeFind items key = 0 then 1 else nodeFind items key) - 1) c1))
              out.free upd1 out.clean)
          | .inr (l, r) =>
            match headKey r with
            | none => .error "IndexError"
            | some rk =>
              .ok (adjustOnce cfg
                (.node bno (items1.insertIdx (nodeFind items1 rk) (rk, blocknoOf r))
                  ((children.set
                      ((if nodeFind items key = 0 then 1 else nodeFind items key) - 1)
                      l).insertIdx
                    (nodeFind items1 rk) r))
                out.free upd1 out.clean)
decreasing_by
  have hm : child ∈ children := by
    obtain ⟨hlt, heq⟩ := List.getElem?_eq_some_iff.mp h
    exact heq ▸ List.getElem_mem hlt
  have hs := List.sizeOf_lt_of_mem hm
  simp only [PTree.node.sizeOf_spec]
  omega

/-- Model of `BlockTree.insert`: reject over-long keys, run the
recursive insert from the root, and, when the root split, synthesize
the new root at logical block 1 as `Node.split` does (checking that the
old root block number was 1).  The returned boolean is the `clean` flag
of the run (additionally requiring that a freshly created root does not
itself satisfy `needSplit`, since the Python `adjust` chain would then
split it again). -/
def insertTop (cfg : Cfg) (t : PTree) (free : Int) (key : String) (v : Int × Int) :
    Except String (PTree × Int × Bool) :=
  if (key.length : Int) > cfg.maxnamelen then .error "Insert: key too long" else
    match insertAux cfg key v t free with
    | .error e => .error e
    | .ok out =>
      match out.sib with
      | .inl t1 => .ok (t1, out.free, out.clean)
      | .inr (l, r) =>
        match headKey l, headKey r with
        | some lk, some rk =>
          if blocknoOf t ≠ 1 then
            .error "Inconsistent tree -- root block should be no. 1"
          else
            let root := PTree.node 1 [(lk, blocknoOf l), (rk, blocknoOf r)] [l, r]
            .ok (root, out.free, out.clean && !needSplit cfg root)
        | _, _ => .error "IndexError"

/-! ## Tree invariants -/

/-- Executable strict-ascending check on a key list. -/
def chainLtB : List String → Bool
  | [] => true
  | [_] => true
  | a :: b :: r => decide (a < b) && chainLtB (b :: r)

/-- Executable node invariant: for each node, items and children lists
have equal length, the item list is nonempty (internal nodes) and
strictly ascending by key; every separator is a member of and a lower
bound for the keys of its subtree, and those keys lie strictly below
the next separator.  This is the cross-level invariant `Node.treecheck`
verifies and the specification states. -/
def invB : PTree → Bool
  | .leaf _ items => chainLtB (items.map Prod.fst)
  | .node _ items children =>
    decide (items.length = children.length) && !items.isEmpty
    && chainLtB (items.map Prod.fst)
    && children.attach.all (fun c => invB c.1)
    && (List.zip items children).all (fun ic =>
        !(treeKeys ic.2).isEmpty && decide (ic.1.1 ∈ treeKeys ic.2)
        && (treeKeys ic.2).all (fun k => decide (ic.1.1 ≤ k)))
    && (List.zip children items.tail).all (fun ci =>
        (treeKeys ci.1).all (fun k => decide (k < ci.2.1)))
decreasing_by
  have hs := List.sizeOf_lt_of_mem c.2
  simp only [PTree.node.sizeOf_spec]
  omega

/-! ## Sorted insertion on key lists -/

/-- Insertion of a key into a sorted key list, keeping the list
unchanged when the key is already present.  This is the effect of one
`BlockTree` insert on the multiset of keys. -/
def keyIns (key : String) : List String → List String
  | [] => [key]
  | k :: rest =>
    if key < k then key :: k :: rest
    else if key = k then k :: rest
    else k :: keyIns key rest

/-! ## Postcondition of one insert step -/

/-- Postcondition on the sibling result of one level: a single node (or
both split halves) satisfying the invariant whose keys are exactly the
target list. -/
def SibOK (K : List String) : PTree ⊕ (PTree × PTree) → Prop
  | .inl t1 => invB t1 = true ∧ treeKeys t1 = K
  | .inr (l, r) => invB l = true ∧ invB r = true ∧ treeKeys l ≠ [] ∧ treeKeys r ≠ [] ∧
      treeKeys l ++ treeKeys r = K

/-- Postcondition of `insertAux` at a subtree with key list `K`: the
resulting sibling(s) carry `keyIns key K`, and the pending separator
update is `some oldkey` exactly when the subtree minimum changed from
`oldkey` to the strictly smaller `key` (the `some none` shape can only
arise for an empty subtree and makes the caller raise). -/
def InsOutOK (key : String) (K : List String) (out : InsOut) : Prop :=
  SibOK (keyIns key K) out.sib ∧
  (match out.upd with
   | none => K = [] ∨ ∃ h t2, K = h :: t2 ∧ ¬ key < h
   | some o => (∃ oldk t2, o = some oldk ∧ K = oldk :: t2 ∧ key < oldk) ∨
       (o = none ∧ K = []))

/-! ## The spec's per-node invariants (claims C2 and C3) -/

/-- Spec statement of C2: every node's item list is strictly ascending
by key. -/
def allSortedB : PTree → Bool
  | .leaf _ items => chainLtB (items.map Prod.fst)
  | .node _ items children =>
    chainLtB (items.map Prod.fst) && children.attach.all (fun c => allSortedB c.1)
decreasing_by
  have hs := List.sizeOf_lt_of_mem c.2
  simp only [PTree.node.sizeOf_spec]
  omega

/-- Smallest element of a list of keys. -/
def listMin? : List String → Option String
  | [] => none
  | x :: r =>
    match listMin? r with
    | none => some x
    | some m => some (if x ≤ m then x else m)

/-- Spec statement of C3's first sentence: in every internal node, each
separator is the smallest key of its child's subtree and the subtree's
keys all lie below the next separator. -/
def sepInvB : PTree → Bool
  | .leaf _ _ => true
  | .node _ items children =>
    decide (items.length = children.length) &&
    (List.zip items children).all (fun ic =>
      decide (listMin? (treeKeys ic.2) = some ic.1.1)) &&
    (List.zip children items.tail).all (fun ci =>
      (treeKeys ci.1).all (fun k => decide (k < ci.2.1))) &&
    children.attach.all (fun c => sepInvB c.1)
decreasing_by
  have hs := List.sizeOf_lt_of_mem c.2
  simp only [PTree.node.sizeOf_spec]
  omega

/-- The exact effect C3 predicts for a smallest-yet key (when no node
splits): every node on the leftmost-child chain has its first separator
replaced by the new key, the leftmost leaf receives the record at the
front, and nothing else changes. -/
def insertLeftmost (key : String) (v : Int × Int) : PTree → PTree
  | .leaf b items => .leaf b ((key, v) :: items)
  | .node b items children =>
    .node b
      (match items with
       | [] => []
       | (_, b0) :: rest => (key, b0) :: rest)
      (match children with
       | [] => []
       | c :: cs => insertLeftmost key v c :: cs)

instance exceptDecEq {α β : Type} [DecidableEq α] [DecidableEq β] :
    DecidableEq (Except α β)
  | .error a, .error b =>
    if h : a = b then isTrue (by rw [h]) else isFalse (by simp [h])
  | .error _, .ok _ => isFalse (by simp)
  | .ok _, .error _ => isFalse (by simp)
  | .ok a, .ok b =>
    if h : a = b then isTrue (by rw [h]) else isFalse (by simp [h])

/-- Model of `Node.lookup` on a fully loaded subtree: find the key,
raise when the index is 0, descend on internal nodes, compare the final
leaf item. -/
def lookupM (key : String) : PTree → Except String (Int × Int)
  | .leaf _ items =>
    if nodeFind items key = 0 then .error (key ++ " not found!")
    else match items[nodeFind items key - 1]? with
      | none => .error "IndexError"
      | some (n0, v) =>
        if n0 = key then .ok v else .error (key ++ " not found (leaf)!")
  | .node _ items children =>
    if nodeFind items key = 0 then .error (key ++ " not found!")
    else match h : children[nodeFind items key - 1]? with
      | none => .error "IndexError"
      | some c => lookupM key c
decreasing_by
  obtain ⟨hlt, heq⟩ := List.getElem?_eq_some_iff.mp h
  have hs := List.sizeOf_lt_of_mem (heq ▸ List.getElem_mem hlt)
  simp only [PTree.node.sizeOf_spec]
  omega

/-- First value stored under a key of a parsed block dictionary. -/
def dictGet (d : PyDict) (k : String) : Option PyVal :=
  match d with
  | [] => none
  | (k0, v) :: rest => if k0 = k then some v else dictGet rest k

/-- Leaf rows as `Node.__init__` receives them from a parsed block:
`(name, offset, size)` triples. -/
def rowsToLeafItems : List PyRow → Option (List (String × Int × Int))
  | [] => some []
  | (n, [o, s]) :: rest => (rowsToLeafItems rest).map (fun t => (n, o, s) :: t)
  | _ => none

/-- Reconstruction of a leaf `Node` from a parsed block dictionary
(`Node.__init__` with `items["leaf"] > 0`). -/
def leafOfDict (d : PyDict) : Option PTree :=
  match dictGet d "leaf", dictGet d "blockno", dictGet d "items" with
  | some (.vint lf), some (.vint bno), some (.vlist rows) =>
    if lf > 0 then (rowsToLeafItems rows).map (fun items => .leaf bno items)
    else none
  | _, _, _ => none

/-! ## Claims C7 and C9: the index manager's insert and exist -/

/-- Model of `_IndexManager.insert`: the readonly check, then the
tail-log append and flush, then the tree insert (whose first step is
the name-length check).  The log is returned beside the tree outcome
because the append survives a failing tree insert. -/
def imInsert (cfg : Cfg) (ro : Bool) (log : List Char) (t : PTree)
    (free : Int) (name : String) (offset size : Int) :
    List Char × Except String (PTree × Int × Bool) :=
  if ro then (log, .error "Attempting to insert to read-only index")
  else
    (log ++ (escapeStr name.data ++ ',' :: intStr offset ++ ',' :: intStr size ++ ['\n']),
      insertTop cfg t free name (offset, size))

/-- Model of the `try/except` of `_IndexManager.exist` around the
outcome of the lookup: every exception, whatever it is, becomes
`False`. -/
def existE (r : Except String (Int × Int)) : Bool :=
  match r with
  | .ok _ => true
  | .error _ => false

/-- `_IndexManager.exist` on a loaded tree. -/
def existM (key : String) (t : PTree) : Bool := existE (lookupM key t)

/-- What C9 claims `exist` does, written from the spec's words (clearly
spec-derived, for comparison): translate only the not-found errors of
`Node.lookup` to `False` and let every other error propagate. -/
def existSpecL (r : Except String (Int × Int)) : Except String Bool :=
  match r with
  | .ok _ => .ok true
  | .error e =>
    if " not found!".data.isSuffixOf e.data
        || " not found (leaf)!".data.isSuffixOf e.data then .ok false
    else .error e

/-! ## Claim C6: `_IndexManager.last` -/

/-- One parse attempt of `last()` on a candidate line: `none` models an
exception inside the `try` (a non-ASCII name or a non-integer column);
`some none` a record that parses but does not have exactly three fields
(the loop moves on without an exception); `some (some r)` a three-field
record. -/
def lastAttempt (rec : List Char) : Option (Option (String × Int × Int)) :=
  match (chunkScan [] (rec ++ ['\n'])).map unescapeBug with
  | [] => none
  | e0 :: restE =>
    match decodeAscii e0 with
    | none => none
    | some name =>
      match restE.mapM pyIntParse with
      | none => none
      | some ints =>
        match ints with
        | [o, s] => some (some (name, o, s))
        | _ => some none

/-- Model of `_IndexManager.last` with `maxreclen = m`: read the last
`2*m+1` bytes of the tail log, return `None` for an empty log, try the
final line and then the one before it (the indexing `rec = lines[i]`
sits outside the `try`, so a missing second candidate raises), and
raise "Incorrect data at end of lstfile" when no candidate yields a
three-field record. -/
def lastM (m : Nat) (log : List Char) : Except String (Option (String × Int × Int)) :=
  if log.length = 0 then .ok none
  else
    match (splitlinesAscii (log.drop (log.length - (2 * m + 1)))).getLast? with
    | none => .error "IndexError"
    | some rec1 =>
      match lastAttempt rec1 with
      | some (some r) => .ok (some r)
      | _ =>
        if (splitlinesAscii (log.drop (log.length - (2 * m + 1)))).length < 2 then
          .error "IndexError"
        else
          match (splitlinesAscii (log.drop (log.length - (2 * m + 1))))[(splitlinesAscii (log.drop (log.length - (2 * m + 1)))).length - 2]? with
          | none => .error "IndexError"
          | some rec2 =>
            match lastAttempt rec2 with
            | some (some r) => .ok (some r)
            | _ => .error "Incorrect data at end of lstfile"

/-! ## Claim C4: `BlockFile.writeblock` -/

/-- Python dict lookup `d[k]` (keys are unique under `dictSet`). -/
def dictFind (d : PyDict) (k : String) : Option PyVal :=
  (d.find? (fun kv => kv.1 = k)).map Prod.snd

/-- `Block.__init__` from a dictionary: fresh page, then `assign`; the
return value of `assign` is discarded. -/
def blockOfDict (hexdigest : List Char → List Char) (bs : Nat) (d : PyDict) : List Char :=
  (assignM hexdigest bs (freshData bs) d).1

/-- Bytes of physical block `p` of the index file
(`filehandle.seek(p * blocksize); read(blocksize)`). -/
def slotBytes (bs : Nat) (file : List Char) (p : Nat) : List Char :=
  (file.drop (bs * p)).take bs

/-- A file write at an absolute position: overwrites in place and
extends the file, NUL-filling any gap past the old end, as
`seek(pos); write(repl)` does. -/
def fileWrite (file : List Char) (pos : Nat) (repl : List Char) : List Char :=
  (file ++ List.replicate (pos - file.length) '\x00').take pos ++ repl ++
    file.drop (pos + repl.length)

/-- One slot of `getbothblocks_`: `none` for an invalid block (its
seqno stays `-1`), `some (items, s)` for a valid one whose blockno and
seqno checks pass, `.error` when `parse`, a key lookup or the check
raises. -/
def slotInfo (hexdigest : List Char → List Char) (bs : Nat) (file : List Char)
    (blockno : Int) (p : Nat) : Except String (Option (PyDict × Int)) :=
  if checkhashM hexdigest (slotBytes bs file p) then
    match pyParse (slotBytes bs file p) with
    | .error e => .error e
    | .ok items =>
      match dictFind items "seqno" with
      | none => .error "KeyError: seqno"
      | some sv =>
        match dictFind items "blockno" with
        | none => .error "KeyError: blockno"
        | some bv =>
          if bv ≠ PyVal.vint blockno then .error "Incorrect block number in block!"
          else
            match sv with
            | .vlist _ => .error "TypeError"
            | .vint s =>
              if s ≤ 0 then .error "Incorrect block number in block!"
              else .ok (some (items, s))
  else .ok none

/-- Model of `BlockFile.getbothblocks_` for a logical block `n ≥ 1`,
whose copies live in physical slots `2n-1` and `2n`. -/
def getbothblocks_ (hexdigest : List Char → List Char) (bs : Nat) (file : List Char)
    (blockno : Nat) : Except String (Option (PyDict × Int) × Option (PyDict × Int)) :=
  match slotInfo hexdigest bs file (blockno : Int) (2 * blockno - 1) with
  | .error e => .error e
  | .ok o1 =>
    match slotInfo hexdigest bs file (blockno : Int) (2 * blockno) with
    | .error e => .error e
    | .ok o2 => .ok (o1, o2)

/-- The seqno `getbothblocks_` reports for a slot: `-1` when invalid. -/
def seqnoOf : Option (PyDict × Int) → Int
  | some (_, s) => s
  | none => -1

/-- Model of `BlockFile.writeblock` on a logical block `n ≥ 1`: for
`n ≤ lastblock` read both slots, bump the winning seqno and write one
page to the losing slot (on a seqno tie slot `2n` wins, matching
`readblock`); for `n = lastblock + 1` write two identical seqno-1 pages
and advance `lastblock`; further beyond the end raise. Returns the new
file bytes and `lastblock`. -/
def writeblockM (hexdigest : List Char → List Char) (bs : Nat) (file : List Char)
    (lastblock blockno : Nat) (items : PyDict) : Except String (List Char × Nat) :=
  if blockno ≤ lastblock then
    match getbothblocks_ hexdigest bs file blockno with
    | .error e => .error e
    | .ok (o1, o2) =>
      if seqnoOf o1 > seqnoOf o2 then
        .ok (fileWrite file (bs * (2 * blockno))
          (blockOfDict hexdigest bs (dictSet items "seqno" (.vint (seqnoOf o1 + 1)))),
          lastblock)
      else if seqnoOf o2 > 0 then
        .ok (fileWrite file (bs * (2 * blockno - 1))
          (blockOfDict hexdigest bs (dictSet items "seqno" (.vint (seqnoOf o2 + 1)))),
          lastblock)
      else .error "Neither primary nor backup block valid!"
  else if blockno > lastblock + 1 then
    .error "Writing more than one block beying end of file"
  else
    .ok (fileWrite
      (fileWrite file (bs * (2 * blockno - 1))
        (blockOfDict hexdigest bs (dictSet items "seqno" (.vint 1))))
      (bs * (2 * blockno - 1) +
        (blockOfDict hexdigest bs (dictSet items "seqno" (.vint 1))).length)
      (blockOfDict hexdigest bs (dictSet items "seqno" (.vint 1))), blockno)

/-- A fixed stand-in digest function with the right output length. -/
def constHex : List Char → List Char := fun _ => List.replicate 64 'f'

/-- Arithmetic bounds for the floor-division midpoint of the binary
search. -/
theorem fdiv2_bounds {a b : Int} (h : a + 2 ≤ b) :
    a + 1 ≤ (a + b).fdiv 2 ∧ (a + b).fdiv 2 ≤ b - 1 := by
  have h0 : (a + b).fmod 2 + 2 * ((a + b).fdiv 2) = a + b := Int.fmod_add_fdiv _ _
  have h1 : 0 ≤ (a + b).fmod 2 := Int.fmod_nonneg' _ (by norm_num)
  have h2 : (a + b).fmod 2 < 2 := Int.fmod_lt_of_pos _ (by norm_num)
  omega

/-- Induction principle for `PTree` giving the hypothesis for every
member of the child list. -/
theorem PTree.recMem {motive : PTree → Prop}
    (hleaf : ∀ b items, motive (.leaf b items))
    (hnode : ∀ b items children,
      (∀ c ∈ children, motive c) → motive (.node b items children)) :
    ∀ t, motive t := fun t =>
  match t with
  | .leaf b items => hleaf b items
  | .node b items children =>
    hnode b items children (fun c _hc => PTree.recMem hleaf hnode c)
decreasing_by
  have hs := List.sizeOf_lt_of_mem _hc
  simp only [PTree.node.sizeOf_spec]
  omega

/-! ## Correctness of `Node.find` (claim C8) -/

/-- The linear branch computes the reference index on the key list. -/
theorem findLin_eq_findSpec {α : Type} (items : List (String × α)) (key : String) :
    findLin items key = findSpec (items.map Prod.fst) key := by
  induction items with
  | nil => rfl
  | cons hd tl ih =>
    obtain ⟨k0, v0⟩ := hd
    simp only [findLin, findSpec, List.map_cons, ih]

theorem findSpec_le_length (ks : List String) (key : String) :
    findSpec ks key ≤ ks.length := by
  induction ks with
  | nil => simp [findSpec]
  | cons k0 rest ih =>
    simp only [findSpec, List.length_cons]
    split
    · omega
    · omega

/-- Below the reference index, no key is greater than the query. -/
theorem findSpec_min (ks : List String) (key : String) :
    ∀ j, j < findSpec ks key → ∀ (hj : j < ks.length), ¬ key < ks[j] := by
  induction ks with
  | nil => intro j hj; simp [findSpec] at hj
  | cons k0 rest ih =>
    intro j hj hjl
    simp only [findSpec] at hj
    by_cases hk : key < k0
    · simp [hk] at hj
    · rw [if_neg hk] at hj
      match j with
      | 0 => simpa using hk
      | j + 1 =>
        have := ih j (by omega) (by simpa using hjl)
        simpa using this

/-- At the reference index (when in range), the key is greater than the
query. -/
theorem findSpec_hit (ks : List String) (key : String)
    (h : findSpec ks key < ks.length) : key < ks[findSpec ks key] := by
  induction ks with
  | nil => simp [findSpec] at h
  | cons k0 rest ih =>
    by_cases hk : key < k0
    · simpa [findSpec, hk] using hk
    · simp only [findSpec, if_neg hk] at h ⊢
      have := ih (by simpa using h)
      simpa using this

theorem keyAt_eq {α : Type} (items : List (String × α)) (i : Nat)
    (h : i < items.length) : keyAt items i = (items.map Prod.fst).get ⟨i, by simpa using h⟩ := by
  simp [keyAt, List.getElem?_eq_getElem h]

/-- Core invariant argument for the binary branch: as long as every
index at or below `a` carries a key not above the query and every index
at or beyond `b` carries a key above the query, the loop returns the
reference index. -/
theorem findBinAux_eq {α : Type} (items : List (String × α)) (key : String)
    (hs : List.Pairwise (· < ·) (items.map Prod.fst)) :
    ∀ (m : Nat) (a b : Int), (b - a).toNat ≤ m → -1 ≤ a → a < b → b ≤ items.length →
      (∀ i : Nat, i < items.length → (i : Int) ≤ a → ¬ key < keyAt items i) →
      (∀ i : Nat, i < items.length → (b : Int) ≤ i → key < keyAt items i) →
      findBinAux items key a b = findSpec (items.map Prod.fst) key := by
  intro m
  induction m with
  | zero => intro a b hm ha hab _ _ _; omega
  | succ m ih =>
    intro a b hm ha hab hb hlow hhigh
    rw [findBinAux]
    by_cases hgt : b - a > 1
    · rw [dif_pos hgt]
      have hkb := fdiv2_bounds (show a + 2 ≤ b by omega)
      set k := (a + b).fdiv 2 with hk
      have hk0 : 0 ≤ k := by omega
      have hkl : k.toNat < items.length := by omega
      by_cases hlt : key < keyAt items k.toNat
      · rw [if_pos hlt]
        refine ih a k (by omega) ha (by omega) (by omega) hlow ?_
        intro i hi hki
        have hmap : ((items.map Prod.fst).get ⟨k.toNat, by simpa using hkl⟩) ≤
            ((items.map Prod.fst).get ⟨i, by simpa using hi⟩) := by
          rcases Nat.lt_or_ge k.toNat i with hlt2 | hge
          · exact le_of_lt (List.pairwise_iff_getElem.mp hs _ _ (by simpa using hkl)
              (by simpa using hi) hlt2)
          · have : k.toNat = i := by omega
            simp [this]
        rw [keyAt_eq _ _ hkl] at hlt
        rw [keyAt_eq _ _ hi]
        exact lt_of_lt_of_le hlt hmap
      · rw [if_neg hlt]
        refine ih k b (by omega) (by omega) (by omega) hb ?_ hhigh
        intro i hi hik
        have hmap : ((items.map Prod.fst).get ⟨i, by simpa using hi⟩) ≤
            ((items.map Prod.fst).get ⟨k.toNat, by simpa using hkl⟩) := by
          rcases Nat.lt_or_ge i k.toNat with hlt2 | hge
          · exact le_of_lt (List.pairwise_iff_getElem.mp hs _ _ (by simpa using hi)
              (by simpa using hkl) hlt2)
          · have : i = k.toNat := by omega
            simp [this]
        rw [keyAt_eq _ _ hkl] at hlt
        rw [keyAt_eq _ _ hi]
        intro hcon
        exact hlt (lt_of_lt_of_le hcon hmap)
    · rw [dif_neg hgt]
      have hb1 : b = a + 1 := by omega
      have hspec_gt : (a : Int) < findSpec (items.map Prod.fst) key := by
        by_contra hle
        push_neg at hle
        have ha0 : 0 ≤ (findSpec (items.map Prod.fst) key : Int) := by positivity
        have hlt : findSpec (items.map Prod.fst) key < items.length := by omega
        have := findSpec_hit (items.map Prod.fst) key (by simpa using hlt)
        have hnot := hlow (findSpec (items.map Prod.fst) key) (by omega) (by omega)
        rw [keyAt_eq _ _ (by omega)] at hnot
        exact hnot (by simpa using this)
      have hsl : findSpec (items.map Prod.fst) key ≤ items.length := by
        have := findSpec_le_length (items.map Prod.fst) key
        simpa using this
      have hspec_le : (findSpec (items.map Prod.fst) key : Int) ≤ b := by
        by_contra hgt2
        push_neg at hgt2
        have hbl : b.toNat < items.length := by omega
        have := hhigh b.toNat (by omega) (by omega)
        rw [keyAt_eq _ _ hbl] at this
        have hmin := findSpec_min (items.map Prod.fst) key b.toNat (by omega)
          (by simpa using hbl)
        exact hmin (by simpa using this)
      omega

/-- The binary branch computes the reference index on sorted keys. -/
theorem findBin_eq_findSpec {α : Type} (items : List (String × α)) (key : String)
    (hs : List.Pairwise (· < ·) (items.map Prod.fst)) :
    findBin items key = findSpec (items.map Prod.fst) key := by
  have := findBinAux_eq items key hs ((items.length : Int) + 1).toNat (-1) items.length
    (by omega) (by omega) (by omega) (by omega)
    (by intro i _ hi; exact absurd hi (by omega))
    (by intro i hi hbi; exact absurd hbi (by omega))
  simpa [findBin] using this

/-- On sorted keys both branches of `Node.find` compute the reference
index. -/
theorem nodeFind_eq_findSpec {α : Type} (items : List (String × α)) (key : String)
    (hs : List.Pairwise (· < ·) (items.map Prod.fst)) :
    nodeFind items key = findSpec (items.map Prod.fst) key := by
  unfold nodeFind
  split
  · exact findLin_eq_findSpec items key
  · rw [findBin_eq_findSpec items key hs]
    omega

theorem chainLtB_iff_chain (l : List String) :
    chainLtB l = true ↔ List.Chain' (· < ·) l := by
  match l with
  | [] => simp [chainLtB]
  | [a] => simp [chainLtB]
  | a :: b :: r =>
    rw [List.chain'_cons]
    have ih := chainLtB_iff_chain (b :: r)
    simp [chainLtB, ih]

theorem chainLtB_iff_pairwise (l : List String) :
    chainLtB l = true ↔ List.Pairwise (· < ·) l := by
  rw [chainLtB_iff_chain, List.chain'_iff_pairwise]

/-- Unfolding characterization of `invB` on an internal node. -/
theorem invB_node_iff (b : Int) (items : List (String × Int)) (children : List PTree) :
    invB (.node b items children) = true ↔
      items.length = children.length ∧ items ≠ [] ∧
      List.Pairwise (· < ·) (items.map Prod.fst) ∧
      (∀ c ∈ children, invB c = true) ∧
      (∀ p ∈ List.zip items children,
        treeKeys p.2 ≠ [] ∧ p.1.1 ∈ treeKeys p.2 ∧ ∀ k ∈ treeKeys p.2, p.1.1 ≤ k) ∧
      (∀ p ∈ List.zip children items.tail, ∀ k ∈ treeKeys p.1, k < p.2.1) := by
  rw [invB]
  simp only [Bool.and_eq_true, List.all_eq_true, decide_eq_true_eq,
    Bool.not_eq_true', List.isEmpty_eq_false, chainLtB_iff_pairwise,
    List.mem_attach, true_implies, Subtype.forall]
  constructor
  · rintro ⟨⟨⟨⟨⟨h1, h2⟩, h3⟩, h4⟩, h5⟩, h6⟩
    exact ⟨h1, h2, h3, fun c hc => h4 c hc,
      fun p hp => ⟨((h5 p hp).1).1, ((h5 p hp).1).2, (h5 p hp).2⟩,
      fun p hp => h6 p hp⟩
  · rintro ⟨h1, h2, h3, h4, h5, h6⟩
    exact ⟨⟨⟨⟨⟨h1, h2⟩, h3⟩, fun c hc => h4 c hc⟩,
      fun p hp => ⟨⟨(h5 p hp).1, (h5 p hp).2.1⟩, (h5 p hp).2.2⟩⟩,
      fun p hp => h6 p hp⟩

theorem invB_leaf_iff (b : Int) (items : List (String × Int × Int)) :
    invB (.leaf b items) = true ↔ List.Pairwise (· < ·) (items.map Prod.fst) := by
  rw [invB, chainLtB_iff_pairwise]

theorem mem_keyIns (key a : String) (l : List String) :
    a ∈ keyIns key l ↔ a = key ∨ a ∈ l := by
  induction l with
  | nil => simp [keyIns]
  | cons k rest ih =>
    by_cases h1 : key < k
    · rw [keyIns, if_pos h1]
      simp only [List.mem_cons]
    · by_cases h2 : key = k
      · subst h2
        rw [keyIns, if_neg h1, if_pos rfl]
        simp only [List.mem_cons]
        tauto
      · rw [keyIns, if_neg h1, if_neg h2]
        simp only [List.mem_cons, ih]
        tauto

theorem keyIns_pairwise (key : String) (l : List String)
    (hs : List.Pairwise (· < ·) l) :
    List.Pairwise (· < ·) (keyIns key l) := by
  induction l with
  | nil => simp [keyIns]
  | cons k rest ih =>
    rw [List.pairwise_cons] at hs
    by_cases h1 : key < k
    · rw [keyIns, if_pos h1, List.pairwise_cons]
      refine ⟨?_, List.pairwise_cons.mpr hs⟩
      intro a ha
      rcases List.mem_cons.mp ha with h | h
      · exact h ▸ h1
      · exact lt_trans h1 (hs.1 a h)
    · by_cases h2 : key = k
      · rw [keyIns, if_neg h1, if_pos h2, List.pairwise_cons]
        exact hs
      · rw [keyIns, if_neg h1, if_neg h2, List.pairwise_cons]
        refine ⟨?_, ih hs.2⟩
        intro a ha
        rcases (mem_keyIns key a rest).mp ha with h | h
        · subst h
          rcases lt_trichotomy a k with h | h | h
          · exact absurd h h1
          · exact absurd h h2
          · exact h
        · exact hs.1 a h

theorem keyIns_of_mem (key : String) (l : List String)
    (hs : List.Pairwise (· < ·) l) (hm : key ∈ l) : keyIns key l = l := by
  induction l with
  | nil => simp at hm
  | cons k rest ih =>
    rw [List.pairwise_cons] at hs
    rcases List.mem_cons.mp hm with h | h
    · subst h
      rw [keyIns, if_neg (lt_irrefl key), if_pos rfl]
    · have hkk : k < key := hs.1 key h
      rw [keyIns, if_neg (by exact fun hc => absurd (lt_trans hc hkk) (lt_irrefl key)),
        if_neg (by exact fun hc => absurd (hc ▸ hkk) (lt_irrefl key)), ih hs.2 h]

theorem keyIns_head_lt (key k : String) (rest : List String) (h : key < k) :
    keyIns key (k :: rest) = key :: k :: rest := by
  rw [keyIns, if_pos h]

theorem keyIns_head_ge (key k : String) (rest : List String) (h : ¬ key < k) (hne : key ≠ k) :
    keyIns key (k :: rest) = k :: keyIns key rest := by
  rw [keyIns, if_neg h, if_neg hne]

/-- Localization: inserting a key larger than everything in a prefix
passes over the prefix. -/
theorem keyIns_append_right (key : String) (l1 l2 : List String)
    (h : ∀ x ∈ l1, x < key) :
    keyIns key (l1 ++ l2) = l1 ++ keyIns key l2 := by
  induction l1 with
  | nil => simp
  | cons k rest ih =>
    have hk : k < key := h k (by simp)
    rw [List.cons_append, keyIns, if_neg (by exact fun hc => absurd (lt_trans hc hk) (lt_irrefl key)),
      if_neg (by exact fun hc => absurd (hc ▸ hk) (lt_irrefl key)), List.cons_append,
      ih (fun x hx => h x (by simp [hx]))]

/-- Localization: inserting a key smaller than everything in a suffix
acts on the prefix. -/
theorem keyIns_append_left (key : String) (l1 l2 : List String)
    (h : ∀ x ∈ l2, key < x) :
    keyIns key (l1 ++ l2) = keyIns key l1 ++ l2 := by
  induction l1 with
  | nil =>
    match l2 with
    | [] => simp [keyIns]
    | x :: r2 =>
      have hx := h x (by simp)
      simp only [List.nil_append, keyIns, if_pos hx]
      rfl
  | cons k rest ih =>
    by_cases h1 : key < k
    · rw [List.cons_append, keyIns, if_pos h1, keyIns, if_pos h1, List.cons_append,
        List.cons_append]
    · by_cases h2 : key = k
      · rw [List.cons_append, keyIns, if_neg h1, if_pos h2, keyIns, if_neg h1, if_pos h2,
          List.cons_append]
      · rw [List.cons_append, keyIns, if_neg h1, if_neg h2, keyIns, if_neg h1, if_neg h2,
          List.cons_append, ih]

theorem keyIns_ne_nil (key : String) (l : List String) : keyIns key l ≠ [] := by
  match l with
  | [] => simp [keyIns]
  | k :: rest =>
    rw [keyIns]
    split
    · simp
    · split <;> simp

/-- When the key is not below the head, insertion keeps the head. -/
theorem keyIns_head_of_not_lt (key h : String) (t : List String) (hn : ¬ key < h) :
    (keyIns key (h :: t)).head? = some h := by
  rw [keyIns, if_neg hn]
  split <;> simp

/-- A key below every element is inserted in front. -/
theorem keyIns_of_lt_all (key : String) (l : List String) (h : ∀ x ∈ l, key < x) :
    keyIns key l = key :: l := by
  match l with
  | [] => simp [keyIns]
  | x :: r =>
    rw [keyIns, if_pos (h x (by simp))]

theorem findSpec_zero_of_lt_all (key : String) (l : List String)
    (h : ∀ x ∈ l, key < x) : findSpec l key = 0 := by
  match l with
  | [] => simp [findSpec]
  | x :: r =>
    rw [findSpec, if_pos (h x (by simp))]

/-- Reference index of a present key: the item just before the index is
the key itself. -/
theorem findSpec_of_mem (key : String) (ks : List String)
    (hs : List.Pairwise (· < ·) ks) (hmem : key ∈ ks) :
    ks[findSpec ks key - 1]? = some key := by
  induction ks with
  | nil => simp at hmem
  | cons k rest ih =>
    rw [List.pairwise_cons] at hs
    by_cases h1 : key < k
    · rcases List.mem_cons.mp hmem with h2 | h2
      · exact absurd (h2 ▸ h1) (lt_irrefl key)
      · exact absurd (lt_trans h1 (hs.1 key h2)) (lt_irrefl key)
    · by_cases h2 : key = k
      · subst h2
        have hz : findSpec rest key = 0 := findSpec_zero_of_lt_all key rest hs.1
        simp [findSpec, if_neg h1, hz]
      · have h3 : key ∈ rest := by
          rcases List.mem_cons.mp hmem with h4 | h4
          · exact absurd h4 h2
          · exact h4
        have h4 : 1 ≤ findSpec rest key := by
          rcases Nat.eq_zero_or_pos (findSpec rest key) with h5 | h5
          · exfalso
            match rest, h3 with
            | x :: r2, h3 =>
              rw [findSpec] at h5
              split at h5
              · rename_i hlt
                rcases List.mem_cons.mp h3 with h6 | h6
                · subst h6
                  exact absurd hlt (lt_irrefl key)
                · exact absurd (lt_trans hlt ((List.pairwise_cons.mp hs.2).1 key h6))
                    (lt_irrefl key)
              · simp at h5
          · omega
        have ih2 := ih hs.2 h3
        rw [findSpec, if_neg h1]
        have : findSpec rest key + 1 - 1 = (findSpec rest key - 1) + 1 := by omega
        rw [this, List.getElem?_cons_succ]
        exact ih2

/-- Inserting an absent key at the reference index is sorted
insertion. -/
theorem insertIdx_findSpec (key : String) (ks : List String)
    (hmem : key ∉ ks) :
    ks.insertIdx (findSpec ks key) key = keyIns key ks := by
  induction ks with
  | nil => simp [findSpec, keyIns]
  | cons k rest ih =>
    by_cases h1 : key < k
    · rw [findSpec, if_pos h1, keyIns, if_pos h1]
      rfl
    · have h2 : key ≠ k := fun hc => hmem (by simp [hc])
      rw [findSpec, if_neg h1, keyIns, if_neg h1, if_neg h2]
      have : rest.insertIdx (findSpec rest key) key = keyIns key rest :=
        ih (fun hc => hmem (by simp [hc]))
      rw [← this]
      rfl

theorem insertIdx_length_append {α : Type} (A B : List α) (x : α) :
    (A ++ B).insertIdx A.length x = A ++ x :: B := by
  induction A with
  | nil => rfl
  | cons a arest ih => simp [List.insertIdx_succ_cons, ih]

/-! ## Facts about tree keys under the invariant -/

theorem treeKeys_node_eq (b : Int) (items : List (String × Int)) (children : List PTree) :
    treeKeys (.node b items children) = children.flatMap treeKeys := by
  rw [treeKeys]
  conv_rhs => rw [← List.attach_map_subtype_val children]
  rw [List.flatMap_map]

/-- In a sorted list, the head is a lower bound. -/
theorem sorted_head_le (l : List String) (hs : List.Pairwise (· < ·) l)
    (h a : String) (hl : l.head? = some h) (ha : a ∈ l) : h ≤ a := by
  match l with
  | [] => simp at hl
  | h0 :: t =>
    simp only [List.head?_cons, Option.some.injEq] at hl
    subst hl
    rcases List.mem_cons.mp ha with h1 | h1
    · exact le_of_eq h1.symm
    · exact le_of_lt ((List.pairwise_cons.mp hs).1 a h1)

/-- A member that bounds a sorted list from below is its head. -/
theorem sorted_min_head (l : List String) (hs : List.Pairwise (· < ·) l)
    (a : String) (ha : a ∈ l) (hmin : ∀ x ∈ l, a ≤ x) : l.head? = some a := by
  match l with
  | [] => simp at ha
  | h0 :: t =>
    rcases List.mem_cons.mp ha with h1 | h1
    · simp [h1]
    · have h2 := (List.pairwise_cons.mp hs).1 a h1
      have h3 := hmin h0 (by simp)
      exact absurd (lt_of_le_of_lt h3 h2) (lt_irrefl a)

/-- Under the invariant all keys of a subtree are sorted. -/
theorem invB_keys_sorted (t : PTree) (hInv : invB t = true) :
    List.Pairwise (· < ·) (treeKeys t) := by
  induction t using PTree.recMem with
  | hleaf b items =>
    rw [invB_leaf_iff] at hInv
    simpa [treeKeys] using hInv
  | hnode b items children ih =>
    rw [invB_node_iff] at hInv
    obtain ⟨hlen, hne, hsep, hch, hlow, hup⟩ := hInv
    rw [treeKeys_node_eq, List.flatMap_def]
    rw [List.pairwise_join]
    refine ⟨?_, ?_⟩
    · intro l hl
      rw [List.mem_map] at hl
      obtain ⟨c, hc, rfl⟩ := hl
      exact ih c hc (hch c hc)
    · rw [List.pairwise_map, List.pairwise_iff_getElem]
      intro i j hi hj hij x hx y hy
      -- keys of child i are below separator i+1, which is at most
      -- separator j, which bounds keys of child j from below
      have hisep : x < (items.map Prod.fst).get ⟨i + 1, by simpa using by omega⟩ := by
        have hmem : (children.get ⟨i, hi⟩, items.tail.get ⟨i, by simp; omega⟩) ∈
            List.zip children items.tail := by
          have : (List.zip children items.tail).get ⟨i, by simp; omega⟩ =
              (children.get ⟨i, hi⟩, items.tail.get ⟨i, by simp; omega⟩) := by
            simp [List.getElem_zip]
          exact this ▸ List.get_mem _ _ _
        have := hup _ hmem x hx
        simpa [List.getElem_tail] using this
      have hjsep : (items.map Prod.fst).get ⟨j, by simpa using by omega⟩ ≤ y := by
        have hmem : (items.get ⟨j, by omega⟩, children.get ⟨j, hj⟩) ∈
            List.zip items children := by
          have : (List.zip items children).get ⟨j, by simp; omega⟩ =
              (items.get ⟨j, by omega⟩, children.get ⟨j, hj⟩) := by
            simp [List.getElem_zip]
          exact this ▸ List.get_mem _ _ _
        have := (hlow _ hmem).2.2 y hy
        simpa using this
      rcases Nat.lt_or_ge (i + 1) j with hij2 | hij2
      · have hmono : (items.map Prod.fst).get ⟨i + 1, by simpa using by omega⟩ <
            (items.map Prod.fst).get ⟨j, by simpa using by omega⟩ :=
          List.pairwise_iff_getElem.mp hsep _ _ (by simpa using by omega)
            (by simpa using by omega) hij2
        exact lt_of_lt_of_le (lt_trans hisep hmono) hjsep
      · have hj1 : i + 1 = j := by omega
        subst hj1
        exact lt_of_lt_of_le hisep hjsep

/-- Under the invariant, `self.items[0][0]` is the head of the subtree
keys. -/
theorem headKey_eq (t : PTree) (hInv : invB t = true) (hne : treeKeys t ≠ []) :
    headKey t = (treeKeys t).head? := by
  match t with
  | .leaf b items =>
    simp [headKey, treeKeys, List.head?_map]
  | .node b items children =>
    rw [invB_node_iff] at hInv
    obtain ⟨hlen, hne2, hsep, hch, hlow, hup⟩ := hInv
    match hitems : items, hchildren : children with
    | [], _ => exact absurd rfl hne2
    | (s0, b0) :: irest, [] => subst hitems; simp at hlen
    | (s0, b0) :: irest, c0 :: crest =>
      subst hitems hchildren
      have hmem0 : ((s0, b0), c0) ∈ List.zip ((s0, b0) :: irest) (c0 :: crest) := by
        simp [List.zip_cons_cons]
      obtain ⟨hk0, hm0, hb0⟩ := hlow _ hmem0
      rw [treeKeys_node_eq]
      simp only [headKey, List.head?_cons, Option.map_some]
      have hs0 : (treeKeys c0).head? = some s0 :=
        sorted_min_head _ (invB_keys_sorted c0 (hch c0 (by simp))) s0 hm0 hb0
      rw [List.flatMap_cons, List.head?_append, hs0]
      rfl

/-! ## Helper lemmas on zips, takes and drops -/

theorem mem_zip_take {α β : Type} {A : List α} {B : List β} {n m : Nat} {p : α × β}
    (h : p ∈ (A.take n).zip (B.take m)) : p ∈ A.zip B := by
  induction A generalizing B n m with
  | nil => simp at h
  | cons a arest ih =>
    match B, n, m, h with
    | [], _, _, h => simp at h
    | _ :: _, 0, _, h => simp at h
    | _ :: _, _ + 1, 0, h => simp at h
    | b :: brest, n1 + 1, m1 + 1, h =>
      simp only [List.take_succ_cons, List.zip_cons_cons, List.mem_cons] at h ⊢
      rcases h with h | h
      · exact Or.inl h
      · exact Or.inr (ih h)

theorem zip_drop_eq {α β : Type} (A : List α) (B : List β) (n : Nat) :
    (A.drop n).zip (B.drop n) = (A.zip B).drop n := by
  induction n generalizing A B with
  | zero => simp
  | succ n1 ih =>
    match A, B with
    | [], _ => simp
    | _ :: _, [] => simp
    | a :: arest, b :: brest =>
      simp only [List.drop_succ_cons, List.zip_cons_cons, ih]

theorem tail_take_eq {α : Type} (l : List α) (n : Nat) :
    (l.take n).tail = l.tail.take (n - 1) := by
  match l, n with
  | [], _ => simp
  | _ :: _, 0 => simp
  | a :: rest, n1 + 1 => simp

/-- Localization of the reference find index over an append whose left
part holds no key above the query. -/
theorem findSpec_append_right (key : String) (l1 l2 : List String)
    (h : ∀ x ∈ l1, ¬ key < x) :
    findSpec (l1 ++ l2) key = l1.length + findSpec l2 key := by
  induction l1 with
  | nil => simp
  | cons k rest ih =>
    have hk := h k (by simp)
    simp only [List.cons_append, findSpec, if_neg hk, List.append_eq]
    have ih2 := ih (fun x hx => h x (by simp [hx]))
    simp only [List.length_cons]
    omega

/-! ## Splitting preserves the invariant -/

theorem drop_tail_comm {α : Type} (l : List α) (n : Nat) :
    l.tail.drop n = l.drop (n + 1) := by
  match l with
  | [] => simp
  | a :: rest => simp [Nat.add_comm]

theorem invB_splitHalves (t : PTree) (free : Int) (hInv : invB t = true)
    (h2 : 2 ≤ itemsLen t) :
    invB (splitHalves t free).1 = true ∧ invB (splitHalves t free).2.1 = true ∧
    treeKeys (splitHalves t free).1 ++ treeKeys (splitHalves t free).2.1 = treeKeys t ∧
    treeKeys (splitHalves t free).1 ≠ [] ∧ treeKeys (splitHalves t free).2.1 ≠ [] := by
  match t with
  | .leaf b items =>
    rw [invB_leaf_iff] at hInv
    simp only [itemsLen] at h2
    simp only [splitHalves, invB_leaf_iff, treeKeys]
    have hp1 : 1 ≤ items.length / 2 := by omega
    have hp2 : items.length / 2 < items.length := by omega
    refine ⟨?_, ?_, ?_, ?_, ?_⟩
    · exact List.Pairwise.sublist ((List.take_sublist _ _).map Prod.fst) hInv
    · exact List.Pairwise.sublist ((List.drop_sublist _ _).map Prod.fst) hInv
    · rw [List.map_take, List.map_drop, List.take_append_drop]
    · intro hc
      have hcl := congrArg List.length hc
      simp only [List.length_map, List.length_take, List.length_nil] at hcl
      omega
    · intro hc
      have hcl := congrArg List.length hc
      simp only [List.length_map, List.length_drop, List.length_nil] at hcl
      omega
  | .node b items children =>
    rw [invB_node_iff] at hInv
    obtain ⟨hlen, hne, hsep, hch, hlow, hup⟩ := hInv
    simp only [itemsLen] at h2
    have hne2 : 0 < items.length := by
      cases items with
      | nil => exact absurd rfl hne
      | cons a l => simp
    simp only [splitHalves]
    set p := items.length / 2 with hp
    have hp1 : 1 ≤ p := by omega
    have hp2 : p < items.length := by omega
    have hmemzip : ∀ i, (hi : i < items.length) →
        (getElem items (i) hi, getElem children (i) (by omega)) ∈ List.zip items children := by
      intro i hi
      have hz : getElem (List.zip items children) (i) (by simp [List.length_zip]; omega) =
          (getElem items (i) hi, getElem children (i) (by omega)) := by
        simp [List.getElem_zip]
      exact hz ▸ List.getElem_mem _
    have hleft : invB (.node free (items.take p) (children.take p)) = true := by
      rw [invB_node_iff]
      refine ⟨by simp [hlen], ?_, ?_, ?_, ?_, ?_⟩
      · intro hc
        have hcl := congrArg List.length hc
        simp only [List.length_take, List.length_nil] at hcl
        omega
      · rw [List.map_take]
        exact List.Pairwise.sublist (List.take_sublist _ _) hsep
      · intro c hc
        exact hch c (List.mem_of_mem_take hc)
      · intro q hq
        exact hlow q (mem_zip_take hq)
      · intro q hq
        rw [tail_take_eq] at hq
        exact hup q (mem_zip_take hq)
    have hright : invB (.node (free + 1) (items.drop p) (children.drop p)) = true := by
      rw [invB_node_iff]
      refine ⟨by simp [hlen], ?_, ?_, ?_, ?_, ?_⟩
      · intro hc
        have hcl := congrArg List.length hc
        simp only [List.length_drop, List.length_nil] at hcl
        omega
      · rw [List.map_drop]
        exact List.Pairwise.sublist (List.drop_sublist _ _) hsep
      · intro c hc
        exact hch c (List.mem_of_mem_drop hc)
      · intro q hq
        rw [zip_drop_eq] at hq
        exact hlow q (List.mem_of_mem_drop hq)
      · intro q hq
        rw [List.tail_drop, ← drop_tail_comm, zip_drop_eq] at hq
        exact hup q (List.mem_of_mem_drop hq)
    refine ⟨hleft, hright, ?_, ?_, ?_⟩
    · rw [treeKeys_node_eq, treeKeys_node_eq, treeKeys_node_eq, ← List.flatMap_append,
        List.take_append_drop]
    · rw [treeKeys_node_eq]
      intro hc
      rw [List.flatMap_eq_nil_iff] at hc
      have hkeys0 : treeKeys (getElem children (0) (by omega)) ≠ [] :=
        (hlow _ (hmemzip 0 (by omega))).1
      apply hkeys0
      apply hc
      have hg : getElem (children.take p) (0) (by simp; omega) = getElem children (0) (by omega) :=
        List.getElem_take children
      exact hg ▸ List.getElem_mem _
    · rw [treeKeys_node_eq]
      intro hc
      rw [List.flatMap_eq_nil_iff] at hc
      have hkeysp : treeKeys (getElem children (p) (by omega)) ≠ [] :=
        (hlow _ (hmemzip p (by omega))).1
      apply hkeysp
      apply hc
      have hg : getElem (children.drop p) (0) (by simp [List.length_drop]; omega) =
          getElem children (p) (by omega) := by
        rw [List.getElem_drop]
        simp
      exact hg ▸ List.getElem_mem _

theorem adjustOnce_ok (cfg : Cfg) (t1 : PTree) (free : Int)
    (upd : Option (Option String)) (cl : Bool) (hInv : invB t1 = true)
    (hcl : (adjustOnce cfg t1 free upd cl).clean = true) :
    SibOK (treeKeys t1) (adjustOnce cfg t1 free upd cl).sib ∧
      (adjustOnce cfg t1 free upd cl).upd = upd ∧ cl = true := by
  rw [adjustOnce] at hcl ⊢
  by_cases hns : needSplit cfg t1 = true
  · rw [if_pos hns] at hcl ⊢
    simp only [Bool.and_eq_true, decide_eq_true_eq] at hcl
    obtain ⟨⟨hcl1, h2⟩, hleft⟩ := hcl
    obtain ⟨hil, hir, hkeys, hnel, hner⟩ := invB_splitHalves t1 free hInv h2
    exact ⟨⟨hil, hir, hnel, hner, hkeys⟩, rfl, hcl1⟩
  · rw [if_neg (by simpa using hns)] at hcl ⊢
    exact ⟨⟨hInv, rfl⟩, rfl, hcl⟩

theorem set_getElem_self_eq {α : Type} (l : List α) (i : Nat) (h : i < l.length) :
    l.set i (getElem l (i) h) = l := by
  induction l generalizing i with
  | nil => simp at h
  | cons a rest ih =>
    match i with
    | 0 => simp
    | i1 + 1 => simp [ih i1 (by simpa using h)]

theorem map_insertIdx_eq {α β : Type} (f : α → β) (x : α) :
    ∀ (n : Nat) (l : List α), (l.insertIdx n x).map f = (l.map f).insertIdx n (f x) := by
  intro n
  induction n with
  | zero => intro l; simp [List.insertIdx_zero]
  | succ n1 ih =>
    intro l
    match l with
    | [] => simp [List.insertIdx_succ_nil]
    | a :: rest => simp [List.insertIdx_succ_cons, ih rest]

/-- Leaf case of the insert postcondition. -/
theorem insertAux_leaf_ok (cfg : Cfg) (key : String) (v : Int × Int) (b : Int)
    (items : List (String × Int × Int)) (free : Int) (out : InsOut)
    (hInv : invB (.leaf b items) = true)
    (hok : insertAux cfg key v (.leaf b items) free = .ok out)
    (hcl : out.clean = true) :
    InsOutOK key (treeKeys (.leaf b items)) out := by
  have hs : List.Pairwise (· < ·) (items.map Prod.fst) := (invB_leaf_iff b items).mp hInv
  have hfind : nodeFind items key = findSpec (items.map Prod.fst) key :=
    nodeFind_eq_findSpec items key hs
  have hkeys : treeKeys (.leaf b items) = items.map Prod.fst := by
    simp [treeKeys]
  rw [insertAux] at hok
  by_cases hidx : nodeFind items key > 0
  · rw [if_pos hidx] at hok
    have hlen : nodeFind items key ≤ items.length := by
      rw [hfind]
      have := findSpec_le_length (items.map Prod.fst) key
      simpa using this
    split at hok
    · rename_i hnone
      rw [List.getElem?_eq_none_iff] at hnone
      omega
    · rename_i n0 v0 hget
      rw [List.getElem?_eq_some_iff] at hget
      obtain ⟨hlt2, hget⟩ := hget
      by_cases heq : n0 = key
      · rw [if_pos heq] at hok
        by_cases hovw : cfg.ovw
        · rw [if_pos hovw] at hok
          have hok2 : adjustOnce cfg
              (.leaf b (items.set (nodeFind items key - 1) (key, v))) free none true
              = out := Except.ok.inj hok
          subst hok2
          have hmem : key ∈ items.map Prod.fst := by
            have hg : (getElem items (nodeFind items key - 1) hlt2).1 ∈ items.map Prod.fst :=
              List.mem_map_of_mem _ (List.getElem_mem _)
            rw [hget] at hg
            simpa [heq] using hg
          have hset : (items.set (nodeFind items key - 1) (key, v)).map Prod.fst =
              items.map Prod.fst := by
            rw [List.map_set]
            have hk2 : getElem (items.map Prod.fst) (nodeFind items key - 1) (by
                simp only [List.length_map]; omega) = key := by
              have hg : getElem (items.map Prod.fst) (nodeFind items key - 1) (by
                  simp only [List.length_map]; omega) =
                  (getElem items (nodeFind items key - 1) hlt2).1 := by simp
              rw [hg, hget]
              exact heq
            have hss := set_getElem_self_eq (items.map Prod.fst) (nodeFind items key - 1)
              (by simp only [List.length_map]; omega)
            rw [hk2] at hss
            exact hss
          have hInv2 : invB (.leaf b (items.set (nodeFind items key - 1) (key, v)))
              = true := by
            rw [invB_leaf_iff, hset]
            exact hs
          have hkeys2 : treeKeys (.leaf b (items.set (nodeFind items key - 1) (key, v))) =
              keyIns key (items.map Prod.fst) := by
            have : treeKeys (.leaf b (items.set (nodeFind items key - 1) (key, v))) =
                (items.set (nodeFind items key - 1) (key, v)).map Prod.fst := by
              simp [treeKeys]
            rw [this, hset, keyIns_of_mem key _ hs hmem]
          obtain ⟨hsib, hupd, _⟩ := adjustOnce_ok cfg _ free none true hInv2 hcl
          rw [hkeys2] at hsib
          refine ⟨by rw [hkeys]; exact hsib, ?_⟩
          rw [hupd, hkeys]
          right
          have hne : items.map Prod.fst ≠ [] := by
            intro hc
            have hcl2 := congrArg List.length hc
            simp only [List.length_map, List.length_nil] at hcl2
            omega
          obtain ⟨h0, t0, hmap0⟩ := List.exists_cons_of_ne_nil hne
          refine ⟨h0, t0, hmap0, ?_⟩
          have hmin := findSpec_min (items.map Prod.fst) key 0
            (by rw [← hfind]; exact hidx) (by simp only [List.length_map]; omega)
          simp only [hmap0, List.getElem_cons_zero] at hmin
          exact hmin
        · rw [if_neg hovw] at hok
          exact absurd hok (by simp)
      · rw [if_neg heq] at hok
        have hok2 : adjustOnce cfg
            (.leaf b (items.insertIdx (nodeFind items key) (key, v))) free none true
            = out := Except.ok.inj hok
        subst hok2
        have hnotmem : key ∉ items.map Prod.fst := by
          intro hmem
          have hsp := findSpec_of_mem key (items.map Prod.fst) hs hmem
          rw [← hfind] at hsp
          apply heq
          have hg : (items.map Prod.fst)[nodeFind items key - 1]? =
              some (getElem (items.map Prod.fst) (nodeFind items key - 1) (by
                simp only [List.length_map]; omega)) :=
            List.getElem?_eq_getElem (by simp only [List.length_map]; omega)
          rw [hg] at hsp
          have hsp2 := Option.some.inj hsp
          have hg2 : getElem (items.map Prod.fst) (nodeFind items key - 1) (by
              simp only [List.length_map]; omega) =
              (getElem items (nodeFind items key - 1) hlt2).1 := by simp
          rw [hg2, hget] at hsp2
          exact hsp2
        have hmap : (items.insertIdx (nodeFind items key) (key, v)).map Prod.fst =
            keyIns key (items.map Prod.fst) := by
          rw [map_insertIdx_eq, hfind]
          exact insertIdx_findSpec key (items.map Prod.fst) hnotmem
        have hInv2 : invB (.leaf b (items.insertIdx (nodeFind items key) (key, v)))
            = true := by
          rw [invB_leaf_iff, hmap]
          exact keyIns_pairwise key _ hs
        obtain ⟨hsib, hupd, _⟩ := adjustOnce_ok cfg _ free none true hInv2 hcl
        have hkeys2 : treeKeys (.leaf b (items.insertIdx (nodeFind items key) (key, v))) =
            keyIns key (items.map Prod.fst) := by
          have : treeKeys (.leaf b (items.insertIdx (nodeFind items key) (key, v))) =
              (items.insertIdx (nodeFind items key) (key, v)).map Prod.fst := by
            simp [treeKeys]
          rw [this, hmap]
        rw [hkeys2] at hsib
        refine ⟨by rw [hkeys]; exact hsib, ?_⟩
        rw [hupd, hkeys]
        right
        have hne : items.map Prod.fst ≠ [] := by
          intro hc
          have hcl2 := congrArg List.length hc
          simp only [List.length_map, List.length_nil] at hcl2
          omega
        obtain ⟨h0, t0, hmap0⟩ := List.exists_cons_of_ne_nil hne
        refine ⟨h0, t0, hmap0, ?_⟩
        have hmin := findSpec_min (items.map Prod.fst) key 0
          (by rw [← hfind]; exact hidx) (by simp only [List.length_map]; omega)
        simp only [hmap0, List.getElem_cons_zero] at hmin
        exact hmin
  · rw [if_neg hidx] at hok
    have hok2 : adjustOnce cfg (.leaf b ((key, v) :: items)) free
        (some (items.head?.map Prod.fst)) true = out := Except.ok.inj hok
    subst hok2
    have hidx0 : findSpec (items.map Prod.fst) key = 0 := by
      rw [← hfind]; omega
    have hlt : ∀ x ∈ items.map Prod.fst, key < x := by
      intro x hx
      have hne : items.map Prod.fst ≠ [] := by
        intro hc
        rw [hc] at hx
        simp at hx
      obtain ⟨h0, t0, hmap0⟩ := List.exists_cons_of_ne_nil hne
      have hh := findSpec_hit (items.map Prod.fst) key
        (by rw [hidx0]; rw [hmap0]; simp)
      simp only [hidx0] at hh
      simp only [hmap0, List.getElem_cons_zero] at hh
      rw [hmap0] at hx hs
      rcases List.mem_cons.mp hx with h1 | h1
      · subst h1; exact hh
      · exact lt_trans hh ((List.pairwise_cons.mp hs).1 x h1)
    have hmap : ((key, v) :: items).map Prod.fst = keyIns key (items.map Prod.fst) := by
      rw [keyIns_of_lt_all key _ hlt]
      simp
    have hInv2 : invB (.leaf b ((key, v) :: items)) = true := by
      rw [invB_leaf_iff, hmap]
      exact keyIns_pairwise key _ hs
    obtain ⟨hsib, hupd, _⟩ := adjustOnce_ok cfg _ free _ true hInv2 hcl
    have hkeys2 : treeKeys (.leaf b ((key, v) :: items)) =
        keyIns key (items.map Prod.fst) := by
      have : treeKeys (.leaf b ((key, v) :: items)) =
          ((key, v) :: items).map Prod.fst := by
        simp [treeKeys]
      rw [this, hmap]
    rw [hkeys2] at hsib
    refine ⟨by rw [hkeys]; exact hsib, ?_⟩
    rw [hupd, hkeys]
    rcases hm : items.map Prod.fst with _ | ⟨h0, t0⟩
    · right
      rw [show items.head?.map Prod.fst = (items.map Prod.fst).head? from
        (List.head?_map Prod.fst items).symm, hm]
      simp
    · left
      refine ⟨h0, t0, ?_, rfl, hlt h0 (by rw [hm]; simp)⟩
      rw [show items.head?.map Prod.fst = (items.map Prod.fst).head? from
        (List.head?_map Prod.fst items).symm, hm]
      simp

/-- Membership of the items-children zip at an index. -/
theorem mem_zip_of_index (items : List (String × Int)) (children : List PTree)
    (hlen : items.length = children.length) (i : Nat) (hi : i < items.length) :
    (getElem items (i) hi, getElem children (i) (by omega)) ∈ List.zip items children := by
  have hz : getElem (List.zip items children) (i) (by simp [List.length_zip]; omega) =
      (getElem items (i) hi, getElem children (i) (by omega)) := by
    simp [List.getElem_zip]
  exact hz ▸ List.getElem_mem _

/-- Membership of the children-tail zip at an index. -/
theorem mem_zip_tail_of_index (items : List (String × Int)) (children : List PTree)
    (hlen : items.length = children.length) (i : Nat) (hi : i + 1 < items.length) :
    (getElem children (i) (by omega), getElem items (i + 1) hi) ∈ List.zip children items.tail := by
  have ht : getElem items.tail (i) (by simp [List.length_tail]; omega) = getElem items (i + 1) hi :=
    List.getElem_tail items i (by simp [List.length_tail]; omega)
  have hz : getElem (List.zip children items.tail) (i) (by simp [List.length_zip, List.length_tail]; omega) =
      (getElem children (i) (by omega), getElem items.tail (i) (by simp [List.length_tail]; omega)) := by
    simp [List.getElem_zip]
  rw [ht] at hz
  exact hz ▸ List.getElem_mem _

/-- Every key of the subtree below child `i` lies between separator `i`
(inclusive) and any later separator (strictly). -/
theorem node_child_key_bounds
    (items : List (String × Int)) (children : List PTree)
    (hlen : items.length = children.length)
    (hsep : List.Pairwise (· < ·) (items.map Prod.fst))
    (hlow : ∀ p ∈ List.zip items children,
      treeKeys p.2 ≠ [] ∧ p.1.1 ∈ treeKeys p.2 ∧ ∀ k ∈ treeKeys p.2, p.1.1 ≤ k)
    (hup : ∀ p ∈ List.zip children items.tail, ∀ k ∈ treeKeys p.1, k < p.2.1)
    (i : Nat) (hi : i < children.length) (x : String)
    (hx : x ∈ treeKeys (getElem children (i) hi)) :
    (∀ i2, (hi2 : i2 < items.length) → i2 ≤ i → (getElem items (i2) hi2).1 ≤ x) ∧
    (∀ i2, (hi2 : i2 < items.length) → i < i2 → x < (getElem items (i2) hi2).1) := by
  have hsepi : (getElem items (i) (by omega)).1 ≤ x :=
    (hlow _ (mem_zip_of_index items children hlen i (by omega))).2.2 x hx
  constructor
  · intro i2 hi2 hle
    rcases Nat.lt_or_ge i2 i with hlt | hge
    · have hmono : getElem (items.map Prod.fst) (i2) (by simp; omega) <
          getElem (items.map Prod.fst) (i) (by simp; omega) :=
        List.pairwise_iff_getElem.mp hsep _ _ (by simp; omega) (by simp; omega) hlt
      simp only [List.getElem_map] at hmono
      exact le_of_lt (lt_of_lt_of_le hmono hsepi)
    · have hii : i2 = i := by omega
      subst hii
      exact hsepi
  · intro i2 hi2 hgt
    have hi1 : i + 1 < items.length := by omega
    have hupi : x < (getElem items (i + 1) hi1).1 :=
      hup _ (mem_zip_tail_of_index items children hlen i hi1) x hx
    rcases Nat.lt_or_ge (i + 1) i2 with hlt | hge
    · have hmono : getElem (items.map Prod.fst) (i + 1) (by simp; omega) <
          getElem (items.map Prod.fst) (i2) (by simp; omega) :=
        List.pairwise_iff_getElem.mp hsep _ _ (by simp; omega) (by simp; omega) hlt
      simp only [List.getElem_map] at hmono
      exact lt_trans hupi hmono
    · have hii : i + 1 = i2 := by omega
      subst hii
      exact hupi

/-- Decomposition of the keys of an internal node around one child. -/
theorem treeKeys_node_decomp (b : Int) (items : List (String × Int))
    (children : List PTree) (j : Nat) (hj : j < children.length) :
    treeKeys (.node b items children) =
      (children.take j).flatMap treeKeys ++ treeKeys (getElem children (j) hj) ++
      (children.drop (j + 1)).flatMap treeKeys := by
  rw [treeKeys_node_eq]
  conv_lhs => rw [← List.take_append_drop j children, List.drop_eq_getElem_cons hj]
  rw [List.flatMap_append, List.flatMap_cons, List.append_assoc]

/-- Index extraction from zip membership. -/
theorem mem_zip_index {α β : Type} {A : List α} {B : List β} {q : α × β}
    (h : q ∈ A.zip B) :
    ∃ i, ∃ (hia : i < A.length) (hib : i < B.length), q = (getElem A (i) hia, getElem B (i) hib) := by
  obtain ⟨i, hi, hq⟩ := List.mem_iff_getElem.mp h
  simp only [List.length_zip, lt_min_iff] at hi
  refine ⟨i, hi.1, hi.2, ?_⟩
  rw [← hq]
  simp [List.getElem_zip]

/-- Indexed characterization of `invB` on an internal node. -/
theorem invB_node_iff_idx (b : Int) (items : List (String × Int))
    (children : List PTree) :
    invB (.node b items children) = true ↔
      items.length = children.length ∧ items ≠ [] ∧
      List.Pairwise (· < ·) (items.map Prod.fst) ∧
      (∀ c ∈ children, invB c = true) ∧
      (∀ i (hi : i < items.length) (hic : i < children.length),
        treeKeys (getElem children (i) hic) ≠ [] ∧
        (getElem items (i) hi).1 ∈ treeKeys (getElem children (i) hic) ∧
        ∀ k ∈ treeKeys (getElem children (i) hic), (getElem items (i) hi).1 ≤ k) ∧
      (∀ i (hi : i + 1 < items.length) (hic : i < children.length),
        ∀ k ∈ treeKeys (getElem children (i) hic), k < (getElem items (i + 1) hi).1) := by
  rw [invB_node_iff]
  constructor
  · rintro ⟨h1, h2, h3, h4, h5, h6⟩
    refine ⟨h1, h2, h3, h4, ?_, ?_⟩
    · intro i hi hic
      exact h5 _ (mem_zip_of_index items children h1 i hi)
    · intro i hi hic
      exact h6 _ (mem_zip_tail_of_index items children h1 i hi)
  · rintro ⟨h1, h2, h3, h4, h5, h6⟩
    refine ⟨h1, h2, h3, h4, ?_, ?_⟩
    · intro p hp
      obtain ⟨i, hia, hib, rfl⟩ := mem_zip_index hp
      exact h5 i hia hib
    · intro p hp
      obtain ⟨i, hia, hib, rfl⟩ := mem_zip_index hp
      have hib2 : i + 1 < items.length := by
        have := List.length_tail items
        omega
      have ht : getElem items.tail (i) hib = getElem items (i + 1) hib2 := List.getElem_tail items i hib
      rw [ht]
      exact h6 i hib2 hia

/-- Rebuilding an internal node after replacing child `j` (the `inl`
integration step of `Node.insert`). -/
theorem invB_set_child (b : Int) (items : List (String × Int)) (children : List PTree)
    (j : Nat) (hj : j < children.length) (hjl : j < items.length) (c1 : PTree)
    (hlen : items.length = children.length) (hne : items ≠ [])
    (hsep : List.Pairwise (· < ·) (items.map Prod.fst))
    (hch : ∀ c ∈ children, invB c = true)
    (hlowO : ∀ i (hi : i < items.length) (hic : i < children.length), i ≠ j →
      treeKeys (getElem children (i) hic) ≠ [] ∧
      (getElem items (i) hi).1 ∈ treeKeys (getElem children (i) hic) ∧
      ∀ k ∈ treeKeys (getElem children (i) hic), (getElem items (i) hi).1 ≤ k)
    (hupO : ∀ i (hi : i + 1 < items.length) (hic : i < children.length), i ≠ j →
      ∀ k ∈ treeKeys (getElem children (i) hic), k < (getElem items (i + 1) hi).1)
    (hc1 : invB c1 = true) (hkne : treeKeys c1 ≠ [])
    (hmem : (getElem items (j) hjl).1 ∈ treeKeys c1)
    (hmin : ∀ k ∈ treeKeys c1, (getElem items (j) hjl).1 ≤ k)
    (hupper : ∀ i2 (hi2 : i2 < items.length), j < i2 →
      ∀ k ∈ treeKeys c1, k < (getElem items (i2) hi2).1) :
    invB (.node b items (children.set j c1)) = true := by
  rw [invB_node_iff_idx]
  refine ⟨by simp [hlen], hne, hsep, ?_, ?_, ?_⟩
  · intro c hc
    rcases List.mem_or_eq_of_mem_set hc with h | h
    · exact hch c h
    · exact h ▸ hc1
  · intro i hi hic
    by_cases hij : i = j
    · subst hij
      rw [List.getElem_set_self (by simp; omega)]
      exact ⟨hkne, hmem, hmin⟩
    · rw [List.getElem_set_ne (by omega) (by simp; omega)]
      exact hlowO i hi (by omega) hij
  · intro i hi hic
    by_cases hij : i = j
    · subst hij
      rw [List.getElem_set_self (by simp; omega)]
      intro k hk
      exact hupper (i + 1) hi (by omega) k hk
    · rw [List.getElem_set_ne (by omega) (by simp; omega)]
      exact hupO i hi (by omega) hij

/-- Reading `insertIdx` strictly above the insertion point shifts the
index down by one. -/
theorem getElem_insertIdx_of_gt {α : Type} (l : List α) (x : α) (n i : Nat)
    (hn : n < i) (hi : i - 1 < l.length) (hin : n ≤ l.length)
    (hb : i < (l.insertIdx n x).length) :
    getElem (l.insertIdx n x) (i) hb = getElem l (i - 1) hi := by
  obtain ⟨k, rfl⟩ : ∃ k, i = n + k + 1 := ⟨i - n - 1, by omega⟩
  have hk : n + k < l.length := by omega
  have h1 := List.getElem_insertIdx_add_succ l x n k hk
  have h2 : n + k + 1 - 1 = n + k := by omega
  simp only [h2]
  exact h1

/-- Explicit shape of the child-split integration: replace child `j` by
the left half and insert the right half just after it. -/
theorem set_insert_decomp {α : Type} (l : List α) (j : Nat) (hj : j < l.length)
    (a x : α) :
    (l.set j a).insertIdx (j + 1) x = l.take j ++ a :: x :: l.drop (j + 1) := by
  rw [List.set_eq_take_cons_drop a hj]
  have h1 : (l.take j ++ a :: l.drop (j + 1)) = (l.take j ++ [a]) ++ l.drop (j + 1) := by
    simp
  rw [h1]
  have hlen : (l.take j ++ [a]).length = j + 1 := by
    simp [List.length_take]
    omega
  rw [← hlen, insertIdx_length_append]
  simp

/-- Rebuilding an internal node after a child split (the `inr`
integration step of `Node.insert`): child `j` becomes the left half and
the right half is inserted after it together with its separator. -/
theorem invB_ins_child (b : Int) (items : List (String × Int)) (children : List PTree)
    (j : Nat) (hj : j < children.length) (hjl : j < items.length)
    (l r : PTree) (rk : String) (bnor : Int)
    (hlen : items.length = children.length) (hne : items ≠ [])
    (hsep : List.Pairwise (· < ·) (items.map Prod.fst))
    (hch : ∀ c ∈ children, invB c = true)
    (hlowO : ∀ i (hi : i < items.length) (hic : i < children.length), i ≠ j →
      treeKeys (getElem children (i) hic) ≠ [] ∧
      (getElem items (i) hi).1 ∈ treeKeys (getElem children (i) hic) ∧
      ∀ k ∈ treeKeys (getElem children (i) hic), (getElem items (i) hi).1 ≤ k)
    (hupO : ∀ i (hi : i + 1 < items.length) (hic : i < children.length), i ≠ j →
      ∀ k ∈ treeKeys (getElem children (i) hic), k < (getElem items (i + 1) hi).1)
    (hl : invB l = true) (hr : invB r = true)
    (hlne : treeKeys l ≠ []) (hrne : treeKeys r ≠ [])
    (hmeml : (getElem items (j) hjl).1 ∈ treeKeys l)
    (hminl : ∀ k ∈ treeKeys l, (getElem items (j) hjl).1 ≤ k)
    (hmemr : rk ∈ treeKeys r)
    (hminr : ∀ k ∈ treeKeys r, rk ≤ k)
    (hlr : ∀ x ∈ treeKeys l, x < rk)
    (hupperl : ∀ i2 (hi2 : i2 < items.length), j < i2 →
      ∀ k ∈ treeKeys l, k < (getElem items (i2) hi2).1)
    (hupperr : ∀ i2 (hi2 : i2 < items.length), j < i2 →
      ∀ k ∈ treeKeys r, k < (getElem items (i2) hi2).1) :
    invB (.node b (items.insertIdx (j + 1) (rk, bnor))
      ((children.set j l).insertIdx (j + 1) r)) = true := by
  have hseplt : (getElem items (j) hjl).1 < rk := hlr _ hmeml
  have hrklt : ∀ i2 (hi2 : i2 < items.length), j < i2 → rk < (getElem items (i2) hi2).1 :=
    fun i2 hi2 hji2 => hupperr i2 hi2 hji2 rk hmemr
  have hjle : j + 1 ≤ items.length := by omega
  have hjlc : j + 1 ≤ children.length := by omega
  rw [invB_node_iff_idx]
  have hleni : (items.insertIdx (j + 1) (rk, bnor)).length = items.length + 1 :=
    List.length_insertIdx _ _ hjle
  have hlenc : ((children.set j l).insertIdx (j + 1) r).length = children.length + 1 := by
    rw [List.length_insertIdx]
    · simp
    · simp
      omega
  refine ⟨by omega, ?_, ?_, ?_, ?_, ?_⟩
  · intro hc
    have hcl := congrArg List.length hc
    rw [hleni] at hcl
    simp at hcl
  · -- sortedness of the new separators
    have hmape : (items.insertIdx (j + 1) (rk, bnor)).map Prod.fst =
        (items.map Prod.fst).insertIdx (j + 1) rk := map_insertIdx_eq _ _ _ _
    rw [hmape]
    have hnotmem : rk ∉ items.map Prod.fst := by
      intro hmem
      obtain ⟨i, hi, hieq⟩ := List.mem_iff_getElem.mp hmem
      have hi2 : i < items.length := by simpa using hi
      have hieq2 : (getElem items (i) hi2).1 = rk := by
        rw [← hieq]
        simp
      rcases Nat.lt_or_ge j i with hlt | hge
      · have hcon := hrklt i hi2 hlt
        rw [hieq2] at hcon
        exact lt_irrefl rk hcon
      · have hmono : (getElem items (i) hi2).1 ≤ (getElem items (j) hjl).1 := by
          rcases Nat.lt_or_ge i j with hlt2 | hge2
          · have hm := List.pairwise_iff_getElem.mp hsep i j (by simp; omega)
              (by simp; omega) hlt2
            simp only [List.getElem_map] at hm
            exact le_of_lt hm
          · have hij : i = j := by omega
            subst hij
            exact le_refl _
        rw [hieq2] at hmono
        exact absurd (lt_of_le_of_lt hmono hseplt) (lt_irrefl rk)
    have hfs : findSpec (items.map Prod.fst) rk = j + 1 := by
      have hdecomp : items.map Prod.fst =
          (items.map Prod.fst).take j ++
            getElem (items.map Prod.fst) (j) (by simp; omega) ::
            (items.map Prod.fst).drop (j + 1) := by
        conv_lhs => rw [← List.take_append_drop j (items.map Prod.fst),
          List.drop_eq_getElem_cons (by simp; omega)]
      rw [hdecomp, findSpec_append_right, List.length_take]
      · have hfs2 : findSpec (getElem (items.map Prod.fst) (j) (by simp; omega) ::
            (items.map Prod.fst).drop (j + 1)) rk = 1 := by
          rw [findSpec]
          have hnlt : ¬ rk < getElem (items.map Prod.fst) (j) (by simp; omega) := by
            simp only [List.getElem_map]
            intro hcon
            exact absurd (lt_trans hseplt hcon) (lt_irrefl _)
          rw [if_neg hnlt]
          have hz : findSpec ((items.map Prod.fst).drop (j + 1)) rk = 0 := by
            apply findSpec_zero_of_lt_all
            intro x hx
            obtain ⟨i, hi, hieq⟩ := List.mem_iff_getElem.mp hx
            rw [List.getElem_drop] at hieq
            have hix : j + 1 + i < items.length := by
              have := List.length_drop (j + 1) (items.map Prod.fst)
              simp at hi ⊢
              omega
            have := hrklt (j + 1 + i) hix (by omega)
            rw [← hieq]
            simpa using this
          rw [hz]
        rw [hfs2]
        simp
        omega
      · intro x hx
        obtain ⟨i, hi, hieq⟩ := List.mem_iff_getElem.mp hx
        have hitk : i < j := by
          have h1 := List.length_take j (items.map Prod.fst)
          simp at hi
          omega
        rw [List.getElem_take] at hieq
        intro hcon
        have hmono : x ≤ (getElem items (j) hjl).1 := by
          rcases Nat.lt_or_ge i j with hlt2 | hge2
          · have hm := List.pairwise_iff_getElem.mp hsep i j (by simp; omega)
              (by simp; omega) hlt2
            simp only [List.getElem_map] at hm
            rw [← hieq]
            simpa using le_of_lt hm
          · omega
        exact absurd (lt_of_le_of_lt hmono hseplt) (not_lt_of_lt hcon)
    rw [← hfs, insertIdx_findSpec rk _ hnotmem]
    exact keyIns_pairwise rk _ hsep
  · intro c hc
    rw [List.mem_insertIdx (by simp; omega)] at hc
    rcases hc with h | h
    · exact h ▸ hr
    · rcases List.mem_or_eq_of_mem_set h with h2 | h2
      · exact hch c h2
      · exact h2 ▸ hl
  · intro i hi hic
    rw [hleni] at hi
    rcases Nat.lt_trichotomy i (j + 1) with hlt | heq | hgt
    · have hgi : getElem (items.insertIdx (j + 1) (rk, bnor)) (i) (by rw [hleni]; omega) =
          getElem items (i) (by omega) := List.getElem_insertIdx_of_lt _ _ _ _ hlt (by omega)
      have hgc : getElem (((children.set j l).insertIdx (j + 1) r)) (i) (by rw [hlenc]; omega) =
          getElem (children.set j l) (i) (by simp; omega) :=
        List.getElem_insertIdx_of_lt _ _ _ _ hlt (by simp; omega)
      rw [hgi, hgc]
      by_cases hij : i = j
      · subst hij
        rw [List.getElem_set_self (by simp; omega)]
        exact ⟨hlne, hmeml, hminl⟩
      · rw [List.getElem_set_ne (by omega) (by simp; omega)]
        exact hlowO i (by omega) (by omega) hij
    · subst heq
      have hgi : getElem (items.insertIdx (j + 1) (rk, bnor)) (j + 1) (by rw [hleni]; omega) =
          (rk, bnor) := List.getElem_insertIdx_self _ _ _ (by omega)
      have hgc : getElem (((children.set j l).insertIdx (j + 1) r)) (j + 1) (by
          rw [hlenc]; omega) = r :=
        List.getElem_insertIdx_self _ _ _ (by simp; omega)
      rw [hgi, hgc]
      exact ⟨hrne, hmemr, hminr⟩
    · have hi1 : i - 1 < items.length := by omega
      have hgi : getElem (items.insertIdx (j + 1) (rk, bnor)) (i) (by rw [hleni]; omega) =
          getElem items (i - 1) hi1 :=
        getElem_insertIdx_of_gt items (rk, bnor) (j + 1) i (by omega) hi1 (by omega)
          (by rw [hleni]; omega)
      have hgc : getElem (((children.set j l).insertIdx (j + 1) r)) (i) (by rw [hlenc]; omega) =
          getElem (children.set j l) (i - 1) (by simp; omega) :=
        getElem_insertIdx_of_gt _ r (j + 1) i (by omega) (by simp; omega)
          (by simp; omega) (by rw [hlenc]; omega)
      rw [hgi, hgc, List.getElem_set_ne (by omega) (by simp; omega)]
      exact hlowO (i - 1) hi1 (by omega) (by omega)
  · intro i hi hic
    rw [hleni] at hi
    rcases Nat.lt_trichotomy i j with hlt | heq | hgt
    · have hgi : getElem (items.insertIdx (j + 1) (rk, bnor)) (i + 1) (by rw [hleni]; omega) =
          getElem items (i + 1) (by omega) :=
        List.getElem_insertIdx_of_lt _ _ _ _ (by omega) (by omega)
      have hgc : getElem (((children.set j l).insertIdx (j + 1) r)) (i) (by rw [hlenc]; omega) =
          getElem (children.set j l) (i) (by simp; omega) :=
        List.getElem_insertIdx_of_lt _ _ _ _ (by omega) (by simp; omega)
      rw [hgi, hgc, List.getElem_set_ne (by omega) (by simp; omega)]
      exact hupO i (by omega) (by omega) (by omega)
    · have heq2 : j = i := heq.symm
      subst heq2
      have hgi : getElem (items.insertIdx (j + 1) (rk, bnor)) (j + 1) (by rw [hleni]; omega) =
          (rk, bnor) := List.getElem_insertIdx_self _ _ _ (by omega)
      have hgc : getElem (((children.set j l).insertIdx (j + 1) r)) (j) (by rw [hlenc]; omega) =
          getElem (children.set j l) (j) (by simp; omega) :=
        List.getElem_insertIdx_of_lt _ _ _ _ (by omega) (by simp; omega)
      rw [hgi, hgc, List.getElem_set_self (by simp; omega)]
      intro k hk
      exact hlr k hk
    · rcases Nat.eq_or_lt_of_le hgt with heq2 | hgt2
      · -- i = j + 1 : right half against the old separator j + 1
        have heq3 : i = j + 1 := heq2.symm
        subst heq3
        have hgi : getElem (items.insertIdx (j + 1) (rk, bnor)) (j + 1 + 1) (by
            rw [hleni]; omega) = getElem items (j + 1) (by omega) :=
          getElem_insertIdx_of_gt items (rk, bnor) (j + 1) (j + 1 + 1) (by omega)
            (by omega) (by omega) (by rw [hleni]; omega)
        have hgc : getElem (((children.set j l).insertIdx (j + 1) r)) (j + 1) (by
            rw [hlenc]; omega) = r :=
          List.getElem_insertIdx_self _ _ _ (by simp; omega)
        rw [hgi, hgc]
        intro k hk
        exact hupperr (j + 1) (by omega) (by omega) k hk
      · -- i ≥ j + 2 : untouched pairs shifted by one
        have hi1 : i - 1 + 1 < items.length := by omega
        have hgi : getElem (items.insertIdx (j + 1) (rk, bnor)) (i + 1) (by rw [hleni]; omega) =
            getElem items (i) (by omega) :=
          getElem_insertIdx_of_gt items (rk, bnor) (j + 1) (i + 1) (by omega)
            (by omega) (by omega) (by rw [hleni]; omega)
        have hgc : getElem (((children.set j l).insertIdx (j + 1) r)) (i) (by rw [hlenc]; omega) =
            getElem (children.set j l) (i - 1) (by simp; omega) :=
          getElem_insertIdx_of_gt _ r (j + 1) i (by omega) (by simp; omega)
            (by simp; omega) (by rw [hlenc]; omega)
        rw [hgi, hgc, List.getElem_set_ne (by omega) (by simp; omega)]
        have hres := hupO (i - 1) (by omega) (by omega) (by omega)
        have hie : i - 1 + 1 = i := by omega
        simp only [hie] at hres
        exact hres

/-- The `clean` flag of `adjustOnce` only weakens the incoming flag. -/
theorem adjustOnce_clean (cfg : Cfg) (t : PTree) (free : Int)
    (upd : Option (Option String)) (cl : Bool)
    (h : (adjustOnce cfg t free upd cl).clean = true) : cl = true := by
  rw [adjustOnce] at h
  split at h
  · simp only [Bool.and_eq_true] at h
    exact h.1.1
  · exact h

/-- The reference find returns `j + 1` when the key at `j` is not above
the query and every later key is. -/
theorem findSpec_middle (ks : List String) (q : String) (j : Nat) (hj : j < ks.length)
    (hsorted : List.Pairwise (· < ·) ks)
    (hle : ¬ q < getElem ks (j) hj)
    (hgt : ∀ i (hi : i < ks.length), j < i → q < getElem ks (i) hi) :
    findSpec ks q = j + 1 := by
  conv_lhs => rw [← List.take_append_drop j ks, List.drop_eq_getElem_cons hj]
  rw [findSpec_append_right]
  · have h0 : findSpec (ks.drop (j + 1)) q = 0 := by
      apply findSpec_zero_of_lt_all
      intro x hx
      obtain ⟨i, hi, hieq⟩ := List.mem_iff_getElem.mp hx
      rw [List.getElem_drop] at hieq
      have hib : j + 1 + i < ks.length := by
        have := List.length_drop (j + 1) ks
        omega
      exact hieq ▸ hgt (j + 1 + i) hib (by omega)
    rw [findSpec, if_neg hle, h0, List.length_take]
    omega
  · intro x hx
    obtain ⟨i, hi, hieq⟩ := List.mem_iff_getElem.mp hx
    have hit : i < j := by
      simp only [List.length_take, lt_min_iff] at hi
      exact hi.1
    have hib : i < ks.length := by
      simp only [List.length_take, lt_min_iff] at hi
      exact hi.2
    rw [List.getElem_take] at hieq
    intro hcon
    have hmono : getElem ks (i) hib < getElem ks (j) hj :=
      List.pairwise_iff_getElem.mp hsorted i j hib hj hit
    rw [hieq] at hmono
    exact hle (lt_trans hcon hmono)

/-- `find` of the first key of a node with at least one item is 1. -/
theorem nodeFind_head_one (s0 : String) (b0 : Int) (irest : List (String × Int))
    (hsorted : List.Pairwise (· < ·) (((s0, b0) :: irest).map Prod.fst)) :
    nodeFind ((s0, b0) :: irest) s0 = 1 := by
  have hmap : ((s0, b0) :: irest).map Prod.fst = s0 :: irest.map Prod.fst := by simp
  rw [nodeFind_eq_findSpec _ _ hsorted, hmap, findSpec, if_neg (lt_irrefl s0),
    findSpec_zero_of_lt_all]
  rw [hmap] at hsorted
  exact (List.pairwise_cons.mp hsorted).1

/-- The walk step of `Node.insert` on an ancestor whose pending old key
is its own first separator: the first item's key becomes the inserted
key and the walk continues (`idx2 == 1`). -/
theorem sepUpdate_head (key s0 : String) (b0 : Int) (irest : List (String × Int))
    (hsorted : List.Pairwise (· < ·) (((s0, b0) :: irest).map Prod.fst)) :
    sepUpdate key ((s0, b0) :: irest) (some (some s0)) =
      .ok ((key, b0) :: irest, some (some s0)) := by
  have h1 : nodeFind ((s0, b0) :: irest) s0 = 1 :=
    nodeFind_head_one s0 b0 irest hsorted
  simp only [sepUpdate, h1]
  simp

/-- Resolution of the walk step an internal node performs, combining
the child's reported update with this node's own find: either no walk
is pending (and the child was not entered through a smaller-than-all
key), or the node is on the leftmost chain, its first separator is the
old child minimum, and the first item is rewritten to the new key. -/
theorem sepUpdate_resolve (key : String) (items : List (String × Int))
    (KJ : List String) (jx : Nat) (hjlt : jx < items.length)
    (upd0 : Option (Option String)) (items1 : List (String × Int))
    (upd1 : Option (Option String))
    (hsepu : sepUpdate key items upd0 = .ok (items1, upd1))
    (hsorted : List.Pairwise (· < ·) (items.map Prod.fst))
    (hupdKJ : match upd0 with
      | none => KJ = [] ∨ ∃ h0 t2, KJ = h0 :: t2 ∧ ¬ key < h0
      | some o => (∃ oldk t2, o = some oldk ∧ KJ = oldk :: t2 ∧ key < oldk) ∨
          (o = none ∧ KJ = []))
    (hKJne : KJ ≠ [])
    (hheadKJ : KJ.head? = some ((getElem items (jx) hjlt).1))
    (hD : nodeFind items key ≠ 0 → (getElem items (jx) hjlt).1 ≤ key)
    (hjx0 : nodeFind items key = 0 → jx = 0)
    (hkey0 : nodeFind items key = 0 → ∀ x ∈ KJ, key < x) :
    (upd0 = none ∧ items1 = items ∧ upd1 = none ∧ nodeFind items key ≠ 0) ∨
    (∃ s0 b0 irest, nodeFind items key = 0 ∧ jx = 0 ∧
      items = (s0, b0) :: irest ∧ s0 = (getElem items (jx) hjlt).1 ∧
      upd0 = some (some s0) ∧ items1 = (key, b0) :: irest ∧
      upd1 = some (some s0) ∧ key < s0) := by
  rcases upd0 with _ | o
  · -- no pending update
    left
    have h2 : (Except.ok (items, (none : Option (Option String))) :
        Except String (List (String × Int) × Option (Option String))) =
        .ok (items1, upd1) := hsepu
    have h3 := Except.ok.inj h2
    have hi1 : items = items1 := congrArg Prod.fst h3
    have hu1 : (none : Option (Option String)) = upd1 := congrArg Prod.snd h3
    refine ⟨rfl, hi1.symm, hu1.symm, ?_⟩
    intro hf0
    rcases hupdKJ with hKJ | ⟨h0, t2, hKJ, hnlt⟩
    · exact hKJne hKJ
    · exact hnlt (hkey0 hf0 h0 (by rw [hKJ]; simp))
  · rcases hupdKJ with ⟨oldk, t2, ho, hKJ, hlt⟩ | ⟨ho, hKJ⟩
    · -- pending update with old key oldk
      subst ho
      have hhd : KJ.head? = some oldk := by rw [hKJ]; rfl
      rw [hheadKJ] at hhd
      have holdk : (getElem items (jx) hjlt).1 = oldk := Option.some.inj hhd
      have hf0 : nodeFind items key = 0 := by
        by_contra hf0
        have hle := hD hf0
        rw [holdk] at hle
        exact absurd (lt_of_lt_of_le hlt hle) (lt_irrefl key)
      have hj0 : jx = 0 := hjx0 hf0
      subst hj0
      right
      have hne2 : items ≠ [] := by
        intro hc
        rw [hc] at hjlt
        simp at hjlt
      obtain ⟨i0, irest, hitems0⟩ := List.exists_cons_of_ne_nil hne2
      have hg0 : getElem items (0) hjlt = i0 := by
        simp only [hitems0, List.getElem_cons_zero]
      have hsorted2 : List.Pairwise (· < ·) ((i0 :: irest).map Prod.fst) := by
        rw [← hitems0]
        exact hsorted
      have hold2 : oldk = i0.1 := by
        rw [← holdk]
        exact congrArg Prod.fst hg0
      have heval : sepUpdate key items (some (some oldk)) =
          .ok ((key, i0.2) :: irest, some (some oldk)) := by
        rw [hitems0, hold2]
        exact sepUpdate_head key i0.1 i0.2 irest hsorted2
      rw [heval] at hsepu
      have h3 := Except.ok.inj hsepu
      refine ⟨i0.1, i0.2, irest, hf0, rfl, ?_, ?_, ?_, ?_, ?_, ?_⟩
      · rw [Prod.mk.eta]
        exact hitems0
      · exact (congrArg Prod.fst hg0).symm
      · rw [hold2]
      · exact (congrArg Prod.fst h3).symm
      · rw [← hold2]
        exact (congrArg Prod.snd h3).symm
      · rw [← hold2]
        exact hlt
    · exact absurd hKJ hKJne

/-- Node case of the insert postcondition. -/
theorem insertAux_node_ok (cfg : Cfg) (key : String) (v : Int × Int) (b : Int)
    (items : List (String × Int)) (children : List PTree) (free : Int) (out : InsOut)
    (ih : ∀ c ∈ children, ∀ (free2 : Int) (out2 : InsOut), invB c = true →
      insertAux cfg key v c free2 = .ok out2 → out2.clean = true →
      InsOutOK key (treeKeys c) out2)
    (hInv : invB (.node b items children) = true)
    (hok : insertAux cfg key v (.node b items children) free = .ok out)
    (hcl : out.clean = true) :
    InsOutOK key (treeKeys (.node b items children)) out := by
  obtain ⟨hlen, hne, hsep, hch, hlow, hup⟩ := (invB_node_iff_idx b items children).mp hInv
  obtain ⟨hlenZ, hneZ, hsepZ, hchZ, hlowZ, hupZ⟩ := (invB_node_iff b items children).mp hInv
  have hlenpos : 0 < items.length := by
    cases items with
    | nil => exact absurd rfl hne
    | cons a l => simp
  have hks : ∀ (i : Nat) (hi : i < items.length),
      getElem (items.map Prod.fst) (i) (by simpa using hi) = (getElem items (i) hi).1 := by
    intro i hi
    simp
  have hsmono : ∀ i1 i2 (hi1 : i1 < items.length) (hi2 : i2 < items.length), i1 < i2 →
      (getElem items (i1) hi1).1 < (getElem items (i2) hi2).1 := by
    intro i1 i2 hi1 hi2 hlt12
    have h := List.pairwise_iff_getElem.mp hsep i1 i2 (by simpa using hi1)
      (by simpa using hi2) hlt12
    simpa using h
  have hfeq : nodeFind items key = findSpec (items.map Prod.fst) key :=
    nodeFind_eq_findSpec items key hsep
  have hfle : nodeFind items key ≤ items.length := by
    rw [hfeq]
    have := findSpec_le_length (items.map Prod.fst) key
    simpa using this
  set jx := (if nodeFind items key = 0 then 1 else nodeFind items key) - 1 with hjx
  have hjlt : jx < items.length := by
    rw [hjx]
    by_cases hf0 : nodeFind items key = 0
    · simp [hf0]
      omega
    · rw [if_neg hf0]
      omega
  have hjc : jx < children.length := by omega
  have hjx0 : nodeFind items key = 0 → jx = 0 := by
    intro hf0
    rw [hjx, hf0]
    simp
  have hjxf : nodeFind items key ≠ 0 → jx = nodeFind items key - 1 := by
    intro hf0
    rw [hjx, if_neg hf0]
  have hFgt : ∀ i2 (hi2 : i2 < items.length), jx < i2 → key < (getElem items (i2) hi2).1 := by
    intro i2 hi2 hgt2
    by_cases hf0 : nodeFind items key = 0
    · have hj0 := hjx0 hf0
      have hfs0 : findSpec (items.map Prod.fst) key = 0 := by
        rw [← hfeq]
        exact hf0
      have hhit := findSpec_hit (items.map Prod.fst) key (by
        rw [hfs0]
        simpa using hlenpos)
      simp only [hfs0] at hhit
      rw [hks 0 hlenpos] at hhit
      exact lt_trans hhit (hsmono 0 i2 hlenpos hi2 (by omega))
    · have hjf := hjxf hf0
      have hflt : nodeFind items key < items.length := by omega
      have hhit := findSpec_hit (items.map Prod.fst) key (by
        rw [← hfeq]
        simpa using hflt)
      have hfeq2 := hfeq.symm
      simp only [hfeq2] at hhit
      rw [hks _ hflt] at hhit
      rcases Nat.eq_or_lt_of_le (show nodeFind items key ≤ i2 by omega) with heq | hlt2
      · subst heq
        exact hhit
      · exact lt_trans hhit (hsmono _ i2 hflt hi2 hlt2)
  have hD : nodeFind items key ≠ 0 → (getElem items (jx) hjlt).1 ≤ key := by
    intro hf0
    have hjf := hjxf hf0
    have hmin := findSpec_min (items.map Prod.fst) key jx (by
      rw [← hfeq]
      omega) (by simpa using hjlt)
    rw [hks jx hjlt] at hmin
    exact not_lt.mp hmin
  have hnlt0 : nodeFind items key ≠ 0 → ¬ key < (getElem items (0) hlenpos).1 := by
    intro hf0
    have hmin := findSpec_min (items.map Prod.fst) key 0 (by
      rw [← hfeq]
      omega) (by simpa using hlenpos)
    rw [hks 0 hlenpos] at hmin
    exact hmin
  have hKJdef := hlow jx hjlt hjc
  have hKJne : treeKeys (getElem children (jx) hjc) ≠ [] := hKJdef.1
  have hsjmem : (getElem items (jx) hjlt).1 ∈ treeKeys (getElem children (jx) hjc) := hKJdef.2.1
  have hsjmin : ∀ x ∈ treeKeys (getElem children (jx) hjc), (getElem items (jx) hjlt).1 ≤ x := hKJdef.2.2
  have hKJsorted : List.Pairwise (· < ·) (treeKeys (getElem children (jx) hjc)) :=
    invB_keys_sorted _ (hch _ (List.getElem_mem hjc))
  have hheadKJ : (treeKeys (getElem children (jx) hjc)).head? = some ((getElem items (jx) hjlt).1) :=
    sorted_min_head _ hKJsorted _ hsjmem hsjmin
  have hkey0 : nodeFind items key = 0 → ∀ x ∈ treeKeys (getElem children (jx) hjc), key < x := by
    intro hf0 x hx
    have hj0 := hjx0 hf0
    have hfs0 : findSpec (items.map Prod.fst) key = 0 := by
      rw [← hfeq]
      exact hf0
    have hhit := findSpec_hit (items.map Prod.fst) key (by
      rw [hfs0]
      simpa using hlenpos)
    simp only [hfs0] at hhit
    rw [hks 0 hlenpos] at hhit
    have hle := hsjmin x hx
    simp only [hj0] at hle
    exact lt_of_lt_of_le hhit hle
  have hKJup : ∀ x ∈ treeKeys (getElem children (jx) hjc), ∀ i2 (hi2 : i2 < items.length),
      jx < i2 → x < (getElem items (i2) hi2).1 := by
    intro x hx i2 hi2 hgt2
    exact (node_child_key_bounds items children hlenZ hsepZ hlowZ hupZ jx hjc x hx).2
      i2 hi2 hgt2
  have hFLlt : ∀ x ∈ (children.take jx).flatMap treeKeys, x < key := by
    intro x hx
    rw [List.mem_flatMap] at hx
    obtain ⟨c, hc, hxc⟩ := hx
    obtain ⟨i, hi, hieq⟩ := List.mem_iff_getElem.mp hc
    have hit : i < jx := by
      simp only [List.length_take, lt_min_iff] at hi
      exact hi.1
    have hic : i < children.length := by omega
    rw [List.getElem_take] at hieq
    have hxi : x ∈ treeKeys (getElem children (i) hic) := by
      rw [hieq]
      exact hxc
    have hi1 : i + 1 < items.length := by omega
    have hxlt := hup i hi1 hic x hxi
    have hf0 : nodeFind items key ≠ 0 := by
      intro h0
      have := hjx0 h0
      omega
    have hjf := hjxf hf0
    have hmin := findSpec_min (items.map Prod.fst) key (i + 1) (by
      rw [← hfeq]
      omega) (by simpa using hi1)
    rw [hks (i + 1) hi1] at hmin
    exact lt_of_lt_of_le hxlt (not_lt.mp hmin)
  have hFRgt : ∀ x ∈ (children.drop (jx + 1)).flatMap treeKeys, key < x := by
    intro x hx
    rw [List.mem_flatMap] at hx
    obtain ⟨c, hc, hxc⟩ := hx
    obtain ⟨i, hi, hieq⟩ := List.mem_iff_getElem.mp hc
    have hic : jx + 1 + i < children.length := by
      have := List.length_drop (jx + 1) children
      omega
    rw [List.getElem_drop] at hieq
    have hxi : x ∈ treeKeys (getElem children (jx + 1 + i) hic) := by
      rw [hieq]
      exact hxc
    have hsx := (hlow (jx + 1 + i) (by omega) hic).2.2 x hxi
    exact lt_of_lt_of_le (hFgt (jx + 1 + i) (by omega) (by omega)) hsx
  have hK : treeKeys (.node b items children) =
      (children.take jx).flatMap treeKeys ++ treeKeys (getElem children (jx) hjc) ++
        (children.drop (jx + 1)).flatMap treeKeys :=
    treeKeys_node_decomp b items children jx hjc
  have hkeyIns : keyIns key (treeKeys (.node b items children)) =
      (children.take jx).flatMap treeKeys ++
        (keyIns key (treeKeys (getElem children (jx) hjc)) ++
          (children.drop (jx + 1)).flatMap treeKeys) := by
    rw [hK, List.append_assoc, keyIns_append_right _ _ _ hFLlt,
      keyIns_append_left _ _ _ hFRgt]
  have hKne : treeKeys (.node b items children) ≠ [] := by
    rw [hK]
    intro hc
    have hlc := congrArg List.length hc
    simp only [List.length_append, List.length_nil] at hlc
    exact hKJne (List.eq_nil_of_length_eq_zero (by omega))
  have hheadK : (treeKeys (.node b items children)).head? =
      some ((getElem items (0) hlenpos).1) := by
    rw [← headKey_eq _ hInv hKne]
    obtain ⟨i0, irest0, hitems0⟩ := List.exists_cons_of_ne_nil hne
    have hg0 : getElem items (0) hlenpos = i0 := by
      simp only [hitems0, List.getElem_cons_zero]
    rw [hg0]
    show items.head?.map Prod.fst = some i0.1
    rw [hitems0]
    rfl
  have hKcons : ∃ t, treeKeys (.node b items children) = (getElem items (0) hlenpos).1 :: t := by
    obtain ⟨k0, t, hKe⟩ := List.exists_cons_of_ne_nil hKne
    rw [hKe] at hheadK ⊢
    simp only [List.head?_cons, Option.some.injEq] at hheadK
    exact ⟨t, by rw [hheadK]⟩
  rw [insertAux] at hok
  rw [← hjx] at hok
  split at hok
  · exact absurd hok (by simp)
  · rename_i child hgetc
    obtain ⟨hjclt, hcgeteq⟩ := List.getElem?_eq_some_iff.mp hgetc
    rw [hcgeteq] at hKJne hsjmem hsjmin hKJsorted hheadKJ hkey0 hKJup hK hkeyIns
    have hchildMem : child ∈ children := by
      rw [← hcgeteq]
      exact List.getElem_mem hjclt
    have hchildInv : invB child = true := hch child hchildMem
    split at hok
    · exact absurd hok (by simp)
    · rename_i out0 hrec
      obtain ⟨sib0, upd0, free0, clean0⟩ := out0
      have hclean0 : clean0 = true := by
        have hok2 := hok
        split at hok2
        · exact absurd hok2 (by simp)
        · split at hok2
          · have h3 := Except.ok.inj hok2
            rw [← h3] at hcl
            exact adjustOnce_clean _ _ _ _ _ hcl
          · split at hok2
            · exact absurd hok2 (by simp)
            · have h3 := Except.ok.inj hok2
              rw [← h3] at hcl
              exact adjustOnce_clean _ _ _ _ _ hcl
      have hKJok := ih child hchildMem free ⟨sib0, upd0, free0, clean0⟩ hchildInv hrec
        hclean0
      have hsibKJ : SibOK (keyIns key (treeKeys child)) sib0 := hKJok.1
      have hupdKJ := hKJok.2
      have hupIns : ∀ k ∈ keyIns key (treeKeys child), ∀ i2 (hi2 : i2 < items.length),
          jx < i2 → k < (getElem items (i2) hi2).1 := by
        intro k hk i2 hi2 hgt2
        rcases (mem_keyIns key k _).mp hk with h1 | h1
        · rw [h1]
          exact hFgt i2 hi2 hgt2
        · exact hKJup k h1 i2 hi2 hgt2
      split at hok
      · exact absurd hok (by simp)
      · rename_i items1 upd1 hsepu
        have hres := sepUpdate_resolve key items (treeKeys child) jx hjlt upd0 items1
          upd1 hsepu hsep hupdKJ hKJne hheadKJ hD hjx0 hkey0
        rcases hres with ⟨hu0, hi1, hu1, hf0⟩ |
          ⟨s0, b0, irest, hf0, hj0, hitems, hs0, hu0, hi1, hu1, hklt⟩
        · -- no walk through this node
          subst hu1
          subst hu0
          rw [hi1] at hok
          have hKJcons : ∃ h0 t2, treeKeys child = h0 :: t2 ∧ ¬ key < h0 := by
            rcases hupdKJ with h | h
            · exact absurd h hKJne
            · exact h
          obtain ⟨h0, t2, hKJc, hnlth0⟩ := hKJcons
          have hh0 : h0 = (getElem items (jx) hjlt).1 := by
            have h2 := hheadKJ
            rw [hKJc] at h2
            simp only [List.head?_cons, Option.some.injEq] at h2
            exact h2
          have hheadIns : (keyIns key (treeKeys child)).head? =
              some ((getElem items (jx) hjlt).1) := by
            rw [hKJc, keyIns_head_of_not_lt key h0 t2 hnlth0, hh0]
          have hsjmemIns : (getElem items (jx) hjlt).1 ∈ keyIns key (treeKeys child) :=
            (mem_keyIns _ _ _).mpr (Or.inr hsjmem)
          have hsjminIns : ∀ k ∈ keyIns key (treeKeys child),
              (getElem items (jx) hjlt).1 ≤ k := by
            intro k hk
            rcases (mem_keyIns key k _).mp hk with h1 | h1
            · rw [h1]
              exact hD hf0
            · exact hsjmin k h1
          split at hok
          · -- child replaced in place
            rename_i c1 hsib0
            have hsib0e : sib0 = Sum.inl c1 := hsib0
            rw [hsib0e] at hsibKJ
            obtain ⟨hc1Inv, hc1keys⟩ := hsibKJ
            have hout : adjustOnce cfg (.node b items (children.set jx c1)) free0 none
                clean0 = out := Except.ok.inj hok
            subst hout
            have hTInv : invB (.node b items (children.set jx c1)) = true :=
              invB_set_child b items children jx hjc hjlt c1 hlen hne hsep hch
                (fun i hi hic _ => hlow i hi hic)
                (fun i hi hic _ => hup i hi hic)
                hc1Inv
                (by rw [hc1keys]; exact keyIns_ne_nil key _)
                (by rw [hc1keys]; exact hsjmemIns)
                (by rw [hc1keys]; exact hsjminIns)
                (by
                  intro i2 hi2 hgt2 k hk
                  rw [hc1keys] at hk
                  exact hupIns k hk i2 hi2 hgt2)
            have hTkeys : treeKeys (.node b items (children.set jx c1)) =
                (children.take jx).flatMap treeKeys ++
                  (keyIns key (treeKeys child) ++
                    (children.drop (jx + 1)).flatMap treeKeys) := by
              rw [treeKeys_node_eq, List.set_eq_take_cons_drop c1 hjc,
                List.flatMap_append, List.flatMap_cons, hc1keys]
            have hadj := adjustOnce_ok cfg _ free0 none clean0 hTInv hcl
            obtain ⟨hsibT, hupdT, _⟩ := hadj
            constructor
            · rw [hkeyIns]
              rw [hTkeys] at hsibT
              exact hsibT
            · rw [hupdT]
              right
              obtain ⟨t, hKc⟩ := hKcons
              exact ⟨_, t, hKc, hnlt0 hf0⟩
          · -- child split
            rename_i l r hsib0
            split at hok
            · exact absurd hok (by simp)
            · rename_i rk hrk
              have hsib0e : sib0 = Sum.inr (l, r) := hsib0
              rw [hsib0e] at hsibKJ
              obtain ⟨hlInv, hrInv, hlne, hrne, hlr0⟩ := hsibKJ
              have hrkhead : (treeKeys r).head? = some rk := by
                rw [← headKey_eq r hrInv hrne]
                exact hrk
              have hrsorted := invB_keys_sorted r hrInv
              have hrkmem : rk ∈ treeKeys r := by
                obtain ⟨k0, t, hKe⟩ := List.exists_cons_of_ne_nil hrne
                rw [hKe] at hrkhead ⊢
                simp only [List.head?_cons, Option.some.injEq] at hrkhead
                rw [hrkhead]
                simp
              have hrkmin : ∀ x ∈ treeKeys r, rk ≤ x := fun x hx =>
                sorted_head_le _ hrsorted rk x hrkhead hx
              have hlr2 : List.Pairwise (· < ·) (treeKeys l ++ treeKeys r) := by
                rw [hlr0]
                exact keyIns_pairwise key _ (invB_keys_sorted child hchildInv)
              have hlr : ∀ x ∈ treeKeys l, ∀ y ∈ treeKeys r, x < y :=
                (List.pairwise_append.mp hlr2).2.2
              have hlmem : ∀ x ∈ treeKeys l, x ∈ keyIns key (treeKeys child) := by
                intro x hx
                rw [← hlr0]
                exact List.mem_append_left _ hx
              have hrmem2 : ∀ x ∈ treeKeys r, x ∈ keyIns key (treeKeys child) := by
                intro x hx
                rw [← hlr0]
                exact List.mem_append_right _ hx
              have hrkge : (getElem items (jx) hjlt).1 ≤ rk := hsjminIns rk (hrmem2 rk hrkmem)
              have hpos : nodeFind items rk = jx + 1 := by
                rw [nodeFind_eq_findSpec _ _ hsep]
                apply findSpec_middle _ _ jx (by simpa using hjlt) hsep
                · rw [hks jx hjlt]
                  exact not_lt.mpr hrkge
                · intro i hi hgt2
                  have hi2 : i < items.length := by simpa using hi
                  rw [hks i hi2]
                  exact hupIns rk (hrmem2 rk hrkmem) i hi2 hgt2
              rw [hpos] at hok
              have hout : adjustOnce cfg
                  (.node b (items.insertIdx (jx + 1) (rk, blocknoOf r))
                    ((children.set jx l).insertIdx (jx + 1) r)) free0 none clean0 =
                  out := Except.ok.inj hok
              subst hout
              obtain ⟨kl0, tl, hlc⟩ := List.exists_cons_of_ne_nil hlne
              have hkl0 : kl0 = (getElem items (jx) hjlt).1 := by
                have h2 := hheadIns
                rw [← hlr0, hlc] at h2
                simp only [List.cons_append, List.head?_cons, Option.some.injEq] at h2
                exact h2
              have hlhead : (treeKeys l).head? = some ((getElem items (jx) hjlt).1) := by
                rw [hlc, List.head?_cons, hkl0]
              have hmeml : (getElem items (jx) hjlt).1 ∈ treeKeys l := by
                rw [hlc, hkl0]
                simp
              have hlsorted := invB_keys_sorted l hlInv
              have hminl : ∀ x ∈ treeKeys l, (getElem items (jx) hjlt).1 ≤ x := fun x hx =>
                sorted_head_le _ hlsorted _ x hlhead hx
              have hTInv := invB_ins_child b items children jx hjc hjlt l r rk
                (blocknoOf r) hlen hne hsep hch
                (fun i hi hic _ => hlow i hi hic)
                (fun i hi hic _ => hup i hi hic)
                hlInv hrInv hlne hrne hmeml hminl hrkmem hrkmin
                (fun x hx => hlr x hx rk hrkmem)
                (by
                  intro i2 hi2 hgt2 k hk
                  exact hupIns k (hlmem k hk) i2 hi2 hgt2)
                (by
                  intro i2 hi2 hgt2 k hk
                  exact hupIns k (hrmem2 k hk) i2 hi2 hgt2)
              have hTkeys : treeKeys
                  (.node b (items.insertIdx (jx + 1) (rk, blocknoOf r))
                    ((children.set jx l).insertIdx (jx + 1) r)) =
                  (children.take jx).flatMap treeKeys ++
                    (keyIns key (treeKeys child) ++
                      (children.drop (jx + 1)).flatMap treeKeys) := by
                rw [treeKeys_node_eq, set_insert_decomp children jx hjc l r,
                  List.flatMap_append, List.flatMap_cons, List.flatMap_cons, ← hlr0]
                simp [List.append_assoc]
              have hadj := adjustOnce_ok cfg _ free0 none clean0 hTInv hcl
              obtain ⟨hsibT, hupdT, _⟩ := hadj
              constructor
              · rw [hkeyIns]
                rw [hTkeys] at hsibT
                exact hsibT
              · rw [hupdT]
                right
                obtain ⟨t, hKc⟩ := hKcons
                exact ⟨_, t, hKc, hnlt0 hf0⟩
        · -- the walk rewrites this node's first separator
          subst hi1
          subst hu1
          subst hu0
          have hlen2 : items.length = irest.length + 1 := by
            rw [hitems]
            simp
          have hget1 : ∀ (i : Nat) (hi : i < irest.length),
              getElem items (i + 1) (by omega) = getElem irest (i) hi := by
            intro i hi
            simp only [hitems, List.getElem_cons_succ]
          have hget0 : getElem items (0) hlenpos = (s0, b0) := by
            simp only [hitems, List.getElem_cons_zero]
          have hs0' : (getElem items (0) hlenpos).1 = s0 := by
            rw [hget0]
          have hiresLt : ∀ x ∈ irest.map Prod.fst, key < x := by
            intro x hx
            rw [List.mem_map] at hx
            obtain ⟨p, hp, rfl⟩ := hx
            obtain ⟨i, hi, hieq⟩ := List.mem_iff_getElem.mp hp
            have hgt := hFgt (i + 1) (by omega) (by omega)
            rw [hget1 i hi, hieq] at hgt
            exact hgt
          have hsorted1 : List.Pairwise (· < ·) (((key, b0) :: irest).map Prod.fst) := by
            rw [List.map_cons, List.pairwise_cons]
            refine ⟨fun x hx => hiresLt x hx, ?_⟩
            have h2 := hsep
            rw [hitems] at h2
            rw [List.map_cons, List.pairwise_cons] at h2
            exact h2.2
          have hlen1 : ((key, b0) :: irest).length = children.length := by
            simp only [List.length_cons]
            omega
          have hgetNe : ∀ (i : Nat) (hi : i < items.length), i ≠ 0 →
              getElem ((key, b0) :: irest) (i) (by simp only [List.length_cons]; omega) =
                getElem items (i) hi := by
            intro i hi hne0
            obtain ⟨i2, rfl⟩ : ∃ i2, i = i2 + 1 := ⟨i - 1, by omega⟩
            rw [List.getElem_cons_succ]
            exact (hget1 i2 (by omega)).symm
          have hgjx : ∀ (hb : jx < ((key, b0) :: irest).length),
              getElem ((key, b0) :: irest) (jx) hb = (key, b0) := by
            intro hb
            simp [hj0]
          have hKgt : ∀ x ∈ treeKeys (.node b items children), key < x := by
            intro x hx
            rw [hK] at hx
            rcases List.mem_append.mp hx with h1 | h1
            · rcases List.mem_append.mp h1 with h2 | h2
              · rw [hj0] at h2
                simp at h2
              · exact hkey0 hf0 x h2
            · exact hFRgt x h1
          have hKcons2 : keyIns key (treeKeys (.node b items children)) =
              key :: treeKeys (.node b items children) :=
            keyIns_of_lt_all key _ hKgt
          split at hok
          · -- child replaced in place
            rename_i c1 hsib0
            have hsib0e : sib0 = Sum.inl c1 := hsib0
            rw [hsib0e] at hsibKJ
            obtain ⟨hc1Inv, hc1keys⟩ := hsibKJ
            have hout : adjustOnce cfg
                (.node b ((key, b0) :: irest) (children.set jx c1)) free0
                (some (some s0)) clean0 = out := Except.ok.inj hok
            subst hout
            have hc1keys2 : treeKeys c1 = key :: treeKeys child := by
              rw [hc1keys, keyIns_of_lt_all key _ (hkey0 hf0)]
            have hTInv : invB (.node b ((key, b0) :: irest) (children.set jx c1))
                = true :=
              invB_set_child b ((key, b0) :: irest) children jx hjc
                (by simp only [List.length_cons]; omega) c1 hlen1 (by simp) hsorted1
                hch
                (fun i hi hic hne2 => by
                  have hi2 : i < items.length := by
                    simp only [List.length_cons] at hi
                    omega
                  rw [hgetNe i hi2 (by omega)]
                  exact hlow i hi2 hic)
                (fun i hi hic hne2 => by
                  have hi2 : i + 1 < items.length := by
                    simp only [List.length_cons] at hi
                    omega
                  rw [hgetNe (i + 1) hi2 (by omega)]
                  exact hup i hi2 hic)
                hc1Inv
                (by
                  rw [hc1keys2]
                  simp)
                (by
                  rw [hgjx, hc1keys2]
                  exact List.mem_cons_self _ _)
                (by
                  rw [hgjx, hc1keys2]
                  intro k hk
                  rcases List.mem_cons.mp hk with h1 | h1
                  · exact le_of_eq h1.symm
                  · exact le_of_lt (hkey0 hf0 k h1))
                (by
                  intro i2 hi2 hgt2 k hk
                  have hi2b : i2 < items.length := by
                    simp only [List.length_cons] at hi2
                    omega
                  rw [hgetNe i2 hi2b (by omega)]
                  rw [hc1keys2] at hk
                  rcases List.mem_cons.mp hk with h1 | h1
                  · rw [h1]
                    exact hFgt i2 hi2b hgt2
                  · exact hKJup k h1 i2 hi2b hgt2)
            have hTkeys : treeKeys (.node b ((key, b0) :: irest)
                (children.set jx c1)) =
                key :: treeKeys (.node b items children) := by
              rw [treeKeys_node_eq, List.set_eq_take_cons_drop c1 hjc,
                List.flatMap_append, List.flatMap_cons, hc1keys2, hK, hj0]
              simp
            have hadj := adjustOnce_ok cfg _ free0 (some (some s0)) clean0 hTInv hcl
            obtain ⟨hsibT, hupdT, _⟩ := hadj
            constructor
            · rw [hKcons2]
              rw [hTkeys] at hsibT
              exact hsibT
            · rw [hupdT]
              left
              obtain ⟨t, hKc⟩ := hKcons
              refine ⟨s0, t, rfl, ?_, hklt⟩
              rw [hKc, hs0']
          · -- child split
            rename_i l r hsib0
            split at hok
            · exact absurd hok (by simp)
            · rename_i rk hrk
              have hsib0e : sib0 = Sum.inr (l, r) := hsib0
              rw [hsib0e] at hsibKJ
              obtain ⟨hlInv, hrInv, hlne, hrne, hlr0⟩ := hsibKJ
              have hrkhead : (treeKeys r).head? = some rk := by
                rw [← headKey_eq r hrInv hrne]
                exact hrk
              have hrsorted := invB_keys_sorted r hrInv
              have hrkmem : rk ∈ treeKeys r := by
                obtain ⟨k0, t, hKe⟩ := List.exists_cons_of_ne_nil hrne
                rw [hKe] at hrkhead ⊢
                simp only [List.head?_cons, Option.some.injEq] at hrkhead
                rw [hrkhead]
                simp
              have hrkmin : ∀ x ∈ treeKeys r, rk ≤ x := fun x hx =>
                sorted_head_le _ hrsorted rk x hrkhead hx
              have hlr2 : List.Pairwise (· < ·) (treeKeys l ++ treeKeys r) := by
                rw [hlr0]
                exact keyIns_pairwise key _ (invB_keys_sorted child hchildInv)
              have hlr : ∀ x ∈ treeKeys l, ∀ y ∈ treeKeys r, x < y :=
                (List.pairwise_append.mp hlr2).2.2
              have hlmem : ∀ x ∈ treeKeys l, x ∈ keyIns key (treeKeys child) := by
                intro x hx
                rw [← hlr0]
                exact List.mem_append_left _ hx
              have hrmem2 : ∀ x ∈ treeKeys r, x ∈ keyIns key (treeKeys child) := by
                intro x hx
                rw [← hlr0]
                exact List.mem_append_right _ hx
              have hlkeys : treeKeys l ++ treeKeys r = key :: treeKeys child := by
                rw [hlr0, keyIns_of_lt_all key _ (hkey0 hf0)]
              obtain ⟨kl0, tl, hlc⟩ := List.exists_cons_of_ne_nil hlne
              have hkl0 : kl0 = key := by
                have h2 := hlkeys
                rw [hlc] at h2
                simp only [List.cons_append, List.cons.injEq] at h2
                exact h2.1
              have hlhead : (treeKeys l).head? = some key := by
                rw [hlc, List.head?_cons, hkl0]
              have hkeymem : key ∈ treeKeys l := by
                rw [hlc, hkl0]
                simp
              have hlsorted := invB_keys_sorted l hlInv
              have hlmin : ∀ x ∈ treeKeys l, key ≤ x := fun x hx =>
                sorted_head_le _ hlsorted key x hlhead hx
              have hkeyrk : key < rk := hlr key hkeymem rk hrkmem
              have hrkKJ : rk ∈ treeKeys child := by
                rcases (mem_keyIns key rk _).mp (hrmem2 rk hrkmem) with h1 | h1
                · exact absurd h1.symm (ne_of_lt hkeyrk)
                · exact h1
              have hpos : nodeFind ((key, b0) :: irest) rk = jx + 1 := by
                have hpos1 : nodeFind ((key, b0) :: irest) rk = 0 + 1 := by
                  rw [nodeFind_eq_findSpec _ _ hsorted1]
                  apply findSpec_middle _ _ 0 (by simp) hsorted1
                  · simp only [List.map_cons, List.getElem_cons_zero]
                    exact not_lt.mpr (le_of_lt hkeyrk)
                  · intro i hi hgt2
                    have hi2 : i < items.length := by
                      simp only [List.map_cons, List.length_cons, List.length_map]
                        at hi
                      omega
                    have hgi : getElem (((key, b0) :: irest).map Prod.fst) (i) hi =
                        (getElem items (i) hi2).1 := by
                      rw [List.getElem_map]
                      rw [hgetNe i hi2 (by omega)]
                    rw [hgi]
                    exact hKJup rk hrkKJ i hi2 (by omega)
                rw [hpos1, hj0]
              rw [hpos] at hok
              have hout : adjustOnce cfg
                  (.node b (((key, b0) :: irest).insertIdx (jx + 1)
                      (rk, blocknoOf r))
                    ((children.set jx l).insertIdx (jx + 1) r)) free0
                  (some (some s0)) clean0 = out := Except.ok.inj hok
              subst hout
              have hTInv := invB_ins_child b ((key, b0) :: irest) children jx hjc
                (by simp only [List.length_cons]; omega) l r rk (blocknoOf r)
                hlen1 (by simp) hsorted1 hch
                (fun i hi hic hne2 => by
                  have hi2 : i < items.length := by
                    simp only [List.length_cons] at hi
                    omega
                  rw [hgetNe i hi2 (by omega)]
                  exact hlow i hi2 hic)
                (fun i hi hic hne2 => by
                  have hi2 : i + 1 < items.length := by
                    simp only [List.length_cons] at hi
                    omega
                  rw [hgetNe (i + 1) hi2 (by omega)]
                  exact hup i hi2 hic)
                hlInv hrInv hlne hrne
                (by
                  rw [hgjx]
                  exact hkeymem)
                (by
                  rw [hgjx]
                  exact hlmin)
                hrkmem hrkmin
                (fun x hx => hlr x hx rk hrkmem)
                (by
                  intro i2 hi2 hgt2 k hk
                  have hi2b : i2 < items.length := by
                    simp only [List.length_cons] at hi2
                    omega
                  rw [hgetNe i2 hi2b (by omega)]
                  rcases (mem_keyIns key k _).mp (hlmem k hk) with h1 | h1
                  · rw [h1]
                    exact hFgt i2 hi2b hgt2
                  · exact hKJup k h1 i2 hi2b hgt2)
                (by
                  intro i2 hi2 hgt2 k hk
                  have hi2b : i2 < items.length := by
                    simp only [List.length_cons] at hi2
                    omega
                  rw [hgetNe i2 hi2b (by omega)]
                  rcases (mem_keyIns key k _).mp (hrmem2 k hk) with h1 | h1
                  · rw [h1]
                    exact hFgt i2 hi2b hgt2
                  · exact hKJup k h1 i2 hi2b hgt2)
              have hTkeys : treeKeys
                  (.node b (((key, b0) :: irest).insertIdx (jx + 1)
                      (rk, blocknoOf r))
                    ((children.set jx l).insertIdx (jx + 1) r)) =
                  key :: treeKeys (.node b items children) := by
                rw [treeKeys_node_eq, set_insert_decomp children jx hjc l r,
                  List.flatMap_append, List.flatMap_cons, List.flatMap_cons, hK, hj0]
                simp only [List.take_zero, List.flatMap_nil, List.nil_append]
                rw [← List.append_assoc, hlkeys]
                simp
              have hadj := adjustOnce_ok cfg _ free0 (some (some s0)) clean0 hTInv hcl
              obtain ⟨hsibT, hupdT, _⟩ := hadj
              constructor
              · rw [hKcons2]
                rw [hTkeys] at hsibT
                exact hsibT
              · rw [hupdT]
                left
                obtain ⟨t, hKc⟩ := hKcons
                refine ⟨s0, t, rfl, ?_, hklt⟩
                rw [hKc, hs0']

/-- Postcondition of `insertAux` on any subtree, in clean runs. -/
theorem insertAux_ok (cfg : Cfg) (key : String) (v : Int × Int) :
    ∀ t, invB t = true → ∀ free out, insertAux cfg key v t free = .ok out →
      out.clean = true → InsOutOK key (treeKeys t) out := by
  intro t
  induction t using PTree.recMem with
  | hleaf b items =>
    intro hInv free out hok hcl
    exact insertAux_leaf_ok cfg key v b items free out hInv hok hcl
  | hnode b items children ih =>
    intro hInv free out hok hcl
    exact insertAux_node_ok cfg key v b items children free out
      (fun c hc free2 out2 hc1 hrec hcl2 => ih c hc hc1 free2 out2 hrec hcl2)
      hInv hok hcl

/-- Head of a list from its `head?`. -/
theorem head?_eq_some_mem {l : List String} {k : String} (h : l.head? = some k) :
    k ∈ l := by
  match l with
  | [] => simp at h
  | a :: t =>
    simp only [List.head?_cons, Option.some.injEq] at h
    rw [← h]
    simp

/-- `BlockTree.insert` preserves the ordering invariant and changes the
stored key set exactly by inserting the new key, in clean runs. -/
theorem insertTop_ok (cfg : Cfg) (t : PTree) (free : Int) (key : String)
    (v : Int × Int) (t2 : PTree) (free2 : Int)
    (hInv : invB t = true)
    (hok : insertTop cfg t free key v = .ok (t2, free2, true)) :
    invB t2 = true ∧ treeKeys t2 = keyIns key (treeKeys t) := by
  rw [insertTop] at hok
  split at hok
  · exact absurd hok (by simp)
  · split at hok
    · exact absurd hok (by simp)
    · rename_i out hrec
      split at hok
      · -- no root split
        rename_i t1 hsib
        have h3 := Except.ok.inj hok
        have ht1 : t1 = t2 := congrArg Prod.fst h3
        have hclean : out.clean = true := congrArg (fun p => p.2.2) h3
        have hmain := insertAux_ok cfg key v t hInv free out hrec hclean
        have hsibOK := hmain.1
        rw [hsib] at hsibOK
        obtain ⟨hi2, hk2⟩ := hsibOK
        rw [← ht1]
        exact ⟨hi2, hk2⟩
      · -- root split: a fresh root is synthesized
        rename_i l r hsib
        split at hok
        · rename_i lk rk hlk hrk
          split at hok
          · exact absurd hok (by simp)
          · have h3 := Except.ok.inj hok
            have hroot : PTree.node 1 [(lk, blocknoOf l), (rk, blocknoOf r)] [l, r]
                = t2 := congrArg Prod.fst h3
            have hclean2 := congrArg (fun p => p.2.2) h3
            simp only [Bool.and_eq_true] at hclean2
            have hclean : out.clean = true := hclean2.1
            have hmain := insertAux_ok cfg key v t hInv free out hrec hclean
            have hsibOK := hmain.1
            rw [hsib] at hsibOK
            obtain ⟨hlInv, hrInv, hlne, hrne, hlr0⟩ := hsibOK
            have hlk2 : (treeKeys l).head? = some lk := by
              rw [← headKey_eq l hlInv hlne]
              exact hlk
            have hrk2 : (treeKeys r).head? = some rk := by
              rw [← headKey_eq r hrInv hrne]
              exact hrk
            have hlkmem : lk ∈ treeKeys l := head?_eq_some_mem hlk2
            have hrkmem : rk ∈ treeKeys r := head?_eq_some_mem hrk2
            have hlsorted := invB_keys_sorted l hlInv
            have hrsorted := invB_keys_sorted r hrInv
            have hlkmin : ∀ x ∈ treeKeys l, lk ≤ x := fun x hx =>
              sorted_head_le _ hlsorted lk x hlk2 hx
            have hrkmin : ∀ x ∈ treeKeys r, rk ≤ x := fun x hx =>
              sorted_head_le _ hrsorted rk x hrk2 hx
            have happ : List.Pairwise (· < ·) (treeKeys l ++ treeKeys r) := by
              rw [hlr0]
              exact keyIns_pairwise key _ (invB_keys_sorted t hInv)
            have hcross : ∀ x ∈ treeKeys l, ∀ y ∈ treeKeys r, x < y :=
              (List.pairwise_append.mp happ).2.2
            have hlkrk : lk < rk := hcross lk hlkmem rk hrkmem
            have hrootInv : invB (PTree.node 1
                [(lk, blocknoOf l), (rk, blocknoOf r)] [l, r]) = true := by
              rw [invB_node_iff_idx]
              refine ⟨by simp, by simp, ?_, ?_, ?_, ?_⟩
              · simp only [List.map_cons, List.map_nil]
                rw [List.pairwise_cons]
                refine ⟨?_, by simp⟩
                intro a ha
                simp only [List.mem_cons, List.not_mem_nil, or_false] at ha
                rw [ha]
                exact hlkrk
              · intro c hc
                simp only [List.mem_cons, List.not_mem_nil, or_false] at hc
                rcases hc with h | h
                · exact h ▸ hlInv
                · exact h ▸ hrInv
              · intro i hi hic
                match i with
                | 0 => exact ⟨hlne, hlkmem, hlkmin⟩
                | 1 => exact ⟨hrne, hrkmem, hrkmin⟩
                | n + 2 =>
                  simp only [List.length_cons, List.length_nil] at hi
                  omega
              · intro i hi hic
                match i with
                | 0 =>
                  intro k hk
                  exact hcross k hk rk hrkmem
                | n + 1 =>
                  simp only [List.length_cons, List.length_nil] at hi
                  omega
            have hrootKeys : treeKeys (PTree.node 1
                [(lk, blocknoOf l), (rk, blocknoOf r)] [l, r]) =
                treeKeys l ++ treeKeys r := by
              rw [treeKeys_node_eq]
              simp
            rw [← hroot]
            refine ⟨hrootInv, ?_⟩
            rw [hrootKeys, hlr0]
        · exact absurd hok (by simp)

theorem listMin?_spec : ∀ l : List String,
    match listMin? l with
    | none => l = []
    | some m => m ∈ l ∧ ∀ x ∈ l, m ≤ x := by
  intro l
  induction l with
  | nil => simp [listMin?]
  | cons x r ih =>
    rw [listMin?]
    rcases hr : listMin? r with _ | m
    · rw [hr] at ih
      subst ih
      simp
    · rw [hr] at ih
      obtain ⟨hmem, hmin⟩ := ih
      dsimp only
      by_cases hxm : x ≤ m
      · rw [if_pos hxm]
        refine ⟨by simp, ?_⟩
        intro y hy
        rcases List.mem_cons.mp hy with h | h
        · exact le_of_eq h.symm
        · exact le_trans hxm (hmin y h)
      · rw [if_neg hxm]
        refine ⟨by simp [hmem], ?_⟩
        intro y hy
        rcases List.mem_cons.mp hy with h | h
        · rw [h]
          exact le_of_not_le hxm
        · exact hmin y h

/-- A member that bounds the list from below is the minimum. -/
theorem listMin?_eq (l : List String) (m : String) (hm : m ∈ l)
    (hmin : ∀ x ∈ l, m ≤ x) : listMin? l = some m := by
  have hs := listMin?_spec l
  rcases hl : listMin? l with _ | m2
  · rw [hl] at hs
    rw [hs] at hm
    simp at hm
  · rw [hl] at hs
    obtain ⟨hmem2, hmin2⟩ := hs
    have h1 : m ≤ m2 := hmin m2 hmem2
    have h2 : m2 ≤ m := hmin2 m hm
    rw [le_antisymm h2 h1]

/-- The executable invariant implies the C2 sortedness property at
every node. -/
theorem invB_allSortedB (t : PTree) (hInv : invB t = true) :
    allSortedB t = true := by
  induction t using PTree.recMem with
  | hleaf b items =>
    rw [invB_leaf_iff] at hInv
    rw [allSortedB, chainLtB_iff_pairwise]
    exact hInv
  | hnode b items children ih =>
    rw [invB_node_iff] at hInv
    obtain ⟨hlen, hne, hsep, hch, hlow, hup⟩ := hInv
    rw [allSortedB]
    simp only [Bool.and_eq_true, chainLtB_iff_pairwise, List.all_eq_true,
      List.mem_attach, true_implies, Subtype.forall]
    exact ⟨hsep, fun c hc => ih c hc (hch c hc)⟩

/-- The executable invariant implies the C3 separator property at every
node. -/
theorem invB_sepInvB (t : PTree) (hInv : invB t = true) :
    sepInvB t = true := by
  induction t using PTree.recMem with
  | hleaf b items => rw [sepInvB]
  | hnode b items children ih =>
    rw [invB_node_iff] at hInv
    obtain ⟨hlen, hne, hsep, hch, hlow, hup⟩ := hInv
    rw [sepInvB]
    simp only [Bool.and_eq_true, List.all_eq_true, decide_eq_true_eq,
      List.mem_attach, true_implies, Subtype.forall]
    refine ⟨⟨⟨hlen, ?_⟩, ?_⟩, ?_⟩
    · intro ic hic
      obtain ⟨hne2, hmem2, hmin2⟩ := hlow ic hic
      exact listMin?_eq _ _ hmem2 hmin2
    · intro ci hci k hk
      exact hup ci hci k hk
    · intro c hc
      exact ih c hc (hch c hc)

/-- Free-counter behaviour of one `adjust`. -/
theorem adjustOnce_free (cfg : Cfg) (t : PTree) (free : Int)
    (upd : Option (Option String)) (cl : Bool) :
    free ≤ (adjustOnce cfg t free upd cl).free := by
  rw [adjustOnce]
  split
  · cases t <;> simp [splitHalves]
  · simp

/-- A split advances the free counter by exactly two blocks. -/
theorem adjustOnce_inr_free (cfg : Cfg) (t : PTree) (free : Int)
    (upd : Option (Option String)) (cl : Bool) (l r : PTree)
    (h : (adjustOnce cfg t free upd cl).sib = .inr (l, r)) :
    (adjustOnce cfg t free upd cl).free = free + 2 := by
  rw [adjustOnce] at h ⊢
  split at h
  · rename_i hns
    rw [if_pos hns]
    cases t <;> simp [splitHalves]
  · simp at h

/-- When the free counter does not move, `adjust` did not split. -/
theorem adjustOnce_nosplit (cfg : Cfg) (t : PTree) (free : Int)
    (upd : Option (Option String)) (cl : Bool)
    (h : (adjustOnce cfg t free upd cl).free = free) :
    adjustOnce cfg t free upd cl = ⟨.inl t, upd, free, cl⟩ := by
  rw [adjustOnce] at h ⊢
  split at h
  · rename_i hns
    exfalso
    cases t <;> simp [splitHalves] at h
  · rename_i hns
    rw [if_neg hns]

/-- The free counter never decreases across an insert, and grows by at
least two when the node split. -/
theorem insertAux_free_mono (cfg : Cfg) (key : String) (v : Int × Int) :
    ∀ t free out, insertAux cfg key v t free = .ok out →
      free ≤ out.free ∧ ∀ l r, out.sib = .inr (l, r) → free + 2 ≤ out.free := by
  intro t
  induction t using PTree.recMem with
  | hleaf b items =>
    intro free out hok
    rw [insertAux] at hok
    by_cases hidx : nodeFind items key > 0
    · rw [if_pos hidx] at hok
      split at hok
      · exact absurd hok (by simp)
      · rename_i n0 v0 hget
        by_cases heq : n0 = key
        · rw [if_pos heq] at hok
          by_cases hovw : cfg.ovw
          · rw [if_pos hovw] at hok
            have hout := Except.ok.inj hok
            subst hout
            refine ⟨adjustOnce_free _ _ _ _ _, ?_⟩
            intro l r hsib
            have := adjustOnce_inr_free _ _ _ _ _ l r hsib
            rw [this]
          · rw [if_neg hovw] at hok
            exact absurd hok (by simp)
        · rw [if_neg heq] at hok
          have hout := Except.ok.inj hok
          subst hout
          refine ⟨adjustOnce_free _ _ _ _ _, ?_⟩
          intro l r hsib
          have := adjustOnce_inr_free _ _ _ _ _ l r hsib
          rw [this]
    · rw [if_neg hidx] at hok
      have hout := Except.ok.inj hok
      subst hout
      refine ⟨adjustOnce_free _ _ _ _ _, ?_⟩
      intro l r hsib
      have := adjustOnce_inr_free _ _ _ _ _ l r hsib
      rw [this]
  | hnode b items children ih =>
    intro free out hok
    rw [insertAux] at hok
    split at hok
    · exact absurd hok (by simp)
    · rename_i child hgetc
      have hchildMem : child ∈ children := by
        obtain ⟨hlt, heq⟩ := List.getElem?_eq_some_iff.mp hgetc
        rw [← heq]
        exact List.getElem_mem hlt
      split at hok
      · exact absurd hok (by simp)
      · rename_i out0 hrec
        have hmono0 := (ih child hchildMem free out0 hrec).1
        split at hok
        · exact absurd hok (by simp)
        · rename_i items1 upd1 hsepu
          split at hok
          · rename_i c1 hsib0
            have hout := Except.ok.inj hok
            subst hout
            refine ⟨le_trans hmono0 (adjustOnce_free _ _ _ _ _), ?_⟩
            intro l r hsib
            have h2 := adjustOnce_inr_free _ _ _ _ _ l r hsib
            rw [h2]
            omega
          · rename_i l0 r0 hsib0
            split at hok
            · exact absurd hok (by simp)
            · rename_i rk hrk
              have hout := Except.ok.inj hok
              subst hout
              have hsplit0 := (ih child hchildMem free out0 hrec).2 l0 r0 hsib0
              refine ⟨le_trans hmono0 (adjustOnce_free _ _ _ _ _), ?_⟩
              intro l r hsib
              have h2 := adjustOnce_inr_free _ _ _ _ _ l r hsib
              rw [h2]
              have := adjustOnce_free cfg (.node b
                (items1.insertIdx (nodeFind items1 rk) (rk, blocknoOf r0))
                ((children.set
                    ((if nodeFind items key = 0 then 1 else nodeFind items key) - 1)
                    l0).insertIdx (nodeFind items1 rk) r0)) out0.free upd1 out0.clean
              omega

/-- A smallest-yet key descends the leftmost chain; when the free
counter comes back unchanged (no node split anywhere), the result is
exactly `insertLeftmost`, with the walk pending on the old minimum. -/
theorem insertAux_leftmost (cfg : Cfg) (key : String) (v : Int × Int) :
    ∀ t, invB t = true → (∀ x ∈ treeKeys t, key < x) →
    ∀ free out, insertAux cfg key v t free = .ok out → out.free = free →
      out.sib = .inl (insertLeftmost key v t) ∧
        out.upd = some (treeKeys t).head? := by
  intro t
  induction t using PTree.recMem with
  | hleaf b items =>
    intro hInv hlt free out hok hfree
    rw [insertAux] at hok
    have hidx : ¬ nodeFind items key > 0 := by
      have hsorted := (invB_leaf_iff b items).mp hInv
      rw [nodeFind_eq_findSpec _ _ hsorted, findSpec_zero_of_lt_all]
      · omega
      · intro x hx
        exact hlt x (by simpa [treeKeys] using hx)
    rw [if_neg hidx] at hok
    have hout := Except.ok.inj hok
    subst hout
    have hno := adjustOnce_nosplit cfg _ free _ true hfree
    constructor
    · rw [hno]
      simp [insertLeftmost]
    · rw [hno]
      simp [treeKeys, List.head?_map]
  | hnode b items children ih =>
    intro hInv hlt free out hok hfree
    obtain ⟨hlen, hne, hsep, hch, hlow, hup⟩ :=
      (invB_node_iff_idx b items children).mp hInv
    have hlenpos : 0 < items.length := by
      cases items with
      | nil => exact absurd rfl hne
      | cons a l => simp
    have hlenposc : 0 < children.length := by omega
    have hsepmem : ∀ i (hi : i < items.length),
        (getElem items (i) hi).1 ∈ treeKeys (.node b items children) := by
      intro i hi
      rw [treeKeys_node_eq, List.mem_flatMap]
      exact ⟨getElem children (i) (by omega), List.getElem_mem _, (hlow i hi (by omega)).2.1⟩
    have hf0 : nodeFind items key = 0 := by
      rw [nodeFind_eq_findSpec _ _ hsep]
      apply findSpec_zero_of_lt_all
      intro x hx
      obtain ⟨p, hp, rfl⟩ := List.mem_map.mp hx
      obtain ⟨i, hi, hieq⟩ := List.mem_iff_getElem.mp hp
      have h2 := hlt (getElem items (i) hi).1 (hsepmem i hi)
      rw [hieq] at h2
      exact h2
    have hidx0 : (if nodeFind items key = 0 then 1 else nodeFind items key) - 1 = 0 := by
      rw [hf0]
      simp
    rw [insertAux] at hok
    rw [hidx0] at hok
    split at hok
    · exact absurd hok (by simp)
    · rename_i child hgetc
      obtain ⟨hjclt, hcgeteq⟩ := List.getElem?_eq_some_iff.mp hgetc
      have hchildMem : child ∈ children := by
        rw [← hcgeteq]
        exact List.getElem_mem hjclt
      have hchildInv := hch child hchildMem
      have hchildKeys : ∀ x ∈ treeKeys child, x ∈ treeKeys (.node b items children) := by
        intro x hx
        rw [treeKeys_node_eq, List.mem_flatMap]
        exact ⟨child, hchildMem, hx⟩
      have hltc : ∀ x ∈ treeKeys child, key < x := fun x hx => hlt x (hchildKeys x hx)
      split at hok
      · exact absurd hok (by simp)
      · rename_i out0 hrec
        have hmono0 := insertAux_free_mono cfg key v child free out0 hrec
        split at hok
        · exact absurd hok (by simp)
        · rename_i items1 upd1 hsepu
          split at hok
          · rename_i c1 hsib0
            have hout := Except.ok.inj hok
            subst hout
            have hfr2 : out0.free = free := by
              have h2 := adjustOnce_free cfg (.node b items1 (children.set 0 c1))
                out0.free upd1 out0.clean
              have h3 := hmono0.1
              omega
            obtain ⟨hsibI, hupdI⟩ := ih child hchildMem hchildInv hltc free out0
              hrec hfr2
            have hc1 : c1 = insertLeftmost key v child := by
              rw [hsib0] at hsibI
              exact Sum.inl.inj hsibI
            have hKJne : treeKeys child ≠ [] := by
              have h2 := (hlow 0 hlenpos (by omega)).1
              rw [hcgeteq] at h2
              exact h2
            obtain ⟨h0, t0, hKJc⟩ := List.exists_cons_of_ne_nil hKJne
            have hupd0 : out0.upd = some (some h0) := by
              rw [hupdI, hKJc]
              rfl
            have hh0 : h0 = (getElem items (0) hlenpos).1 := by
              have hmm := (hlow 0 hlenpos (by omega)).2.1
              have hmn := (hlow 0 hlenpos (by omega)).2.2
              rw [hcgeteq] at hmm hmn
              have hsorted := invB_keys_sorted child hchildInv
              have hhd := sorted_min_head _ hsorted _ hmm hmn
              rw [hKJc] at hhd
              simp only [List.head?_cons, Option.some.injEq] at hhd
              exact hhd
            obtain ⟨i0, irest, hitems0⟩ := List.exists_cons_of_ne_nil hne
            have hg0 : getElem items (0) hlenpos = i0 := by
              simp only [hitems0, List.getElem_cons_zero]
            have hold2 : h0 = i0.1 := by
              rw [hh0]
              exact congrArg Prod.fst hg0
            have hseval : sepUpdate key items (some (some h0)) =
                .ok ((key, i0.2) :: irest, some (some h0)) := by
              rw [hitems0]
              have hsorted2 : List.Pairwise (· < ·) ((i0 :: irest).map Prod.fst) := by
                rw [← hitems0]
                exact hsep
              rw [hold2]
              exact sepUpdate_head key i0.1 i0.2 irest hsorted2
            rw [hupd0, hseval] at hsepu
            have h4 := Except.ok.inj hsepu
            have hi1 : (key, i0.2) :: irest = items1 := congrArg Prod.fst h4
            have hu1 : some (some h0) = upd1 := congrArg Prod.snd h4
            have hfree2 : (adjustOnce cfg (.node b items1 (children.set 0 c1))
                out0.free upd1 out0.clean).free = out0.free := by
              have h2 := adjustOnce_free cfg (.node b items1 (children.set 0 c1))
                out0.free upd1 out0.clean
              omega
            have hno := adjustOnce_nosplit cfg _ out0.free upd1 out0.clean hfree2
            have hKne : treeKeys (.node b items children) ≠ [] :=
              List.ne_nil_of_mem (hchildKeys h0 (by rw [hKJc]; simp))
            constructor
            · rw [hno]
              show Sum.inl (PTree.node b items1 (children.set 0 c1)) =
                Sum.inl (insertLeftmost key v (.node b items children))
              obtain ⟨c0, ctail, hchildren0⟩ := List.exists_cons_of_ne_nil
                (show children ≠ [] by
                  intro hc
                  rw [hc] at hlenposc
                  simp at hlenposc)
              have hc0 : c0 = child := by
                have h2 := hcgeteq
                simp only [hchildren0, List.getElem_cons_zero] at h2
                exact h2
              rw [← hi1, hc1, hchildren0, hitems0]
              simp [insertLeftmost, List.set_cons_zero, hc0]
            · rw [hno]
              show upd1 = some (treeKeys (.node b items children)).head?
              rw [← hu1, ← headKey_eq _ hInv hKne]
              show some (some h0) = some (items.head?.map Prod.fst)
              rw [hitems0, hold2]
              rfl
          · rename_i l0 r0 hsib0
            split at hok
            · exact absurd hok (by simp)
            · rename_i rk hrk
              have hout := Except.ok.inj hok
              subst hout
              exfalso
              have hsplit0 := hmono0.2 l0 r0 hsib0
              have h2 := adjustOnce_free cfg (.node b
                (items1.insertIdx (nodeFind items1 rk) (rk, blocknoOf r0))
                ((children.set 0 l0).insertIdx (nodeFind items1 rk) r0))
                out0.free upd1 out0.clean
              omega

/-! ## Claim theorems C2 and C3 -/

/-- C2: in a tree satisfying the structural invariant, every node's
item list is strictly ascending by key, and a (clean) successful
`BlockTree.insert` — which covers inserts that split nodes, inserts
that overwrite an existing key in place, and plain inserts — produces a
tree in which every node's item list is again strictly ascending (and
the full invariant still holds, so the preservation iterates). -/
theorem insert_preserves_sorted_items (cfg : Cfg) (t : PTree) (free : Int)
    (key : String) (v : Int × Int) (t2 : PTree) (free2 : Int)
    (hInv : invB t = true)
    (hok : insertTop cfg t free key v = .ok (t2, free2, true)) :
    allSortedB t = true ∧ allSortedB t2 = true ∧ invB t2 = true := by
  have h2 := insertTop_ok cfg t free key v t2 free2 hInv hok
  exact ⟨invB_allSortedB t hInv, invB_allSortedB t2 h2.1, h2.1⟩

theorem insert_preserves_sorted_items_witness :
    allSortedB (.leaf 1 [("b", (5, 6))]) = true ∧
    allSortedB (.leaf 1 [("a", (1, 2)), ("b", (5, 6))]) = true ∧
    invB (.leaf 1 [("a", (1, 2)), ("b", (5, 6))]) = true := by
  have hInv : invB (.leaf 1 [("b", (5, 6))]) = true := by
    simp [invB, chainLtB]
  have hok : insertTop defaultCfg (.leaf 1 [("b", (5, 6))]) 2 "a" (1, 2) =
      .ok (.leaf 1 [("a", (1, 2)), ("b", (5, 6))], 2, true) := by
    have hns : needSplit ⟨1024, 100, 160, 193, true⟩
        (.leaf 1 [("a", (1, 2)), ("b", (5, 6))]) = false := by
      decide
    have h1 : ¬ ((160 : Int) < ("a".length : Int)) := by decide
    have hab : (['a'] : List Char) < ['b'] := by decide
    rw [insertTop, insertAux]
    norm_num [nodeFind, findLin, adjustOnce, hns, defaultCfg, h1, hab]
  exact insert_preserves_sorted_items defaultCfg _ 2 "a" (1, 2) _ 2 hInv hok

/-- C3: in a tree satisfying the structural invariant, every internal
node's separators are each the smallest key of the corresponding
child's subtree, with the subtree's keys lying in the half-open
interval up to the next separator; a (clean) successful insert
preserves this; and when the inserted key is smaller than every key of
the tree and no node splits (the free block counter is unchanged), the
resulting tree is exactly the old tree with the first separator of
every node on the leftmost-child chain replaced by the new key and the
record placed at the front of the leftmost leaf — no other node is
touched. -/
theorem separator_min_interval_and_leftmost_walk (cfg : Cfg) (t : PTree)
    (free : Int) (key : String) (v : Int × Int) (t2 : PTree) (free2 : Int)
    (hInv : invB t = true)
    (hok : insertTop cfg t free key v = .ok (t2, free2, true)) :
    sepInvB t = true ∧ sepInvB t2 = true ∧
      ((∀ x ∈ treeKeys t, key < x) → free2 = free →
        t2 = insertLeftmost key v t) := by
  have h2 := insertTop_ok cfg t free key v t2 free2 hInv hok
  refine ⟨invB_sepInvB t hInv, invB_sepInvB t2 h2.1, ?_⟩
  intro hlt hfr
  rw [insertTop] at hok
  split at hok
  · exact absurd hok (by simp)
  · split at hok
    · exact absurd hok (by simp)
    · rename_i out hrec
      split at hok
      · rename_i t1 hsib
        have h3 := Except.ok.inj hok
        have ht1 : t1 = t2 := congrArg Prod.fst h3
        have hfro : out.free = free2 := congrArg (fun p => p.2.1) h3
        have hres := insertAux_leftmost cfg key v t hInv hlt free out hrec (by omega)
        rw [hsib] at hres
        have h4 := Sum.inl.inj hres.1
        rw [← ht1, h4]
      · rename_i l r hsib
        split at hok
        · rename_i lk rk hlk hrk
          split at hok
          · exact absurd hok (by simp)
          · exfalso
            have h3 := Except.ok.inj hok
            have hfro : out.free = free2 := congrArg (fun p => p.2.1) h3
            have hmono := (insertAux_free_mono cfg key v t free out hrec).2 l r hsib
            omega
        · exact absurd hok (by simp)

theorem separator_min_interval_and_leftmost_walk_witness :
    sepInvB (.leaf 1 [("b", (5, 6))]) = true ∧
    sepInvB (.leaf 1 [("a", (1, 2)), ("b", (5, 6))]) = true ∧
    (.leaf 1 [("a", (1, 2)), ("b", (5, 6))] : PTree) =
      insertLeftmost "a" (1, 2) (.leaf 1 [("b", (5, 6))]) := by
  have hInv : invB (.leaf 1 [("b", (5, 6))]) = true := by
    simp [invB, chainLtB]
  have hok : insertTop defaultCfg (.leaf 1 [("b", (5, 6))]) 2 "a" (1, 2) =
      .ok (.leaf 1 [("a", (1, 2)), ("b", (5, 6))], 2, true) := by
    have hns : needSplit ⟨1024, 100, 160, 193, true⟩
        (.leaf 1 [("a", (1, 2)), ("b", (5, 6))]) = false := by
      decide
    have h1 : ¬ ((160 : Int) < ("a".length : Int)) := by decide
    have hab : (['a'] : List Char) < ['b'] := by decide
    rw [insertTop, insertAux]
    norm_num [nodeFind, findLin, adjustOnce, hns, defaultCfg, h1, hab]
  have h := separator_min_interval_and_leftmost_walk defaultCfg _ 2 "a" (1, 2) _ 2
    hInv hok
  refine ⟨h.1, h.2.1, h.2.2 ?_ rfl⟩
  intro x hx
  simp [treeKeys] at hx
  subst hx
  simp
  decide

/-! ## Claim C8: the two find branches agree -/

/-- C8: on a strictly ascending item list, the linear branch
(`len(self.items) < 8`) and the binary branch of `Node.find` return
the same index, namely the smallest index whose key is strictly
greater than the query — and the length of the list when there is no
such index. -/
theorem find_branches_agree {α : Type} (items : List (String × α)) (key : String)
    (hs : List.Pairwise (· < ·) (items.map Prod.fst)) :
    findLin items key = findSpec (items.map Prod.fst) key ∧
    (findBin items key).toNat = findSpec (items.map Prod.fst) key ∧
    nodeFind items key = findSpec (items.map Prod.fst) key ∧
    findSpec (items.map Prod.fst) key ≤ items.length ∧
    (∀ hlt : findSpec (items.map Prod.fst) key < items.length,
        key < (getElem items (findSpec (items.map Prod.fst) key) hlt).1) ∧
    (∀ i (hi : i < items.length), i < findSpec (items.map Prod.fst) key →
        ¬ key < (getElem items (i) hi).1) := by
  refine ⟨findLin_eq_findSpec items key, ?_, nodeFind_eq_findSpec items key hs,
    ?_, ?_, ?_⟩
  · rw [findBin_eq_findSpec items key hs]
    omega
  · have := findSpec_le_length (items.map Prod.fst) key
    simpa using this
  · intro hlt
    have h2 := findSpec_hit (items.map Prod.fst) key (by simpa using hlt)
    simpa using h2
  · intro i hi hlt
    have h2 := findSpec_min (items.map Prod.fst) key i hlt (by simpa using hi)
    simpa using h2

theorem find_branches_agree_witness :
    let items8 : List (String × Nat) :=
      [("a", 0), ("b", 1), ("c", 2), ("d", 3), ("e", 4), ("f", 5), ("g", 6), ("h", 7)]
    findLin items8 "c2" = findSpec (items8.map Prod.fst) "c2" ∧
    (findBin items8 "c2").toNat = findSpec (items8.map Prod.fst) "c2" ∧
    nodeFind items8 "c2" = findSpec (items8.map Prod.fst) "c2" ∧
    findSpec (items8.map Prod.fst) "c2" ≤ items8.length ∧
    (∀ hlt : findSpec (items8.map Prod.fst) "c2" < items8.length,
        "c2" < (getElem items8 (findSpec (items8.map Prod.fst) "c2") hlt).1) ∧
    (∀ i (hi : i < items8.length), i < findSpec (items8.map Prod.fst) "c2" →
        ¬ "c2" < (getElem items8 (i) hi).1) := by
  intro items8
  exact find_branches_agree items8 "c2" (by
    simp [List.pairwise_cons]
    decide)

/-- C5 (refuted by the code): the serializer/parser round-trip fails on
a name containing a comma.  `Block.assignstring_` escapes the comma,
but `Block.parse` un-escapes with `spatc.sub(b"\1", x)` whose
replacement template is the single byte `0x01` (not a backreference),
so the name comes back as `a\x01b` rather than `a,b`. -/
theorem assign_parse_comma_roundtrip_bug :
    (assignM (fun _ => List.replicate 64 '0') 1024 (freshData 1024)
        [("items", .vlist [("a,b", [1, 2])])]).2 = true ∧
    pyParse (assignM (fun _ => List.replicate 64 '0') 1024 (freshData 1024)
        [("items", .vlist [("a,b", [1, 2])])]).1 =
      .ok [("items", .vlist [("a\x01b", [1, 2])])] ∧
    ("a\x01b" : String) ≠ "a,b" := by
  refine ⟨by decide, by decide, by decide⟩

/-- C1 (refuted by the code): insert and lookup agree in memory, but
after the leaf is serialized to its block and reloaded, looking up the
same comma-carrying name fails — the block parser collapsed the escaped
comma to the byte `0x01`, so the stored name no longer matches. -/
theorem insert_reload_lookup_bug :
    insertTop defaultCfg (.leaf 1 []) 2 "a,b" (10, 20) =
      .ok (.leaf 1 [("a,b", (10, 20))], 2, true) ∧
    lookupM "a,b" (.leaf 1 [("a,b", (10, 20))]) = .ok (10, 20) ∧
    (pyParse (assignM (fun _ => List.replicate 64 '0') 1024 (freshData 1024)
        (blockitems (.leaf 1 [("a,b", (10, 20))]))).1) =
      .ok [("leaf", .vint 1), ("blockno", .vint 1),
        ("items", .vlist [("a\x01b", [10, 20])])] ∧
    leafOfDict [("leaf", .vint 1), ("blockno", .vint 1),
        ("items", .vlist [("a\x01b", [10, 20])])] =
      some (.leaf 1 [("a\x01b", (10, 20))]) ∧
    lookupM "a,b" (.leaf 1 [("a\x01b", (10, 20))]) =
      .error "a,b not found (leaf)!" := by
  refine ⟨?_, ?_, by decide, by rfl, ?_⟩
  · have hns : needSplit ⟨1024, 100, 160, 193, true⟩
        (.leaf 1 [("a,b", (10, 20))]) = false := by
      decide
    have h1 : ¬ ((160 : Int) < ("a,b".length : Int)) := by decide
    rw [insertTop, insertAux]
    norm_num [nodeFind, findLin, adjustOnce, hns, defaultCfg, h1]
  · rw [lookupM]
    norm_num [nodeFind, findLin]
  · rw [lookupM]
    have hlt : ¬ ("a,b" : String) < "a\x01b" := by
      simp
      decide
    have hne : ("a\x01b" : String) ≠ "a,b" := by decide
    norm_num [nodeFind, findLin, hlt, hne]
    rfl

/-! ## Claim C10: `Block.assign` is total and atomic on failure -/

theorem writeAt_length (l : List Char) (p : Nat) (r : List Char)
    (h : p + r.length ≤ l.length) : (writeAt l p r).length = l.length := by
  simp [writeAt]
  omega

theorem writeAt_take (l : List Char) (p : Nat) (r : List Char)
    (h : p ≤ l.length) : (writeAt l p r).take p = l.take p := by
  have h1 : (l.take p).length = p := by
    simp [List.length_take]
    omega
  rw [writeAt, List.append_assoc]
  rw [List.take_append_of_le_length (by omega)]
  rw [List.take_take]
  congr 1
  omega

theorem drop_left_eq {α : Type} (l1 l2 : List α) (n : Nat) (h : l1.length = n) :
    (l1 ++ l2).drop n = l2 := by
  rw [← h, List.drop_left]

theorem take_left_eq {α : Type} (l1 l2 : List α) (n : Nat) (h : l1.length = n) :
    (l1 ++ l2).take n = l1 := by
  rw [← h, List.take_left]

theorem writeAt_extract (l : List Char) (p : Nat) (r : List Char)
    (h : p ≤ l.length) : ((writeAt l p r).drop p).take r.length = r := by
  have h1 : (l.take p).length = p := by
    simp [List.length_take]
    omega
  have h2 : (writeAt l p r).drop p = r ++ l.drop (p + r.length) := by
    rw [writeAt, List.append_assoc]
    exact drop_left_eq _ _ p h1
  rw [h2]
  exact take_left_eq r _ r.length rfl

theorem writeAt_drop (l : List Char) (p : Nat) (r1 r2 : List Char)
    (hl : r1.length = r2.length) (h : p ≤ l.length) :
    (writeAt l p r1).drop (p + r2.length) = l.drop (p + r2.length) := by
  have h1 : (l.take p).length = p := by
    simp [List.length_take]
    omega
  rw [← hl, writeAt]
  exact drop_left_eq _ _ (p + r1.length) (by simp [h1])

theorem writeAt_overwrite (l : List Char) (p : Nat) (r1 r2 : List Char)
    (hl : r1.length = r2.length) (h : p + r1.length ≤ l.length) :
    writeAt (writeAt l p r1) p r2 = writeAt l p r2 := by
  rw [show writeAt (writeAt l p r1) p r2 =
      (writeAt l p r1).take p ++ r2 ++ (writeAt l p r1).drop (p + r2.length) from rfl]
  rw [writeAt_take l p r1 (by omega), writeAt_drop l p r1 r2 hl (by omega)]
  rfl

/-- A freshly hashed page passes the hash check, whatever the digest
function is. -/
theorem checkhash_makehash (hexdigest : List Char → List Char)
    (hlen : ∀ l, (hexdigest l).length = 64)
    (data : List Char) (hbig : 72 ≤ data.length) :
    checkhashM hexdigest (makehashM hexdigest data) = true := by
  simp only [checkhashM, makehashM]
  have hblank : blankHashField.length = 64 := by
    simp [blankHashField]
  have hbl : (writeAt data 7 blankHashField).length = data.length :=
    writeAt_length data 7 blankHashField (by omega)
  have hex : ((writeAt (writeAt data 7 blankHashField) 7
      (hexdigest (writeAt data 7 blankHashField))).drop 7).take 64 =
      hexdigest (writeAt data 7 blankHashField) := by
    have h2 := writeAt_extract (writeAt data 7 blankHashField) 7
      (hexdigest (writeAt data 7 blankHashField)) (by omega)
    rw [hlen] at h2
    exact h2
  have hover : writeAt (writeAt (writeAt data 7 blankHashField) 7
      (hexdigest (writeAt data 7 blankHashField))) 7 blankHashField =
      writeAt data 7 blankHashField := by
    rw [writeAt_overwrite _ 7 _ _ (by rw [hlen, hblank]) (by rw [hlen]; omega)]
    exact writeAt_overwrite data 7 blankHashField blankHashField rfl (by omega)
  rw [decide_eq_true_eq]
  rw [hover, hex]

/-- Length of a rehashed page. -/
theorem makehash_length (hexdigest : List Char → List Char)
    (hlen : ∀ l, (hexdigest l).length = 64)
    (data : List Char) (hbig : 72 ≤ data.length) :
    (makehashM hexdigest data).length = data.length := by
  simp only [makehashM]
  have hblank : blankHashField.length = 64 := by
    simp [blankHashField]
  have hbl : (writeAt data 7 blankHashField).length = data.length :=
    writeAt_length data 7 blankHashField (by omega)
  rw [writeAt_length _ 7 _ (by rw [hlen]; omega)]
  exact hbl

/-- C10: `Block.assign` is total and atomic on failure: when the
serialized items do not fit below the block size it returns `False`
with every byte of the page unchanged; when they fit it returns `True`,
the page keeps its size and the result passes `checkhash`, for any
digest function producing 64-byte digests. -/
theorem assign_total_atomic (hexdigest : List Char → List Char)
    (hlen : ∀ l, (hexdigest l).length = 64)
    (bs : Nat) (data : List Char) (hdata : data.length = bs) (d : PyDict) :
    (72 + (assignstring_ d).length > bs →
      assignM hexdigest bs data d = (data, false)) ∧
    (72 + (assignstring_ d).length ≤ bs →
      (assignM hexdigest bs data d).2 = true ∧
      checkhashM hexdigest (assignM hexdigest bs data d).1 = true ∧
      (assignM hexdigest bs data d).1.length = data.length) := by
  constructor
  · intro hgt
    rw [assignM]
    simp only [if_pos hgt]
  · intro hle
    have hnot : ¬ 72 + (assignstring_ d).length > bs := by omega
    rw [assignM]
    simp only [if_neg hnot]
    have hwl : (writeAt data 72 (assignstring_ d)).length = data.length :=
      writeAt_length data 72 _ (by omega)
    refine ⟨by trivial, ?_, ?_⟩
    · exact checkhash_makehash hexdigest hlen _ (by omega)
    · rw [makehash_length hexdigest hlen _ (by omega)]
      exact hwl

set_option maxRecDepth 2000 in
theorem assign_total_atomic_witness :
    (72 + (assignstring_ [("x", PyVal.vint 1)]).length > 200 →
      assignM (fun _ => List.replicate 64 '0') 200 (freshData 200)
        [("x", PyVal.vint 1)] = (freshData 200, false)) ∧
    (72 + (assignstring_ [("x", PyVal.vint 1)]).length ≤ 200 →
      (assignM (fun _ => List.replicate 64 '0') 200 (freshData 200)
        [("x", PyVal.vint 1)]).2 = true ∧
      checkhashM (fun _ => List.replicate 64 '0')
        (assignM (fun _ => List.replicate 64 '0') 200 (freshData 200)
          [("x", PyVal.vint 1)]).1 = true ∧
      (assignM (fun _ => List.replicate 64 '0') 200 (freshData 200)
        [("x", PyVal.vint 1)]).1.length = (freshData 200).length) :=
  assign_total_atomic (fun _ => List.replicate 64 '0')
    (fun l => by simp) 200 (freshData 200) (by decide) [("x", PyVal.vint 1)]

/-- C7 (amended): inserting an over-long name raises the
name-too-long error of `BlockTree.insert` and returns no new tree, but
only after the tail-log record has been appended and flushed — the
rejection does not precede the append. -/
theorem insert_too_long_rejects_after_append (cfg : Cfg) (log : List Char)
    (t : PTree) (free : Int) (name : String) (offset size : Int)
    (hname : (name.length : Int) > cfg.maxnamelen) :
    (imInsert cfg false log t free name offset size).2 =
      .error "Insert: key too long" ∧
    (imInsert cfg false log t free name offset size).1 =
      log ++ (escapeStr name.data ++ ',' :: intStr offset ++ ',' :: intStr size
        ++ ['\n']) := by
  rw [imInsert, if_neg (by simp)]
  constructor
  · rw [insertTop, if_pos hname]
  · rfl

set_option maxRecDepth 2000 in
theorem insert_too_long_rejects_after_append_witness :
    (imInsert defaultCfg false [] (.leaf 1 []) 2 (String.mk (List.replicate 161 'x'))
        1 2).2 = .error "Insert: key too long" ∧
    (imInsert defaultCfg false [] (.leaf 1 []) 2 (String.mk (List.replicate 161 'x'))
        1 2).1 =
      [] ++ (escapeStr (String.mk (List.replicate 161 'x')).data ++
        ',' :: intStr 1 ++ ',' :: intStr 2 ++ ['\n']) :=
  insert_too_long_rejects_after_append defaultCfg [] (.leaf 1 []) 2
    (String.mk (List.replicate 161 'x')) 1 2 (by decide)

set_option maxRecDepth 2000 in
/-- C7 (counterexample to the claimed order): for a 161-byte name under
the default 160-byte limit, the insert raises, yet the tail log did
receive the record — the index state is not unchanged. -/
theorem insert_too_long_appends_counterexample :
    (imInsert defaultCfg false [] (.leaf 1 []) 2 (String.mk (List.replicate 161 'x'))
        1 2).2 = .error "Insert: key too long" ∧
    (imInsert defaultCfg false [] (.leaf 1 []) 2 (String.mk (List.replicate 161 'x'))
        1 2).1 ≠ [] := by
  constructor
  · rw [imInsert, if_neg (by simp), insertTop, if_pos (by decide)]
  · rw [imInsert, if_neg (by simp)]
    simp [escapeStr]

/-- C9 (amended): `exist` returns `True` exactly when the lookup
succeeds and `False` exactly when the lookup raises — any exception,
not only the not-found ones, is converted to `False`. -/
theorem exist_true_iff_lookup_ok (key : String) (t : PTree) :
    (existM key t = true ↔ ∃ v, lookupM key t = .ok v) ∧
    (existM key t = false ↔ ∃ e, lookupM key t = .error e) := by
  rw [existM, existE.eq_def]
  constructor
  · constructor
    · intro h
      split at h
      · rename_i v heq
        exact ⟨v, heq⟩
      · simp at h
    · intro ⟨v, hv⟩
      rw [hv]
  · constructor
    · intro h
      split at h
      · simp at h
      · rename_i e heq
        exact ⟨e, heq⟩
    · intro ⟨e, he⟩
      rw [he]

theorem exist_true_iff_lookup_ok_witness :
    (existM "a" (.leaf 1 [("a", (3, 4))]) = true ↔
      ∃ v, lookupM "a" (.leaf 1 [("a", (3, 4))]) = .ok v) ∧
    (existM "a" (.leaf 1 [("a", (3, 4))]) = false ↔
      ∃ e, lookupM "a" (.leaf 1 [("a", (3, 4))]) = .error e) :=
  exist_true_iff_lookup_ok "a" (.leaf 1 [("a", (3, 4))])

/-- C9 (counterexample to the claimed propagation): an invalid-block
error raised inside the lookup — the very message `readblock` raises —
is converted to `False` by the catch-all `except`, where the claim
demands it reach the caller of `exist`. -/
theorem exist_swallows_invalid_block :
    existE (.error "Invalid block!") = false ∧
    existSpecL (.error "Invalid block!") = .error "Invalid block!" := by
  constructor
  · rfl
  · decide

/-- C6: `last()` returns `None` exactly on an empty tail log; its result
depends only on the last `2*maxreclen + 1` bytes of the log; a final
line carrying a three-field record is returned; a final line that fails
to parse gives way to the line before it; and when both of the last two
candidates fail — or when a failing final line is the only line —
`last()` raises instead of returning a value. -/
theorem last_retry_budget (m : Nat) (log : List Char) :
    (lastM m log = .ok none ↔ log = []) ∧
    (∀ log2 : List Char, log ≠ [] → log2 ≠ [] →
      log.drop (log.length - (2 * m + 1)) = log2.drop (log2.length - (2 * m + 1)) →
      lastM m log = lastM m log2) ∧
    (∀ ls rec, log ≠ [] →
      splitlinesAscii (log.drop (log.length - (2 * m + 1))) = ls ++ [rec] →
      (∀ r, lastAttempt rec = some (some r) → lastM m log = .ok (some r)) ∧
      ((lastAttempt rec = none ∨ lastAttempt rec = some none) →
        ((∀ ls2 rec2, ls = ls2 ++ [rec2] →
          (∀ r2, lastAttempt rec2 = some (some r2) → lastM m log = .ok (some r2)) ∧
          ((lastAttempt rec2 = none ∨ lastAttempt rec2 = some none) →
            lastM m log = .error "Incorrect data at end of lstfile")) ∧
        (ls = [] → lastM m log = .error "IndexError")))) := by
  have hlen0 : log.length = 0 ↔ log = [] := List.length_eq_zero
  refine ⟨?_, ?_, ?_⟩
  · constructor
    · intro h
      by_cases hne : log = []
      · exact hne
      · exfalso
        rw [lastM, if_neg (by rw [hlen0]; exact hne)] at h
        split at h
        · simp at h
        · split at h
          · simp at h
          · split at h
            · simp at h
            · split at h
              · simp at h
              · split at h
                · simp at h
                · simp at h
    · intro h
      rw [h, lastM]
      simp
  · intro log2 hne hne2 hwin
    have h1 : ¬ (log.length = 0) := by rw [hlen0]; exact hne
    have h2 : ¬ (log2.length = 0) := by rw [List.length_eq_zero]; exact hne2
    rw [lastM, lastM, if_neg h1, if_neg h2, hwin]
  · intro ls rec hne hsplit
    rw [lastM, if_neg (by rw [hlen0]; exact hne), hsplit]
    have hlast : (ls ++ [rec]).getLast? = some rec := List.getLast?_concat ls
    constructor
    · intro r hr
      simp only [hlast, hr]
    · intro hfail
      constructor
      · intro ls2 rec2 hls2
        subst hls2
        have hlen2 : ¬ (((ls2 ++ [rec2]) ++ [rec]).length < 2) := by
          simp [List.length_append]
        have hidx : ((ls2 ++ [rec2]) ++ [rec]).length - 2 = ls2.length := by
          simp [List.length_append]
        have hget : ((ls2 ++ [rec2]) ++ [rec])[ls2.length]? = some rec2 := by
          rw [List.getElem?_append_left (by simp [List.length_append])]
          exact List.getElem?_concat_length ls2 rec2
        constructor
        · intro r2 hr2
          rcases hfail with hf | hf
          · simp only [hlast, hf, if_neg hlen2, hidx, hget, hr2]
          · simp only [hlast, hf, if_neg hlen2, hidx, hget, hr2]
        · intro hfail2
          rcases hfail with hf | hf <;> rcases hfail2 with hf2 | hf2 <;>
            simp only [hlast, hf, if_neg hlen2, hidx, hget, hf2]
      · intro hls
        subst hls
        rcases hfail with hf | hf <;> simp [hf]

theorem last_retry_budget_witness :
    (lastM 5 "x,1,2\nbad\n".data = .ok none ↔ "x,1,2\nbad\n".data = []) ∧
    (∀ log2 : List Char, "x,1,2\nbad\n".data ≠ [] → log2 ≠ [] →
      "x,1,2\nbad\n".data.drop ("x,1,2\nbad\n".data.length - (2 * 5 + 1)) =
        log2.drop (log2.length - (2 * 5 + 1)) →
      lastM 5 "x,1,2\nbad\n".data = lastM 5 log2) ∧
    (∀ ls rec, "x,1,2\nbad\n".data ≠ [] →
      splitlinesAscii ("x,1,2\nbad\n".data.drop
        ("x,1,2\nbad\n".data.length - (2 * 5 + 1))) = ls ++ [rec] →
      (∀ r, lastAttempt rec = some (some r) →
        lastM 5 "x,1,2\nbad\n".data = .ok (some r)) ∧
      ((lastAttempt rec = none ∨ lastAttempt rec = some none) →
        ((∀ ls2 rec2, ls = ls2 ++ [rec2] →
          (∀ r2, lastAttempt rec2 = some (some r2) →
            lastM 5 "x,1,2\nbad\n".data = .ok (some r2)) ∧
          ((lastAttempt rec2 = none ∨ lastAttempt rec2 = some none) →
            lastM 5 "x,1,2\nbad\n".data =
              .error "Incorrect data at end of lstfile")) ∧
        (ls = [] → lastM 5 "x,1,2\nbad\n".data = .error "IndexError")))) :=
  last_retry_budget 5 "x,1,2\nbad\n".data

theorem fileWrite_eq_writeAt (file repl : List Char) (pos : Nat)
    (h : pos ≤ file.length) : fileWrite file pos repl = writeAt file pos repl := by
  rw [fileWrite, writeAt, Nat.sub_eq_zero_of_le h]
  simp

theorem fileWrite_append (file repl : List Char) (pos : Nat)
    (h : pos = file.length) : fileWrite file pos repl = file ++ repl := by
  subst h
  simp [fileWrite]

theorem blockOfDict_fit (hexdigest : List Char → List Char) (bs : Nat) (d : PyDict)
    (hfit : 72 + (assignstring_ d).length ≤ bs) :
    blockOfDict hexdigest bs d =
      makehashM hexdigest (writeAt (freshData bs) 72 (assignstring_ d)) := by
  rw [blockOfDict, assignM]
  rw [if_neg (by omega)]

theorem freshData_length (bs : Nat) (hbs : 72 ≤ bs) : (freshData bs).length = bs := by
  have h7 : headerData.length = 72 := by
    simp [headerData, blankHashField]
  simp [freshData, h7]
  omega

theorem blockOfDict_fit_length (hexdigest : List Char → List Char) (bs : Nat)
    (d : PyDict) (hlen64 : ∀ l, (hexdigest l).length = 64) (hbs : 72 ≤ bs)
    (hfit : 72 + (assignstring_ d).length ≤ bs) :
    (blockOfDict hexdigest bs d).length = bs := by
  rw [blockOfDict_fit hexdigest bs d hfit]
  have hw : (writeAt (freshData bs) 72 (assignstring_ d)).length = bs := by
    rw [writeAt_length _ _ _ (by rw [freshData_length bs hbs]; omega)]
    exact freshData_length bs hbs
  rw [makehash_length hexdigest hlen64 _ (by rw [hw]; omega)]
  exact hw

theorem blockOfDict_fit_valid (hexdigest : List Char → List Char) (bs : Nat)
    (d : PyDict) (hlen64 : ∀ l, (hexdigest l).length = 64) (hbs : 72 ≤ bs)
    (hfit : 72 + (assignstring_ d).length ≤ bs) :
    checkhashM hexdigest (blockOfDict hexdigest bs d) = true := by
  rw [blockOfDict_fit hexdigest bs d hfit]
  have hw : (writeAt (freshData bs) 72 (assignstring_ d)).length = bs := by
    rw [writeAt_length _ _ _ (by rw [freshData_length bs hbs]; omega)]
    exact freshData_length bs hbs
  exact checkhash_makehash hexdigest hlen64 _ (by rw [hw]; omega)

theorem slotBytes_writeAt_self (bs : Nat) (file r : List Char) (p : Nat)
    (hr : r.length = bs) (h : bs * p ≤ file.length) :
    slotBytes bs (writeAt file (bs * p) r) p = r := by
  rw [slotBytes]
  have h2 := writeAt_extract file (bs * p) r h
  rw [hr] at h2
  exact h2

theorem slotBytes_writeAt_low (bs : Nat) (file r : List Char) (p q : Nat)
    (hq : bs * q + bs ≤ bs * p) (hp : bs * p ≤ file.length) :
    slotBytes bs (writeAt file (bs * p) r) q = slotBytes bs file q := by
  rw [slotBytes, slotBytes, List.take_drop, List.take_drop]
  have ht : (writeAt file (bs * p) r).take (bs * q + bs) = file.take (bs * q + bs) := by
    have h1 : (writeAt file (bs * p) r).take (bs * p) = file.take (bs * p) :=
      writeAt_take file (bs * p) r hp
    calc (writeAt file (bs * p) r).take (bs * q + bs)
        = ((writeAt file (bs * p) r).take (bs * p)).take (bs * q + bs) := by
          rw [List.take_take]
          congr 1
          omega
      _ = (file.take (bs * p)).take (bs * q + bs) := by rw [h1]
      _ = file.take (bs * q + bs) := by
          rw [List.take_take]
          congr 1
          omega
  rw [ht]

theorem slotBytes_writeAt_high (bs : Nat) (file r : List Char) (p q : Nat)
    (hr : r.length = bs) (hq : bs * p + bs ≤ bs * q) (hp : bs * p ≤ file.length) :
    slotBytes bs (writeAt file (bs * p) r) q = slotBytes bs file q := by
  rw [slotBytes, slotBytes]
  have hd : (writeAt file (bs * p) r).drop (bs * q) = file.drop (bs * q) := by
    obtain ⟨k, hk⟩ : ∃ k, bs * q = (bs * p + bs) + k := ⟨bs * q - (bs * p + bs), by omega⟩
    have hlen : (file.take (bs * p) ++ r).length = bs * p + bs := by
      simp [List.length_take, hr]
      omega
    rw [writeAt, List.append_assoc, ← List.append_assoc, hk, ← hlen]
    rw [List.drop_append k]
    rw [List.drop_drop]
    congr 1
    omega
  rw [hd]

/-- C4: the two-slot write protocol of `BlockFile.writeblock`, for
payloads whose serialization (with the bumped seqno) fits the block:
overwriting an existing block `n ≤ lastblock` writes one freshly hashed
page carrying seqno `s+1` (`s` the winning slot's seqno) to the losing
slot only, leaving the winning slot's bytes unchanged; writing block
`lastblock + 1` appends two identical seqno-1 pages and advances
`lastblock`; writing further beyond the end fails without touching the
file. -/
theorem writeblock_two_slot_protocol (hexdigest : List Char → List Char)
    (bs : Nat) (file : List Char) (lastblock blockno : Nat) (items : PyDict)
    (hlen64 : ∀ l, (hexdigest l).length = 64) (hbs : 72 ≤ bs)
    (hb1 : 1 ≤ blockno) :
    (∀ i1 s1 i2 s2, blockno ≤ lastblock →
      bs * (2 * lastblock + 1) ≤ file.length →
      getbothblocks_ hexdigest bs file blockno = .ok (some (i1, s1), some (i2, s2)) →
      s2 < s1 →
      72 + (assignstring_ (dictSet items "seqno" (.vint (s1 + 1)))).length ≤ bs →
      ∃ file2,
        writeblockM hexdigest bs file lastblock blockno items = .ok (file2, lastblock) ∧
        slotBytes bs file2 (2 * blockno) =
          blockOfDict hexdigest bs (dictSet items "seqno" (.vint (s1 + 1))) ∧
        checkhashM hexdigest (slotBytes bs file2 (2 * blockno)) = true ∧
        slotBytes bs file2 (2 * blockno - 1) = slotBytes bs file (2 * blockno - 1) ∧
        file2.length = file.length) ∧
    (∀ i1 s1 i2 s2, blockno ≤ lastblock →
      bs * (2 * lastblock + 1) ≤ file.length →
      getbothblocks_ hexdigest bs file blockno = .ok (some (i1, s1), some (i2, s2)) →
      s1 ≤ s2 → 0 < s2 →
      72 + (assignstring_ (dictSet items "seqno" (.vint (s2 + 1)))).length ≤ bs →
      ∃ file2,
        writeblockM hexdigest bs file lastblock blockno items = .ok (file2, lastblock) ∧
        slotBytes bs file2 (2 * blockno - 1) =
          blockOfDict hexdigest bs (dictSet items "seqno" (.vint (s2 + 1))) ∧
        checkhashM hexdigest (slotBytes bs file2 (2 * blockno - 1)) = true ∧
        slotBytes bs file2 (2 * blockno) = slotBytes bs file (2 * blockno) ∧
        file2.length = file.length) ∧
    (blockno = lastblock + 1 →
      file.length = bs * (2 * lastblock + 1) →
      72 + (assignstring_ (dictSet items "seqno" (.vint 1))).length ≤ bs →
      writeblockM hexdigest bs file lastblock blockno items =
        .ok (file ++ blockOfDict hexdigest bs (dictSet items "seqno" (.vint 1))
          ++ blockOfDict hexdigest bs (dictSet items "seqno" (.vint 1)), blockno) ∧
      slotBytes bs (file ++ blockOfDict hexdigest bs (dictSet items "seqno" (.vint 1))
          ++ blockOfDict hexdigest bs (dictSet items "seqno" (.vint 1))) (2 * blockno - 1) =
        blockOfDict hexdigest bs (dictSet items "seqno" (.vint 1)) ∧
      slotBytes bs (file ++ blockOfDict hexdigest bs (dictSet items "seqno" (.vint 1))
          ++ blockOfDict hexdigest bs (dictSet items "seqno" (.vint 1))) (2 * blockno) =
        blockOfDict hexdigest bs (dictSet items "seqno" (.vint 1)) ∧
      checkhashM hexdigest (blockOfDict hexdigest bs (dictSet items "seqno" (.vint 1))) = true) ∧
    (lastblock + 1 < blockno →
      ∃ e, writeblockM hexdigest bs file lastblock blockno items = .error e) := by
  refine ⟨?_, ?_, ?_, ?_⟩
  · intro i1 s1 i2 s2 hble hflen hgb hgt hfit
    have hBlen : (blockOfDict hexdigest bs
        (dictSet items "seqno" (.vint (s1 + 1)))).length = bs :=
      blockOfDict_fit_length hexdigest bs _ hlen64 hbs hfit
    have hmul : bs * (2 * blockno) + bs ≤ bs * (2 * lastblock + 1) := by
      calc bs * (2 * blockno) + bs = bs * (2 * blockno + 1) := by ring
        _ ≤ bs * (2 * lastblock + 1) := Nat.mul_le_mul_left bs (by omega)
    have hpos : bs * (2 * blockno) + bs ≤ file.length := le_trans hmul hflen
    refine ⟨fileWrite file (bs * (2 * blockno))
      (blockOfDict hexdigest bs (dictSet items "seqno" (.vint (s1 + 1)))),
      ?_, ?_, ?_, ?_, ?_⟩
    · rw [writeblockM, if_pos hble]
      simp only [hgb, seqnoOf]
      rw [if_pos (by exact_mod_cast hgt)]
    · rw [fileWrite_eq_writeAt _ _ _ (by omega)]
      exact slotBytes_writeAt_self bs file _ _ hBlen (by omega)
    · rw [fileWrite_eq_writeAt _ _ _ (by omega)]
      rw [slotBytes_writeAt_self bs file _ _ hBlen (by omega)]
      exact blockOfDict_fit_valid hexdigest bs _ hlen64 hbs hfit
    · rw [fileWrite_eq_writeAt _ _ _ (by omega)]
      exact slotBytes_writeAt_low bs file _ _ _
        (by have : bs * (2 * blockno - 1) + bs = bs * (2 * blockno) := by
              have h2 : (2 * blockno - 1) + 1 = 2 * blockno := by omega
              calc bs * (2 * blockno - 1) + bs = bs * ((2 * blockno - 1) + 1) := by ring
                _ = bs * (2 * blockno) := by rw [h2]
            omega)
        (by omega)
    · rw [fileWrite_eq_writeAt _ _ _ (by omega)]
      exact writeAt_length _ _ _ (by rw [hBlen]; omega)
  · intro i1 s1 i2 s2 hble hflen hgb hle2 hpos2 hfit
    have hBlen : (blockOfDict hexdigest bs
        (dictSet items "seqno" (.vint (s2 + 1)))).length = bs :=
      blockOfDict_fit_length hexdigest bs _ hlen64 hbs hfit
    have hstep : bs * (2 * blockno - 1) + bs = bs * (2 * blockno) := by
      have h2 : (2 * blockno - 1) + 1 = 2 * blockno := by omega
      calc bs * (2 * blockno - 1) + bs = bs * ((2 * blockno - 1) + 1) := by ring
        _ = bs * (2 * blockno) := by rw [h2]
    have hmul : bs * (2 * blockno) + bs ≤ bs * (2 * lastblock + 1) := by
      calc bs * (2 * blockno) + bs = bs * (2 * blockno + 1) := by ring
        _ ≤ bs * (2 * lastblock + 1) := Nat.mul_le_mul_left bs (by omega)
    have hpos : bs * (2 * blockno) + bs ≤ file.length := le_trans hmul hflen
    refine ⟨fileWrite file (bs * (2 * blockno - 1))
      (blockOfDict hexdigest bs (dictSet items "seqno" (.vint (s2 + 1)))),
      ?_, ?_, ?_, ?_, ?_⟩
    · rw [writeblockM, if_pos hble]
      simp only [hgb, seqnoOf]
      rw [if_neg (by exact_mod_cast not_lt.mpr hle2), if_pos (by exact_mod_cast hpos2)]
    · rw [fileWrite_eq_writeAt _ _ _ (by omega)]
      exact slotBytes_writeAt_self bs file _ _ hBlen (by omega)
    · rw [fileWrite_eq_writeAt _ _ _ (by omega)]
      rw [slotBytes_writeAt_self bs file _ _ hBlen (by omega)]
      exact blockOfDict_fit_valid hexdigest bs _ hlen64 hbs hfit
    · rw [fileWrite_eq_writeAt _ _ _ (by omega)]
      exact slotBytes_writeAt_high bs file _ _ _ hBlen (by omega) (by omega)
    · rw [fileWrite_eq_writeAt _ _ _ (by omega)]
      exact writeAt_length _ _ _ (by omega)
  · intro hbeq hflen hfit
    have hBlen : (blockOfDict hexdigest bs
        (dictSet items "seqno" (.vint 1))).length = bs :=
      blockOfDict_fit_length hexdigest bs _ hlen64 hbs hfit
    have hstep : bs * (2 * blockno - 1) + bs = bs * (2 * blockno) := by
      have h2 : (2 * blockno - 1) + 1 = 2 * blockno := by omega
      calc bs * (2 * blockno - 1) + bs = bs * ((2 * blockno - 1) + 1) := by ring
        _ = bs * (2 * blockno) := by rw [h2]
    have hposTo : bs * (2 * blockno - 1) = file.length := by
      have h2 : 2 * blockno - 1 = 2 * lastblock + 1 := by omega
      rw [h2, hflen]
    refine ⟨?_, ?_, ?_, ?_⟩
    · rw [writeblockM, if_neg (by omega), if_neg (by omega)]
      rw [fileWrite_append _ _ _ hposTo]
      rw [fileWrite_append _ _ _ (by simp [List.length_append, hBlen, hposTo])]
    · rw [slotBytes, List.append_assoc]
      rw [drop_left_eq file _ _ hposTo.symm]
      exact take_left_eq _ _ _ hBlen
    · rw [slotBytes]
      have hl2 : (file ++ blockOfDict hexdigest bs
          (dictSet items "seqno" (.vint 1))).length = bs * (2 * blockno) := by
        simp [List.length_append, hBlen]
        omega
      rw [drop_left_eq _ _ _ hl2]
      have h3 := List.take_length (blockOfDict hexdigest bs (dictSet items "seqno" (.vint 1)))
      rw [hBlen] at h3
      exact h3
    · exact blockOfDict_fit_valid hexdigest bs _ hlen64 hbs hfit
  · intro hgt
    refine ⟨"Writing more than one block beying end of file", ?_⟩
    rw [writeblockM, if_neg (by omega), if_pos (by omega)]

set_option maxRecDepth 8000 in
/-- An oversized payload refutes the unconditional protocol claim:
`writeblock` reports success for block `lastblock + 1`, but both pages
written are a fresh unhashed page carrying neither the payload nor a
seqno — `Block.__init__` discards `assign`'s failure — and the written
slot does not pass the hash check. -/
theorem writeblock_overflow_counterexample :
    writeblockM constHex 80 (List.replicate 80 'M') 0 1 [("blockno", .vint 1)] =
      .ok (List.replicate 80 'M' ++ freshData 80 ++ freshData 80, 1) ∧
    checkhashM constHex
      (slotBytes 80 (List.replicate 80 'M' ++ freshData 80 ++ freshData 80) 1) = false := by
  constructor
  · rfl
  · rfl

theorem writeblock_two_slot_protocol_witness :
    (∀ i1 s1 i2 s2, (1 : Nat) ≤ 0 →
      4096 * (2 * 0 + 1) ≤ (List.replicate 4096 'M').length →
      getbothblocks_ constHex 4096 (List.replicate 4096 'M') 1 =
        .ok (some (i1, s1), some (i2, s2)) →
      s2 < s1 →
      72 + (assignstring_ (dictSet [] "seqno" (.vint (s1 + 1)))).length ≤ 4096 →
      ∃ file2,
        writeblockM constHex 4096 (List.replicate 4096 'M') 0 1 [] = .ok (file2, 0) ∧
        slotBytes 4096 file2 (2 * 1) =
          blockOfDict constHex 4096 (dictSet [] "seqno" (.vint (s1 + 1))) ∧
        checkhashM constHex (slotBytes 4096 file2 (2 * 1)) = true ∧
        slotBytes 4096 file2 (2 * 1 - 1) =
          slotBytes 4096 (List.replicate 4096 'M') (2 * 1 - 1) ∧
        file2.length = (List.replicate 4096 'M').length) ∧
    (∀ i1 s1 i2 s2, (1 : Nat) ≤ 0 →
      4096 * (2 * 0 + 1) ≤ (List.replicate 4096 'M').length →
      getbothblocks_ constHex 4096 (List.replicate 4096 'M') 1 =
        .ok (some (i1, s1), some (i2, s2)) →
      s1 ≤ s2 → 0 < s2 →
      72 + (assignstring_ (dictSet [] "seqno" (.vint (s2 + 1)))).length ≤ 4096 →
      ∃ file2,
        writeblockM constHex 4096 (List.replicate 4096 'M') 0 1 [] = .ok (file2, 0) ∧
        slotBytes 4096 file2 (2 * 1 - 1) =
          blockOfDict constHex 4096 (dictSet [] "seqno" (.vint (s2 + 1))) ∧
        checkhashM constHex (slotBytes 4096 file2 (2 * 1 - 1)) = true ∧
        slotBytes 4096 file2 (2 * 1) = slotBytes 4096 (List.replicate 4096 'M') (2 * 1) ∧
        file2.length = (List.replicate 4096 'M').length) ∧
    ((1 : Nat) = 0 + 1 →
      (List.replicate 4096 'M').length = 4096 * (2 * 0 + 1) →
      72 + (assignstring_ (dictSet [] "seqno" (.vint 1))).length ≤ 4096 →
      writeblockM constHex 4096 (List.replicate 4096 'M') 0 1 [] =
        .ok (List.replicate 4096 'M' ++ blockOfDict constHex 4096 (dictSet [] "seqno" (.vint 1))
          ++ blockOfDict constHex 4096 (dictSet [] "seqno" (.vint 1)), 1) ∧
      slotBytes 4096 (List.replicate 4096 'M'
          ++ blockOfDict constHex 4096 (dictSet [] "seqno" (.vint 1))
          ++ blockOfDict constHex 4096 (dictSet [] "seqno" (.vint 1))) (2 * 1 - 1) =
        blockOfDict constHex 4096 (dictSet [] "seqno" (.vint 1)) ∧
      slotBytes 4096 (List.replicate 4096 'M'
          ++ blockOfDict constHex 4096 (dictSet [] "seqno" (.vint 1))
          ++ blockOfDict constHex 4096 (dictSet [] "seqno" (.vint 1))) (2 * 1) =
        blockOfDict constHex 4096 (dictSet [] "seqno" (.vint 1)) ∧
      checkhashM constHex (blockOfDict constHex 4096 (dictSet [] "seqno" (.vint 1))) = true) ∧
    (0 + 1 < 1 →
      ∃ e, writeblockM constHex 4096 (List.replicate 4096 'M') 0 1 [] = .error e) :=
  writeblock_two_slot_protocol constHex 4096 (List.replicate 4096 'M') 0 1 []
    (fun l => by simp [constHex]) (by decide) (by decide)
